import Mathlib

/-!
Shallow embedding of the `ttree` tree library (files `ttree/tree.py`,
`ttree/node.py`, `ttree/utils.py`, `ttree/common.py`, `ttree/exceptions.py`)
and proofs checking the specification's claims against it.

Modelling conventions:
* Node identifiers are natural numbers (the Python code uses arbitrary
  hashable ids such as strings or UUIDs; nothing in the verified claims
  depends on the id type).  Tags are strings, payloads are `Option String`
  (`none` models Python `None`).
* `Tree` subclasses `OrderedDict` in Python; it is modelled as an
  insertion-ordered association list together with the `root` field.
* Python exceptions are modelled with `Except TError`.  The extra
  constructor `TError.timeout` models non-termination of a source-level
  `while` loop: every loop of the source is given explicit fuel, and on
  well-formed trees we prove, or use, fuel bounds under which the loop ends.
* Callable parameters (`filtering`, `key`) become Lean functions.  Python's
  `sorted(..., key=key, reverse=reverse)` is a stable sort; it is modelled
  by a stable insertion sort parametrised by the strict comparison the key
  induces (for `key=None` the element comparison `Node.__lt__`, which
  compares tags).
* The back reference `Node._tree` is bookkeeping about object ownership
  with no structural content and is not modelled.
-/

namespace TTree

/-- Exceptions of `ttree/exceptions.py` that the modelled code can raise,
plus `timeout`, which stands for a source loop that would not terminate
(every source loop is run with explicit fuel here). -/
inductive TError where
  | nodeNotFound
  | multipleRoots
  | duplicatedNode
  | linkPastRootNode
  | loopError
  | valueError
  | timeout
deriving DecidableEq, Repr

/-- Traversal modes of `ttree/common.py` (`TraversalMode`). -/
inductive TraversalMode where
  | depth
  | width
  | zigzag
deriving DecidableEq, Repr

/-- Glyph triple of an `ASCIIMode` member: `(c_line, c_branch, c_corner)`. -/
structure ASCIIMode where
  line : String
  branch : String
  corner : String
deriving DecidableEq, Repr

/-- The `ex` glyph set, the default `ASCIIMode`. -/
def ASCIIMode.ex : ASCIIMode := ⟨"│", "├── ", "└── "⟩

/-- The `simple` glyph set. -/
def ASCIIMode.simple : ASCIIMode := ⟨"|", "|-- ", "+-- "⟩

/-- A node of `ttree/node.py`: id, tag, `expanded` flag, parent id,
ordered list of children ids and opaque payload. -/
structure Node where
  id : Nat
  tag : String
  expanded : Bool
  parent : Option Nat
  children : List Nat
  data : Option String
deriving DecidableEq, Repr

/-- `Node.add_child`: append a child id (`None` guard is vacuous for
`Nat`-valued ids). -/
def Node.add_child (n : Node) (c : Nat) : Node :=
  { n with children := n.children ++ [c] }

/-- `Node.remove_child`: remove the first occurrence of a child id if
present. -/
def Node.remove_child (n : Node) (c : Nat) : Node :=
  { n with children := n.children.erase c }

/-- `Node.is_leaf`: true when the children list is empty. -/
def Node.is_leaf (n : Node) : Bool := n.children.isEmpty

/-- The `Tree` object of `ttree/tree.py`: an insertion-ordered mapping from
node id to `Node` (the `OrderedDict` superclass) plus the `root` field. -/
structure Tree where
  root : Option Nat
  nodes : List (Nat × Node)
deriving DecidableEq, Repr

/-- The empty tree (`Tree()`). -/
def Tree.empty : Tree := ⟨none, []⟩

/-- Mapping lookup (`self[item]` / `item in self`): first binding of a key. -/
def findPairs : List (Nat × Node) → Nat → Option Node
  | [], _ => none
  | p :: rest, k => if p.1 = k then some p.2 else findPairs rest k

/-- Lookup of a node by id in the tree's mapping. -/
def Tree.find? (t : Tree) (k : Nat) : Option Node := findPairs t.nodes k

/-- Membership test `k in self`. -/
def Tree.mem (t : Tree) (k : Nat) : Bool := (t.find? k).isSome

/-- Mapping update `self[key] = value`: replace in place when the key is
present (order kept), append otherwise — `OrderedDict` semantics. -/
def setPairs : List (Nat × Node) → Nat → Node → List (Nat × Node)
  | [], k, v => [(k, v)]
  | p :: rest, k, v => if p.1 = k then (k, v) :: rest else p :: setPairs rest k v

/-- Mapping deletion `del self[key]` / `self.pop(key)`. -/
def delPairs : List (Nat × Node) → Nat → List (Nat × Node)
  | [], _ => []
  | p :: rest, k => if p.1 = k then rest else p :: delPairs rest k

/-- In-place mutation of the node stored under a present key (Python
mutates the shared `Node` object; all modelled call sites first check
presence). -/
def modPairs : List (Nat × Node) → Nat → (Node → Node) → List (Nat × Node)
  | [], _, _ => []
  | p :: rest, k, f => if p.1 = k then (k, f p.2) :: rest else p :: modPairs rest k f

/-- Insertion-ordered key list of the tree's mapping. -/
def Tree.keys (t : Tree) : List Nat := t.nodes.map Prod.fst

/-- Update the node stored under `k`. -/
def Tree.mod (t : Tree) (k : Nat) (f : Node → Node) : Tree :=
  { t with nodes := modPairs t.nodes k f }

/-- Store a node under `k`. -/
def Tree.set (t : Tree) (k : Nat) (v : Node) : Tree :=
  { t with nodes := setPairs t.nodes k v }

/-- Delete the binding of `k`. -/
def Tree.del (t : Tree) (k : Nat) : Tree :=
  { t with nodes := delPairs t.nodes k }

/-! ### Python's stable sort

`sorted(xs, key=key, reverse=reverse)` is modelled by a stable insertion
sort over the strict comparison `lt` that the key induces.  With
`reverse=True` Python keeps the sort stable while ordering descending;
`x` is inserted before `y` exactly when `y` must come strictly after `x`. -/

/-- Insert `x` into `l` in front of the first element that must come
strictly after it (`strictAfter x y = true` when `y` has to follow `x`). -/
def insStable (strictAfter : α → α → Bool) (x : α) : List α → List α
  | [] => [x]
  | y :: ys => if strictAfter x y then x :: y :: ys else y :: insStable strictAfter x ys

/-- Stable insertion sort used to model Python's `sorted`. -/
def sortStable (strictAfter : α → α → Bool) : List α → List α
  | [] => []
  | x :: xs => insStable strictAfter x (sortStable strictAfter xs)

/-- Model of `sorted(xs, key=key, reverse=reverse)` where `lt` is the
strict comparison induced by the key (or `Node.__lt__` when `key=None`). -/
def pySorted (lt : α → α → Bool) (reverse : Bool) (l : List α) : List α :=
  sortStable (fun x y => if reverse then lt y x else lt x y) l

/-- Python string comparison on char lists: lexicographic by code point. -/
def charsLt : List Char → List Char → Bool
  | _, [] => false
  | [], _ :: _ => true
  | a :: as, b :: bs =>
    if a.val < b.val then true
    else if b.val < a.val then false
    else charsLt as bs

/-- Python string `<`. -/
def strLt (a b : String) : Bool := charsLt a.data b.data

/-- `Node.__lt__`: comparison by tag, used by `sorted` when `key=None`. -/
def nodeLt (a b : Node) : Bool := strLt a.tag b.tag

/-! ### The traversal engine (`Tree.expand_tree`) -/

/-- Child `Node` objects of a node: `(self[i] for i in node.children)`.
In well-formed trees every child id is present; a dangling child id (which
would raise in Python) is skipped. -/
def childNodes (t : Tree) (n : Node) : List Node := n.children.filterMap t.find?

/-- Application of the optional `filtering` callable to a node generator. -/
def applyFilter (flt : Option (Node → Bool)) (l : List Node) : List Node :=
  match flt with
  | none => l
  | some φ => l.filter φ

/-- The `while queue:` loop of `expand_tree` for the DEPTH and WIDTH modes:
yield the head, expand its filtered and sorted children to the front
(depth) or the back (width) of the queue.  One unit of fuel is consumed per
yielded node. -/
def loopDW (t : Tree) (dep : Bool) (flt : Option (Node → Bool))
    (lt : Node → Node → Bool) (rev : Bool) : Nat → List Node → List Nat
  | 0, _ => []
  | _ + 1, [] => []
  | fuel + 1, q :: rest =>
    let expansion := pySorted lt rev (applyFilter flt (childNodes t q))
    q.id :: loopDW t dep flt lt rev fuel (if dep then expansion ++ rest else rest ++ expansion)

/-- The `while stack:` loop of `expand_tree` for the ZIGZAG mode.  `stack`
is the list being consumed, `other` the one being built; when `stack`
empties the two swap and the direction flips.  Children are filtered but
not sorted in this mode, and on alternate passes their order is reversed
before being pushed. -/
def loopZZ (t : Tree) (flt : Option (Node → Bool)) :
    Nat → List Node → List Node → Bool → List Nat
  | 0, _, _, _ => []
  | _ + 1, [], _, _ => []
  | fuel + 1, q :: rest, other, dir =>
    let expansion := applyFilter flt (childNodes t q)
    let expansion := if dir then expansion.reverse else expansion
    let other := expansion ++ other
    q.id :: (if rest.isEmpty then loopZZ t flt fuel other [] (!dir)
             else loopZZ t flt fuel rest other dir)

/-- `Tree.expand_tree(node_id, mode, filtering, key, reverse)`.  A `none`
start falls back to `self.root`; an absent (or absent-root) start raises
`NodeNotFound`.  The start node is tested against the filter before being
yielded; its children seed the mode's queue loop.  `lt` is the strict
comparison of the `key` argument (`nodeLt`, i.e. `Node.__lt__`, models
`key=None`). -/
def Tree.expand_tree (t : Tree) (node_id : Option Nat) (mode : TraversalMode)
    (flt : Option (Node → Bool)) (lt : Node → Node → Bool) (rev : Bool)
    (fuel : Nat) : Except TError (List Nat) :=
  match (match node_id with | none => t.root | some s => some s) with
  | none => .error .nodeNotFound
  | some nid =>
    match t.find? nid with
    | none => .error .nodeNotFound
    | some nd =>
      match flt with
      | some φ =>
        if φ nd then
          .ok (nid :: (let queue := (childNodes t nd).filter φ
            match mode with
            | .depth => loopDW t true (some φ) lt rev fuel (pySorted lt rev queue)
            | .width => loopDW t false (some φ) lt rev fuel (pySorted lt rev queue)
            | .zigzag => loopZZ t (some φ) fuel queue.reverse [] false))
        else .ok []
      | none =>
        .ok (nid :: (let queue := childNodes t nd
          match mode with
          | .depth => loopDW t true none lt rev fuel (pySorted lt rev queue)
          | .width => loopDW t false none lt rev fuel (pySorted lt rev queue)
          | .zigzag => loopZZ t none fuel queue.reverse [] false))

/-! ### Mutation operations -/

/-- `Tree.add_node(node, parent)`.  Checks for a duplicated id; with no
parent, checks the single-root rule and records the new root; with a
parent, checks its presence.  Then stores the node, appends its id to the
parent's children and overwrites the node's parent link. -/
def Tree.add_node (t : Tree) (node : Node) (parent : Option Nat) :
    Except TError Tree :=
  if (t.find? node.id).isSome then .error .duplicatedNode
  else
    match parent with
    | none =>
      if t.root.isSome then .error .multipleRoots
      else
        -- self.root = node.id; self[node.id] = node; pid not in self;
        -- self[node.id].parent = None
        let t : Tree := { root := some node.id, nodes := setPairs t.nodes node.id node }
        .ok (t.mod node.id (fun n => { n with parent := none }))
    | some pid =>
      if (t.find? pid).isNone then .error .nodeNotFound
      else
        let t := t.set node.id node
        let t := t.mod pid (fun n => n.add_child node.id)
        .ok (t.mod node.id (fun n => { n with parent := some pid }))

/-- `Tree.create_node(tag, id, parent, expanded, data)`: build a fresh
`Node` (empty children, no parent) and `add_node` it.  Auto-generated
UUID ids are not modelled; the id is explicit. -/
def Tree.create_node (t : Tree) (tag : String) (id : Nat)
    (parent : Option Nat) (expanded : Bool) (data : Option String) :
    Except TError Tree :=
  t.add_node ⟨id, tag, expanded, none, [], data⟩ parent

/-- `Tree.is_ancestor(ancestor, grandchild)` loop body: walk parent links
upward from the grandchild; `true` on meeting `ancestor`, `false` at a
parentless node.  Mirrors the source's re-lookup of `self[child].parent`;
fuel exhaustion models an unterminated walk on a cyclic parent chain. -/
def isAncestorAux (t : Tree) (ancestor : Nat) :
    Nat → Nat → Option Nat → Except TError Bool
  | 0, _, _ => .error .timeout
  | fuel + 1, child, par =>
    match par with
    | none => .ok false
    | some p =>
      if p = ancestor then .ok true
      else
        match t.find? child with
        | none => .error .nodeNotFound
        | some cn =>
          match cn.parent with
          | none => .error .nodeNotFound   -- self[None] lookup
          | some c' =>
            match t.find? c' with
            | none => .error .nodeNotFound
            | some pn => isAncestorAux t ancestor fuel c' pn.parent

/-- `Tree.is_ancestor(ancestor, grandchild)`. -/
def Tree.is_ancestor (t : Tree) (ancestor grandchild : Nat) (fuel : Nat) :
    Except TError Bool :=
  match t.find? grandchild with
  | none => .error .nodeNotFound
  | some nd => isAncestorAux t ancestor fuel grandchild nd.parent

/-- `Tree.move_node(source, destination)`: presence check on both ids,
cycle check via `is_ancestor`, then relink.  The ancestor walk runs with
fuel `len(self)`, which suffices on well-formed trees. -/
def Tree.move_node (t : Tree) (source destination : Nat) :
    Except TError Tree :=
  if ¬(t.mem source ∧ t.mem destination) then .error .nodeNotFound
  else
    match t.is_ancestor source destination t.nodes.length with
    | .error e => .error e
    | .ok true => .error .loopError
    | .ok false =>
      match t.find? source with
      | none => .error .nodeNotFound
      | some sn =>
        match sn.parent with
        | none => .error .nodeNotFound   -- self[None].remove_child
        | some par =>
          match t.find? par with
          | none => .error .nodeNotFound
          | some _ =>
            let t := t.mod par (fun n => n.remove_child source)
            let t := t.mod destination (fun n => n.add_child source)
            .ok (t.mod source (fun n => { n with parent := some destination }))

/-- `Tree.remove_node(node_id)`: `None` removes nothing; otherwise collect
the subtree by a default depth traversal (fuel `len(self)`), delete every
collected id, unlink from the former parent when there is one, and return
the count. -/
def Tree.remove_node (t : Tree) (node_id : Option Nat) :
    Except TError (Tree × Nat) :=
  match node_id with
  | none => .ok (t, 0)
  | some nid =>
    match t.find? nid with
    | none => .error .nodeNotFound
    | some nd =>
      match t.expand_tree (some nid) .depth none nodeLt false t.nodes.length with
      | .error e => .error e
      | .ok removed =>
        let t1 : Tree := { t with nodes := removed.foldl (fun m i => delPairs m i) t.nodes }
        match nd.parent with
        | none => .ok (t1, removed.length)   -- `if parent:` is false
        | some par =>
          match t1.find? par with
          | none => .error .nodeNotFound
          | some _ => .ok (t1.mod par (fun n => n.remove_child nid), removed.length)

/-- `Tree.remove_subtree(node_id)`: like `remove_node` but the collected
nodes are popped into a fresh tree rooted at `node_id` (whose parent link
is cleared before the traversal).  The final
`self[parent].remove_child(node_id)` is NOT guarded: for the root,
`parent` is `None` and the `self[None]` lookup raises `NodeNotFound`. -/
def Tree.remove_subtree (t : Tree) (node_id : Option Nat) :
    Except TError (Tree × Tree) :=
  match node_id with
  | none => .ok (t, Tree.empty)
  | some nid =>
    match t.find? nid with
    | none => .error .nodeNotFound
    | some nd =>
      let parent := nd.parent
      let t1 := t.mod nid (fun n => { n with parent := none })
      match t1.expand_tree (some nid) .depth none nodeLt false t1.nodes.length with
      | .error e => .error e
      | .ok removed =>
        let main : Tree :=
          { t1 with nodes := removed.foldl (fun m i => delPairs m i) t1.nodes }
        let sub : Tree :=
          { root := some nid,
            nodes := removed.filterMap (fun i => (t1.find? i).map (fun n => (i, n))) }
        match parent with
        | none => .error .nodeNotFound   -- self[None] raises for the root
        | some par =>
          match main.find? par with
          | none => .error .nodeNotFound
          | some _ => .ok (main.mod par (fun n => n.remove_child nid), sub)

/-- The remaining tree built inside `remove_subtree` after the collected
ids are deleted: the value of its local `self`-update, named here so that
proofs can refer to it compactly. -/
def prunedTree (t : Tree) (nid : Nat) (removed : List Nat) : Tree :=
  { root := t.root,
    nodes := removed.foldl (fun m i => delPairs m i)
      (t.mod nid (fun n => { n with parent := none })).nodes }

/-- `Tree.link_past_node(node_id)`: refuse the root; re-parent the node's
children onto its parent, append them to the parent's child list, drop the
node from that list and delete it. -/
def Tree.link_past_node (t : Tree) (node_id : Nat) : Except TError Tree :=
  if t.root = some node_id then .error .linkPastRootNode
  else
    match t.find? node_id with
    | none => .error .nodeNotFound
    | some nd =>
      match nd.parent with
      | none => .error .nodeNotFound   -- self[None] lookup
      | some pid =>
        match t.find? pid with
        | none => .error .nodeNotFound
        | some _ =>
          let t := nd.children.foldl
            (fun tr c => tr.mod c (fun n => { n with parent := some pid })) t
          let t := t.mod pid (fun n => { n with children := n.children ++ nd.children })
          let t := t.mod pid (fun n => n.remove_child node_id)
          .ok (t.del node_id)

/-- `Tree.paste(node_id, new_tree)`: presence check, id-collision check,
merge the other tree's bindings (appended in their order), attach its root
under `node_id`.  An empty incoming tree has `root=None` and the final
`self[None]` lookup raises.  `deepcopy` only affects object sharing, which
value semantics does not observe. -/
def Tree.paste (t : Tree) (node_id : Option Nat) (other : Tree) :
    Except TError Tree :=
  match node_id with
  | none => .error .valueError
  | some nid =>
    match t.find? nid with
    | none => .error .nodeNotFound
    | some _ =>
      if other.keys.any (fun k => t.mem k) then .error .valueError
      else
        let merged : Tree :=
          { t with nodes := other.nodes.foldl (fun m p => setPairs m p.1 p.2) t.nodes }
        match other.root with
        | none => .error .nodeNotFound   -- add_child(None) no-op, then self[None]
        | some r =>
          let merged := merged.mod nid (fun n => n.add_child r)
          match merged.find? r with
          | none => .error .nodeNotFound
          | some _ => .ok (merged.mod r (fun n => { n with parent := some nid }))

/-! ### Serialization (`Tree.to_dict`, `Tree.to_json`) -/

/-- Shape of the Python value returned by `to_dict`:
a bare tag string (collapsed leaf), the one-key mapping
`{tag: {"data": d}}` (collapsed leaf under `with_data`), or the mapping
`{tag: {"children": [...]}}`, optionally carrying a `"data"` entry after
the `"children"` entry. -/
inductive TDict where
  | leafTag (tag : String)
  | leafData (tag : String) (data : Option String)
  | branch (tag : String) (children : List TDict) (data : Option (Option String))
deriving Repr

/-- Error-propagating map over a list, sequencing `Except` results in
order (models a Python list comprehension whose body can raise). -/
def exceptMap (f : α → Except TError β) : List α → Except TError (List β)
  | [] => .ok []
  | x :: xs =>
    match f x with
    | .error e => .error e
    | .ok y =>
      match exceptMap f xs with
      | .error e => .error e
      | .ok ys => .ok (y :: ys)

/-- `Tree.to_dict(node_id, key, sort, reverse, with_data)`.  The initial
result is `{tag: {"children": []}}` plus a `"data"` entry under
`with_data`; children are serialized only when the node is `expanded`, and
when that leaves the children list empty the result collapses to the bare
tag (or `{tag: {"data": ...}}`).  The recursive call does NOT forward the
`key` argument, so deeper levels always sort with `Node.__lt__`.  Fuel
bounds the recursion depth. -/
def Tree.to_dict (t : Tree) (lt : Node → Node → Bool) (sort rev wd : Bool) :
    Nat → Nat → Except TError TDict
  | 0, _ => .error .timeout
  | fuel + 1, nid =>
    match t.find? nid with
    | none => .error .nodeNotFound
    | some nd =>
      if nd.expanded then
        let queue := childNodes t nd
        let queue := if sort then pySorted lt rev queue else queue
        match exceptMap (fun c => Tree.to_dict t nodeLt sort rev wd fuel c)
            (queue.map Node.id) with
        | .error e => .error e
        | .ok cs =>
          if cs.isEmpty then
            .ok (if wd then .leafData nd.tag nd.data else .leafTag nd.tag)
          else
            .ok (.branch nd.tag cs (if wd then some nd.data else none))
      else
        .ok (.branch nd.tag [] (if wd then some nd.data else none))

/-- Hex digit for `json.dumps` non-ASCII escapes. -/
def hexDigit (n : Nat) : Char :=
  if n < 10 then Char.ofNat (48 + n) else Char.ofNat (87 + (n % 6))

/-- Escape of one character, following `json.dumps` with its default
`ensure_ascii=True`: quote and backslash escaped, control characters and
non-ASCII as `\uXXXX`. -/
def jsonEscapeChar (c : Char) : List Char :=
  if c = '"' then ['\\', '"']
  else if c = '\\' then ['\\', '\\']
  else if c.val < 32 ∨ 127 ≤ c.val then
    let n := c.toNat
    ['\\', 'u', hexDigit ((n / 4096) % 16), hexDigit ((n / 256) % 16),
     hexDigit ((n / 16) % 16), hexDigit (n % 16)]
  else [c]

/-- JSON string literal for `s`, as `json.dumps` renders it. -/
def jsonStr (s : String) : String :=
  "\"" ++ String.mk (s.data.flatMap jsonEscapeChar) ++ "\""

/-- JSON rendering of a Python payload (`None` becomes `null`). -/
def jsonData : Option String → String
  | none => "null"
  | some s => jsonStr s

/-- `json.dumps` of a `to_dict` value (default separators `", "` and
`": "`, insertion order of dict keys: `"children"` before `"data"`).
Fuel bounds the nesting depth, exactly as for `to_dict`; a `to_dict`
result produced with fuel `f` is rendered completely by fuel `f`. -/
def jsonOfTDict : Nat → TDict → String
  | _, .leafTag tag => jsonStr tag
  | _, .leafData tag d =>
    "\x7b" ++ jsonStr tag ++ ": \x7b\"data\": " ++ jsonData d ++ "\x7d\x7d"
  | 0, .branch _ _ _ => ""
  | fuel + 1, .branch tag cs d =>
    "\x7b" ++ jsonStr tag ++ ": \x7b\"children\": [" ++
      String.intercalate ", " (cs.map (fun c => jsonOfTDict fuel c)) ++ "]" ++
      (match d with
       | none => ""
       | some dv => ", \"data\": " ++ jsonData dv) ++ "\x7d\x7d"

/-- `Tree.to_json(with_data, sort, reverse)`:
`json.dumps(self.to_dict(...))` from the root with `key=None`. -/
def Tree.to_json (t : Tree) (wd sort rev : Bool) (fuel : Nat) :
    Except TError String :=
  match t.root with
  | none => .error .nodeNotFound
  | some r =>
    match t.to_dict nodeLt sort rev wd fuel r with
    | .error e => .error e
    | .ok d => .ok (jsonOfTDict fuel d)

/-! ### The renderer (`ttree/utils.py`, `tree_printer_gen`) -/

/-- Per-ancestor prefix segments: a continuation bar for a non-last
ancestor, blanks for a last one (`c_line + ' ' * 3 if not x else ' ' * 4`). -/
def leadingOf (g : ASCIIMode) (isLast : List Bool) : String :=
  String.join (isLast.map (fun x => if x then "    " else g.line ++ "   "))

/-- The line prefix of a visited node: level 0 has none; deeper nodes get
the ancestors' segments (all but the node's own flag) and a corner or
branch glyph according to the node's own last-sibling flag. -/
def prefixOf (g : ASCIIMode) (isLast : List Bool) : String :=
  match isLast.getLast? with
  | none => ""
  | some lastFlag => leadingOf g (isLast.dropLast) ++ (if lastFlag then g.corner else g.branch)

/-- Sibling ordering of the renderer: `key`-sort when a key is given,
plain reversal when only `reverse` is set, insertion order otherwise. -/
def rendererOrder (keyLt : Option (Node → Node → Bool)) (rev : Bool)
    (l : List Node) : List Node :=
  match keyLt with
  | some lt => pySorted lt rev l
  | none => if rev then l.reverse else l

/-- Iteration over a node's ordered children: each child is visited by
`visit` with `is_last` extended by the child's last-sibling flag
(`next_child is None`), and the yielded line groups are concatenated. -/
def printerKids (visit : Nat → List Bool → Except TError (List (String × Node)))
    (isLast : List Bool) : List Node → Except TError (List (String × Node))
  | [] => .ok []
  | c :: cs =>
    match visit c.id (isLast ++ [cs.isEmpty]) with
    | .error e => .error e
    | .ok out =>
      match printerKids visit isLast cs with
      | .error e => .error e
      | .ok out2 => .ok (out ++ out2)

/-- `tree_printer_gen(tree, node_id, filtering, key, reverse, ascii_mode,
is_last, level)`: yield the node's line (prefix and node), then — only when
the node is `expanded` and passes the filter — recurse into its filtered,
ordered children, extending `is_last` with each child's last-sibling flag.
The node's own line is yielded BEFORE the filter is consulted.  Fuel
bounds the recursion depth. -/
def tree_printer_gen (t : Tree) (flt : Option (Node → Bool))
    (keyLt : Option (Node → Node → Bool)) (rev : Bool) (g : ASCIIMode) :
    Nat → Nat → List Bool → Except TError (List (String × Node))
  | 0, _, _ => .error .timeout
  | fuel + 1, nid, isLast =>
    match t.find? nid with
    | none => .error .nodeNotFound
    | some node =>
      let line := (prefixOf g isLast, node)
      if node.expanded then
        match flt with
        | some φ =>
          if φ node then
            match printerKids (tree_printer_gen t flt keyLt rev g fuel) isLast
                (rendererOrder keyLt rev ((childNodes t node).filter φ)) with
            | .error e => .error e
            | .ok rest => .ok (line :: rest)
          else .ok [line]
        | none =>
          match printerKids (tree_printer_gen t flt keyLt rev g fuel) isLast
              (rendererOrder keyLt rev (childNodes t node)) with
          | .error e => .error e
          | .ok rest => .ok (line :: rest)
      else .ok [line]

/-- `get_label(node, data_property, id_hidden)` restricted to the default
`data_property=None`: the tag, suffixed with `[id]` unless ids are hidden. -/
def get_label (node : Node) (id_hidden : Bool) : String :=
  if id_hidden then node.tag else node.tag ++ "[" ++ toString node.id ++ "]"

/-- `print_tree(...)` as a string: one `prefix + label` line per visited
node, joined with newlines, with a trailing newline. -/
def print_tree (t : Tree) (node_id : Option Nat) (id_hidden : Bool)
    (flt : Option (Node → Bool)) (keyLt : Option (Node → Node → Bool))
    (rev : Bool) (g : ASCIIMode) (fuel : Nat) : Except TError String :=
  match (match node_id with | none => t.root | some s => some s) with
  | none => .error .nodeNotFound
  | some nid =>
    match tree_printer_gen t flt keyLt rev g fuel nid [] with
    | .error e => .error e
    | .ok lines =>
      .ok (String.intercalate "\n"
        (lines.map (fun pr => pr.1 ++ get_label pr.2 id_hidden)) ++ "\n")

/-! ### Structural invariants of the data model (spec §3) -/

/-- Invariant 1, first half: every parentless node is the recorded root
(hence there is at most one parentless node). -/
def RootUnique (t : Tree) : Prop :=
  ∀ p ∈ t.nodes, (p : Nat × Node).2.parent = none → t.root = some p.1

/-- Invariant 1, second half: a non-empty tree has a parentless node and
it is the recorded root. -/
def RootExists (t : Tree) : Prop :=
  t.nodes ≠ [] → ∃ p ∈ t.nodes, (p : Nat × Node).2.parent = none ∧ t.root = some p.1

/-- Invariant 4: the parent relation is acyclic.  Stated through a level
function: each node sits one level below its parent, which rules out any
cycle of parent links among present nodes. -/
def Acyclic (t : Tree) : Prop :=
  ∃ lvl : Nat → Int, ∀ p ∈ t.nodes, ∀ q,
    (p : Nat × Node).2.parent = some q → lvl p.1 = lvl q + 1

/-- The three invariant properties named by the spec's invariant list that
every public mutation must preserve: at most one parentless node, that
node is the root of a non-empty tree, and acyclicity. -/
def CoreInvariants (t : Tree) : Prop := RootUnique t ∧ RootExists t ∧ Acyclic t

/-- Well-formedness of a tree: the spec's data-model invariants (§3),
together with the bookkeeping facts (key/`Node.id` coherence) that the
implementation maintains. -/
structure WF (t : Tree) : Prop where
  keysNodup : t.keys.Nodup
  idCoh : ∀ p ∈ t.nodes, (p : Nat × Node).2.id = p.1
  parentPresent : ∀ p ∈ t.nodes, ∀ q, (p : Nat × Node).2.parent = some q → q ∈ t.keys
  parentNoneRoot : ∀ p ∈ t.nodes, (p : Nat × Node).2.parent = none → t.root = some p.1
  rootMem : ∀ r, t.root = some r → r ∈ t.keys
  rootNoParent : ∀ r nr, t.root = some r → t.find? r = some nr → nr.parent = none
  childrenNodup : ∀ p ∈ t.nodes, (p : Nat × Node).2.children.Nodup
  childrenPresent : ∀ p ∈ t.nodes, ∀ c ∈ (p : Nat × Node).2.children, c ∈ t.keys
  parentChild : ∀ p ∈ t.nodes, ∀ c ∈ (p : Nat × Node).2.children, ∀ nc,
    t.find? c = some nc → nc.parent = some p.1
  childParent : ∀ p ∈ t.nodes, ∀ q nq, (p : Nat × Node).2.parent = some q →
    t.find? q = some nq → p.1 ∈ nq.children
  acyclic : Acyclic t

/-- Reachability downward along child links: `DownReach t a b` holds when
`b` lies in the subtree of `a` (including `a` itself). -/
inductive DownReach (t : Tree) (a : Nat) : Nat → Prop where
  | refl : DownReach t a a
  | step : ∀ b c nb, DownReach t a b → t.find? b = some nb → c ∈ nb.children →
      DownReach t a c

/-- Reachability from the traversal start along child links on which every
node (the start and each descendant taken) passes the filter `φ`. -/
inductive PassReach (t : Tree) (φ : Node → Bool) (s : Nat) : Nat → Prop where
  | refl : ∀ n, t.find? s = some n → φ n = true → PassReach t φ s s
  | step : ∀ b c nb nc, PassReach t φ s b → t.find? b = some nb →
      c ∈ nb.children → t.find? c = some nc → φ nc = true → PassReach t φ s c

/-- Iterated parent lookup: the id reached after walking `n` parent links
from `x`, or `none` when the walk leaves the tree or meets a parentless
node first. -/
def parentIter (t : Tree) : Nat → Nat → Option Nat
  | 0, x => some x
  | n + 1, x =>
    match t.find? x with
    | none => none
    | some nd =>
      match nd.parent with
      | none => none
      | some p => parentIter t n p

/-- The same tree with every node's `expanded` flag set: used to state
that the traversal engine never consults the flag. -/
def Tree.allExpanded (t : Tree) : Tree :=
  { t with nodes := t.nodes.map (fun p => (p.1, { p.2 with expanded := true })) }

/-! ### Concrete trees used in the claims -/

/-- The spec's serialization example `Harry → {Jane → Diane, Bill → George}`
(insertion order Jane before Bill, so sorted output really reorders). -/
def tHarry : Tree :=
  ⟨some 1,
   [(1, ⟨1, "Harry", true, none, [2, 3], none⟩),
    (2, ⟨2, "Jane", true, some 1, [4], none⟩),
    (3, ⟨3, "Bill", true, some 1, [5], none⟩),
    (4, ⟨4, "Diane", true, some 2, [], none⟩),
    (5, ⟨5, "George", true, some 3, [], none⟩)]⟩

/-- A tree with a single root node `1`, tag `a`. -/
def tSingle : Tree := ⟨some 1, [(1, ⟨1, "a", true, none, [], none⟩)]⟩

/-- Chain `a → b → c` where `b` (id 2) has `expanded=false`. -/
def tExpFlag : Tree :=
  ⟨some 1,
   [(1, ⟨1, "a", true, none, [2], none⟩),
    (2, ⟨2, "b", false, some 1, [3], none⟩),
    (3, ⟨3, "c", true, some 2, [], none⟩)]⟩

/-- Two-node tree `a → b`. -/
def tAB : Tree :=
  ⟨some 1,
   [(1, ⟨1, "a", true, none, [2], none⟩),
    (2, ⟨2, "b", true, some 1, [], none⟩)]⟩

/-- Chain `a → b → c` with all nodes expanded. -/
def tABC : Tree :=
  ⟨some 1,
   [(1, ⟨1, "a", true, none, [2], none⟩),
    (2, ⟨2, "b", true, some 1, [3], none⟩),
    (3, ⟨3, "c", true, some 2, [], none⟩)]⟩

/-- Chain `a → b → c → d` (ids 1-4), the spec's cycle-prevention example. -/
def tChain : Tree :=
  ⟨some 1,
   [(1, ⟨1, "a", true, none, [2], none⟩),
    (2, ⟨2, "b", true, some 1, [3], none⟩),
    (3, ⟨3, "c", true, some 2, [4], none⟩),
    (4, ⟨4, "d", true, some 3, [], none⟩)]⟩

/-- A single leaf `1`, tag `a`, with `expanded=false`. -/
def tLeafNE : Tree := ⟨some 1, [(1, ⟨1, "a", false, none, [], none⟩)]⟩

/-- Two-node tree `X → Y` on ids 10 and 11, disjoint from the other
example trees: the incoming tree of the `paste` examples. -/
def tGraft : Tree :=
  ⟨some 10,
   [(10, ⟨10, "X", true, none, [11], none⟩),
    (11, ⟨11, "Y", true, some 10, [], none⟩)]⟩

/-! ### Executable well-formedness check (used to discharge `WF` on
concrete trees) -/

/-- Parent-side checks of one binding: a parentless node must be the
recorded root; a parent must be present and list the node among its
children. -/
def checkParent (t : Tree) (p : Nat × Node) : Bool :=
  match p.2.parent with
  | none => t.root == some p.1
  | some q =>
    match t.find? q with
    | none => false
    | some nq => decide (q ∈ t.keys) && decide (p.1 ∈ nq.children)

/-- Child-side checks of one binding: children are duplicate-free, each
present, and each points back to this node as its parent. -/
def checkChild (t : Tree) (p : Nat × Node) : Bool :=
  decide p.2.children.Nodup &&
  p.2.children.all (fun c =>
    match t.find? c with
    | none => false
    | some nc => nc.parent == some p.1)

/-- Root-field check: a recorded root must be present and parentless. -/
def checkRoot (t : Tree) : Bool :=
  match t.root with
  | none => true
  | some r =>
    match t.find? r with
    | none => false
    | some nr => nr.parent == none

/-- Executable conjunction of all `WF` fields except acyclicity. -/
def checkWF (t : Tree) : Bool :=
  decide t.keys.Nodup &&
  t.nodes.all (fun p => p.2.id == p.1 && checkParent t p && checkChild t p) &&
  checkRoot t

/-- Executable check that `lvl` witnesses acyclicity. -/
def checkLvl (t : Tree) (lvl : Nat → Int) : Bool :=
  t.nodes.all (fun p =>
    match p.2.parent with
    | none => true
    | some q => lvl p.1 == lvl q + 1)

/-! ## Claim theorems -/

/-- Claim C8: for the tree `Harry → {Jane → Diane, Bill → George}`,
`to_json` with sorting enabled produces exactly the claimed string, with
children sorted ascending by tag and leaves as bare strings. -/
theorem C8_to_json_example :
    tHarry.to_json false true false 10 =
      .ok "\x7b\"Harry\": \x7b\"children\": [\x7b\"Bill\": \x7b\"children\": [\"George\"]\x7d\x7d, \x7b\"Jane\": \x7b\"children\": [\"Diane\"]\x7d\x7d]\x7d\x7d" := by
  rfl

/-- Claim C3, counter-evidence: `remove_subtree` on the root id of a
non-empty tree does NOT special-case the absent parent; the `self[None]`
lookup raises `NodeNotFound` instead of returning the detached tree (the
upstream variant guarded this with `if nid is None: return`). -/
theorem C3_remove_subtree_root_raises :
    tSingle.remove_subtree (some 1) = .error .nodeNotFound ∧
      tSingle.root = some 1 ∧ tSingle.mem 1 = true := by
  refine ⟨rfl, rfl, rfl⟩

/-- Claim C1, counterexample: in `a → b → c` with `expanded=false` on `b`,
`expand_tree` still yields `c`, a child of the unexpanded `b` — the
traversal engine never consults the `expanded` flag, so an unexpanded node
is NOT treated as a leaf by `expand_tree`. -/
theorem C1_counterexample :
    (tExpFlag.find? 2).map Node.expanded = some false ∧
      (tExpFlag.find? 2).map Node.children = some [3] ∧
      tExpFlag.expand_tree (some 1) .depth none nodeLt false 10 = .ok [1, 2, 3] := by
  refine ⟨rfl, rfl, rfl⟩

/-- Claim C2, counterexample: removing the root of a single-node tree
empties the node map but the `root` field still records the removed id —
no code path resets `self.root`, so a root id remains recorded. -/
theorem C2_counterexample :
    tSingle.remove_node (some 1) = .ok (⟨some 1, []⟩, 1) ∧
      (some 1 : Option Nat) ≠ none := by
  exact ⟨rfl, by decide⟩

/-- Claim C4, counterexample: `move_node` with `source = destination` (a
present non-root id) succeeds and makes the node its own parent, so the
parent/child relation of the result is cyclic: the returned tree violates
the acyclicity invariant. -/
theorem C4_counterexample :
    tAB.move_node 2 2 =
        .ok ⟨some 1, [(1, ⟨1, "a", true, none, [], none⟩),
                      (2, ⟨2, "b", true, some 2, [2], none⟩)]⟩ ∧
      ¬ Acyclic (⟨some 1, [(1, ⟨1, "a", true, none, [], none⟩),
                           (2, ⟨2, "b", true, some 2, [2], none⟩)]⟩ : Tree) := by
  refine ⟨rfl, ?_⟩
  rintro ⟨lvl, h⟩
  have h2 : lvl 2 = lvl 2 + 1 :=
    h (2, ⟨2, "b", true, some 2, [2], none⟩) (by simp) 2 rfl
  omega

/-- Claim C7, counterexample: a leaf with `expanded=false` does not
collapse to its bare tag; `to_dict` returns the mapping
`{tag: {"children": []}}`, which does carry a `children` key. -/
theorem C7_counterexample :
    tLeafNE.to_dict nodeLt true false false 10 1 = .ok (.branch "a" [] none) ∧
      (tLeafNE.find? 1).map Node.is_leaf = some true ∧
      TDict.branch "a" [] none ≠ TDict.leafTag "a" := by
  refine ⟨rfl, rfl, fun h => by cases h⟩

/-! ### The traversal engine ignores the `expanded` flag (claim C1) -/

/-- Marking every node expanded only rewrites the stored node values. -/
theorem findPairs_mapSnd (g : Node → Node) (l : List (Nat × Node)) (k : Nat) :
    findPairs (l.map (fun p => (p.1, g p.2))) k = (findPairs l k).map g := by
  induction l with
  | nil => rfl
  | cons p rest ih =>
    simp only [List.map_cons, findPairs]
    by_cases h : p.1 = k
    · simp [h]
    · simp [h, ih]

/-- Lookup in `allExpanded` returns the looked-up node with the flag set. -/
theorem find?_allExpanded (t : Tree) (k : Nat) :
    t.allExpanded.find? k = (t.find? k).map (fun n => { n with expanded := true }) := by
  simpa [Tree.allExpanded, Tree.find?] using
    findPairs_mapSnd (fun n => { n with expanded := true }) t.nodes k

/-- Mapping a function whose lookups are rewritten commutes with
`filterMap`. -/
theorem filterMap_map_option (f : Nat → Option Node) (g : Node → Node)
    (l : List Nat) :
    l.filterMap (fun c => (f c).map g) = (l.filterMap f).map g := by
  induction l with
  | nil => rfl
  | cons c rest ih =>
    cases h : f c <;> simp [List.filterMap_cons, h, ih]

/-- Child-node collection in `allExpanded` collects the same nodes with
the flag set. -/
theorem childNodes_allExpanded (t : Tree) (n : Node) :
    childNodes t.allExpanded { n with expanded := true } =
      (childNodes t n).map (fun m => { m with expanded := true }) := by
  unfold childNodes
  have hfun : t.allExpanded.find? =
      fun c => (t.find? c).map (fun m => { m with expanded := true }) :=
    funext (find?_allExpanded t)
  rw [hfun]
  exact filterMap_map_option t.find? (fun m => { m with expanded := true }) n.children

/-- Stable insertion commutes with an element-wise map that preserves the
comparison. -/
theorem insStable_map (sa : α → α → Bool) (g : α → α)
    (h : ∀ a b, sa (g a) (g b) = sa a b) (x : α) (l : List α) :
    insStable sa (g x) (l.map g) = (insStable sa x l).map g := by
  induction l with
  | nil => rfl
  | cons y ys ih =>
    simp only [List.map_cons, insStable, h]
    by_cases hc : sa x y
    · simp [hc]
    · simp [hc, ih]

/-- Stable sorting commutes with an element-wise map that preserves the
comparison. -/
theorem sortStable_map (sa : α → α → Bool) (g : α → α)
    (h : ∀ a b, sa (g a) (g b) = sa a b) (l : List α) :
    sortStable sa (l.map g) = (sortStable sa l).map g := by
  induction l with
  | nil => rfl
  | cons x xs ih =>
    simp only [List.map_cons, sortStable, ih]
    exact insStable_map sa g h x (sortStable sa xs)

/-- Python sorting commutes with an element-wise map that preserves the
comparison. -/
theorem pySorted_map (lt : α → α → Bool) (rev : Bool) (g : α → α)
    (h : ∀ a b, lt (g a) (g b) = lt a b) (l : List α) :
    pySorted lt rev (l.map g) = (pySorted lt rev l).map g := by
  unfold pySorted
  exact sortStable_map _ g (by intro a b; by_cases hr : rev <;> simp [hr, h]) l

/-- Setting the `expanded` flag preserves the default tag comparison. -/
theorem nodeLt_expandBlind (a b : Node) :
    nodeLt { a with expanded := true } { b with expanded := true } = nodeLt a b := rfl

/-- The DEPTH/WIDTH queue loop with no filter is insensitive to the
`expanded` flags of the tree and of the queued nodes. -/
theorem loopDW_allExpanded (t : Tree) (dep : Bool) (rev : Bool) :
    ∀ fuel Q, loopDW t.allExpanded dep none nodeLt rev fuel
        (Q.map (fun n => { n with expanded := true })) =
      loopDW t dep none nodeLt rev fuel Q := by
  intro fuel
  induction fuel with
  | zero => intro Q; rfl
  | succ f ih =>
    intro Q
    cases Q with
    | nil => rfl
    | cons q rest =>
      simp only [List.map_cons, loopDW, applyFilter, childNodes_allExpanded,
        pySorted_map nodeLt rev _ nodeLt_expandBlind]
      refine congrArg (List.cons q.id) ?_
      by_cases hd : dep
      · simpa [hd, List.map_append] using ih (childNodes t q |> pySorted nodeLt rev |>.append rest)
      · simpa [hd, List.map_append] using ih (rest ++ pySorted nodeLt rev (childNodes t q))

/-- The ZIGZAG stack loop with no filter is insensitive to the `expanded`
flags. -/
theorem loopZZ_allExpanded (t : Tree) :
    ∀ fuel Q R dir, loopZZ t.allExpanded none fuel
        (Q.map (fun n => { n with expanded := true }))
        (R.map (fun n => { n with expanded := true })) dir =
      loopZZ t none fuel Q R dir := by
  intro fuel
  induction fuel with
  | zero => intro Q R dir; rfl
  | succ f ih =>
    intro Q R dir
    cases Q with
    | nil => rfl
    | cons q rest =>
      simp only [List.map_cons, loopZZ, applyFilter, childNodes_allExpanded]
      refine congrArg (List.cons q.id) ?_
      have hrev : ∀ l : List Node,
          (if dir then (l.map (fun n => { n with expanded := true })).reverse
           else l.map (fun n => { n with expanded := true })) =
          (if dir then l.reverse else l).map (fun n => { n with expanded := true }) := by
        intro l; by_cases hdir : dir <;> simp [hdir]
      rw [hrev]
      by_cases he : rest.isEmpty
      · have : rest = [] := by cases rest <;> simp_all
        subst this
        simpa [List.map_append] using
          ih ((if dir then (childNodes t q).reverse else childNodes t q) ++ R) [] (!dir)
      · have hne : (rest.map (fun n => { n with expanded := true })).isEmpty = false := by
          cases rest <;> simp_all
        have hne2 : rest.isEmpty = false := by cases rest <;> simp_all
        rw [hne, hne2]
        simpa [List.map_append] using
          ih rest ((if dir then (childNodes t q).reverse else childNodes t q) ++ R) dir

/-- Claim C1, amended: `expand_tree` never consults the `expanded` flag —
with no filter and the default sort key, its output on any tree, from any
start, in every mode, equals its output on the same tree with every node
marked expanded.  Descendants of an `expanded=false` node are therefore
yielded exactly as if the node were expanded; only rendering and dict
serialization treat such a node as a leaf. -/
theorem C1_expand_tree_ignores_expanded (t : Tree) (start : Option Nat)
    (mode : TraversalMode) (rev : Bool) (fuel : Nat) :
    t.allExpanded.expand_tree start mode none nodeLt rev fuel =
      t.expand_tree start mode none nodeLt rev fuel := by
  have hroot : t.allExpanded.root = t.root := rfl
  have hzz : ∀ f Q dir, loopZZ t.allExpanded none f
      (Q.map (fun n => { n with expanded := true })) [] dir =
        loopZZ t none f Q [] dir := by
    intro f Q dir
    simpa using loopZZ_allExpanded t f Q [] dir
  have step : ∀ nid, (t.find? nid).isSome →
      t.allExpanded.expand_tree (some nid) mode none nodeLt rev fuel =
        t.expand_tree (some nid) mode none nodeLt rev fuel := by
    intro nid hs
    have hzr : ∀ (f : Nat) (Q : List Node) (dir : Bool), loopZZ t.allExpanded none f
        ((Q.map (fun n => { n with expanded := true })).reverse) [] dir =
          loopZZ t none f Q.reverse [] dir := by
      intro f Q dir
      rw [← List.map_reverse]
      exact hzz f Q.reverse dir
    cases hf : t.find? nid with
    | none => simp [hf] at hs
    | some nd =>
      cases mode with
      | depth =>
        simp [Tree.expand_tree, find?_allExpanded, hf, childNodes_allExpanded,
          pySorted_map nodeLt rev _ nodeLt_expandBlind, loopDW_allExpanded]
      | width =>
        simp [Tree.expand_tree, find?_allExpanded, hf, childNodes_allExpanded,
          pySorted_map nodeLt rev _ nodeLt_expandBlind, loopDW_allExpanded]
      | zigzag =>
        simp only [Tree.expand_tree, find?_allExpanded, hf, Option.map_some',
          childNodes_allExpanded]
        rw [hzr]
  have stepNone : ∀ nid, t.find? nid = none →
      t.allExpanded.expand_tree (some nid) mode none nodeLt rev fuel =
        t.expand_tree (some nid) mode none nodeLt rev fuel := by
    intro nid hf
    simp [Tree.expand_tree, find?_allExpanded, hf]
  have stepAny : ∀ nid,
      t.allExpanded.expand_tree (some nid) mode none nodeLt rev fuel =
        t.expand_tree (some nid) mode none nodeLt rev fuel := by
    intro nid
    cases hf : t.find? nid with
    | none => exact stepNone nid hf
    | some nd => exact step nid (by simp [hf])
  cases start with
  | some s => exact stepAny s
  | none =>
    cases hr : t.root with
    | none =>
      simp [Tree.expand_tree, hroot, hr]
    | some r =>
      have h1 : t.allExpanded.expand_tree none mode none nodeLt rev fuel =
          t.allExpanded.expand_tree (some r) mode none nodeLt rev fuel := by
        simp [Tree.expand_tree, hroot, hr]
      have h2 : t.expand_tree none mode none nodeLt rev fuel =
          t.expand_tree (some r) mode none nodeLt rev fuel := by
        simp [Tree.expand_tree, hr]
      rw [h1, h2]
      exact stepAny r

/-- Claim C10, counterexample: in `a → b → c` with a filter rejecting `b`,
the renderer's output is the single line for `a`: the failing non-start
node `b` does not appear at all (its parent filters children before the
recursive visit), contradicting the claim that every failing node is still
rendered. -/
theorem C10_counterexample :
    tree_printer_gen tABC (some (fun n => n.tag != "b")) none false
        ASCIIMode.ex 10 1 [] =
      .ok [("", ⟨1, "a", true, none, [2], none⟩)] := by
  rfl

/-- Claim C7, amended: in `to_dict`, a leaf that is `expanded` collapses
to its bare tag (or, `with_data`, to the one-key mapping
`{tag: {"data": payload}}`) and carries no `children` key; but a node with
`expanded=false` — leaf or not — is serialized without descending as the
mapping `{tag: {"children": []}}` (plus a `"data"` entry under
`with_data`), which does carry a `children` key. -/
theorem C7_to_dict_leaf_shapes (t : Tree) (nid : Nat) (nd : Node)
    (lt : Node → Node → Bool) (sort rev wd : Bool) (fuel : Nat)
    (h : t.find? nid = some nd) :
    (nd.expanded = true → nd.children = [] →
      t.to_dict lt sort rev wd (fuel + 1) nid =
        .ok (if wd then .leafData nd.tag nd.data else .leafTag nd.tag)) ∧
    (nd.expanded = false →
      t.to_dict lt sort rev wd (fuel + 1) nid =
        .ok (.branch nd.tag [] (if wd then some nd.data else none))) := by
  constructor
  · intro hx hc
    simp [Tree.to_dict, h, hx, childNodes, hc, pySorted, sortStable, exceptMap]
  · intro hx
    simp [Tree.to_dict, h, hx]

/-- Claim C7, witness: the expanded single leaf collapses to its bare tag,
while the unexpanded single leaf keeps an empty `children` entry. -/
theorem C7_to_dict_leaf_shapes_witness :
    tSingle.to_dict nodeLt true false false 1 1 = .ok (.leafTag "a") ∧
      tLeafNE.to_dict nodeLt true false false 1 1 = .ok (.branch "a" [] none) :=
  ⟨(C7_to_dict_leaf_shapes tSingle 1 ⟨1, "a", true, none, [], none⟩
      nodeLt true false false 0 rfl).1 rfl rfl,
   (C7_to_dict_leaf_shapes tLeafNE 1 ⟨1, "a", false, none, [], none⟩
      nodeLt true false false 0 rfl).2 rfl⟩

/-! ### Permutation facts about the modelled `sorted` -/

/-- Stable insertion produces a permutation of consing. -/
theorem insStable_perm (sa : α → α → Bool) (x : α) (l : List α) :
    (insStable sa x l).Perm (x :: l) := by
  induction l with
  | nil => exact List.Perm.refl _
  | cons y ys ih =>
    by_cases h : sa x y
    · simp [insStable, h]
    · simp only [insStable, h, if_neg]
      exact ((ih.cons y).trans (List.Perm.swap x y ys)).symm.symm

/-- Stable sorting permutes its input. -/
theorem sortStable_perm (sa : α → α → Bool) (l : List α) :
    (sortStable sa l).Perm l := by
  induction l with
  | nil => exact List.Perm.refl _
  | cons x xs ih => exact (insStable_perm sa x (sortStable sa xs)).trans (ih.cons x)

/-- The modelled `sorted` permutes its input. -/
theorem pySorted_perm (lt : α → α → Bool) (rev : Bool) (l : List α) :
    (pySorted lt rev l).Perm l := sortStable_perm _ l

/-- Membership is preserved by the modelled `sorted`. -/
theorem mem_pySorted (lt : α → α → Bool) (rev : Bool) (l : List α) (a : α) :
    a ∈ pySorted lt rev l ↔ a ∈ l := (pySorted_perm lt rev l).mem_iff

/-- Membership is preserved by the renderer's sibling ordering. -/
theorem mem_rendererOrder (keyLt : Option (Node → Node → Bool)) (rev : Bool)
    (l : List Node) (a : Node) : a ∈ rendererOrder keyLt rev l ↔ a ∈ l := by
  cases keyLt with
  | some lt => exact mem_pySorted lt rev l a
  | none =>
    by_cases h : rev <;> simp [rendererOrder, h]

/-! ### Basic facts about the ordered mapping -/

/-- Lookup success puts the key among the keys. -/
theorem mem_keys_of_findPairs {l : List (Nat × Node)} {k : Nat} {n : Node}
    (h : findPairs l k = some n) : k ∈ l.map Prod.fst := by
  induction l with
  | nil => simp [findPairs] at h
  | cons p rest ih =>
    by_cases hk : p.1 = k
    · simp [hk]
    · simp only [findPairs, hk, if_neg, if_false] at h
      simp [ih h]

/-- Lookup success for a tree key. -/
theorem mem_keys_of_find? {t : Tree} {k : Nat} {n : Node}
    (h : t.find? k = some n) : k ∈ t.keys := mem_keys_of_findPairs h

/-- Lookup success yields a stored binding. -/
theorem findPairs_mem {l : List (Nat × Node)} {k : Nat} {n : Node}
    (h : findPairs l k = some n) : (k, n) ∈ l := by
  induction l with
  | nil => simp [findPairs] at h
  | cons p rest ih =>
    by_cases hk : p.1 = k
    · simp only [findPairs, hk, if_pos] at h
      have hp : p = (k, n) := by
        obtain ⟨p1, p2⟩ := p
        simp only [Prod.mk.injEq]
        exact ⟨hk, by injection h⟩
      rw [← hp]
      exact List.mem_cons_self _ _
    · simp only [findPairs, hk, if_neg, if_false] at h
      exact List.mem_cons_of_mem _ (ih h)

/-- With duplicate-free keys, a stored binding is returned by lookup. -/
theorem findPairs_of_mem {l : List (Nat × Node)} {k : Nat} {n : Node}
    (hnd : (l.map Prod.fst).Nodup) (h : (k, n) ∈ l) : findPairs l k = some n := by
  induction l with
  | nil => simp at h
  | cons p rest ih =>
    rw [List.map_cons] at hnd
    have hnd2 := List.nodup_cons.mp hnd
    rcases List.mem_cons.mp h with h1 | h1
    · rw [← h1]
      simp [findPairs]
    · have hk : p.1 ≠ k := by
        intro he
        have hmem : k ∈ rest.map Prod.fst := by
          have := List.mem_map_of_mem Prod.fst h1
          simpa using this
        rw [he] at hnd2
        exact hnd2.1 hmem
      simp only [findPairs, hk, if_neg, if_false]
      exact ih hnd2.2 h1

/-- With duplicate-free keys, a stored binding is returned by tree lookup. -/
theorem find?_of_mem {t : Tree} {k : Nat} {n : Node}
    (hnd : t.keys.Nodup) (h : (k, n) ∈ t.nodes) : t.find? k = some n :=
  findPairs_of_mem hnd h

/-- Lookup failure means the key is absent. -/
theorem findPairs_eq_none {l : List (Nat × Node)} {k : Nat}
    (h : k ∉ l.map Prod.fst) : findPairs l k = none := by
  induction l with
  | nil => rfl
  | cons p rest ih =>
    simp only [List.map_cons, List.mem_cons, not_or] at h
    have hk : p.1 ≠ k := fun he => h.1 he.symm
    simp only [findPairs, hk, if_neg, if_false]
    exact ih h.2

/-! ### Soundness of the executable well-formedness check -/

/-- Execution of `checkLvl` certifies acyclicity. -/
theorem acyclic_of_checkLvl {t : Tree} (lvl : Nat → Int)
    (h : checkLvl t lvl = true) : Acyclic t := by
  refine ⟨lvl, ?_⟩
  intro p hp q hq
  have hall := (List.all_eq_true.mp h) p hp
  simp only [hq] at hall
  simpa using hall

/-- Execution of `checkWF`, together with an acyclicity certificate,
establishes well-formedness. -/
theorem wf_of_check {t : Tree} (h : checkWF t = true) (ha : Acyclic t) : WF t := by
  unfold checkWF at h
  rw [Bool.and_eq_true, Bool.and_eq_true] at h
  obtain ⟨⟨hnd, hall⟩, hroot⟩ := h
  have hnd' : t.keys.Nodup := of_decide_eq_true hnd
  have hall' := List.all_eq_true.mp hall
  have hp3 : ∀ p ∈ t.nodes, p.2.id = p.1 ∧ checkParent t p = true ∧ checkChild t p = true := by
    intro p hp
    have := hall' p hp
    rw [Bool.and_eq_true, Bool.and_eq_true] at this
    exact ⟨by simpa using this.1.1, this.1.2, this.2⟩
  refine ⟨hnd', ?_, ?_, ?_, ?_, ?_, ?_, ?_, ?_, ?_, ha⟩
  · intro p hp
    exact (hp3 p hp).1
  · intro p hp q hq
    have hc := (hp3 p hp).2.1
    simp only [checkParent, hq] at hc
    cases hf : t.find? q with
    | none => simp only [hf] at hc; cases hc
    | some nq => exact mem_keys_of_find? hf
  · intro p hp hq
    have hc := (hp3 p hp).2.1
    simp only [checkParent, hq] at hc
    simpa using hc
  · intro r hr
    simp only [checkRoot, hr] at hroot
    cases hf : t.find? r with
    | none => simp only [hf] at hroot; cases hroot
    | some nr => exact mem_keys_of_find? hf
  · intro r nr hr hf
    simp only [checkRoot, hr, hf] at hroot
    simpa using hroot
  · intro p hp
    have hc := (hp3 p hp).2.2
    simp only [checkChild, Bool.and_eq_true] at hc
    exact of_decide_eq_true hc.1
  · intro p hp c hcm
    have hc := (hp3 p hp).2.2
    simp only [checkChild, Bool.and_eq_true] at hc
    have := (List.all_eq_true.mp hc.2) c hcm
    cases hf : t.find? c with
    | none => simp only [hf] at this; cases this
    | some nc => exact mem_keys_of_find? hf
  · intro p hp c hcm nc hf
    have hc := (hp3 p hp).2.2
    simp only [checkChild, Bool.and_eq_true] at hc
    have := (List.all_eq_true.mp hc.2) c hcm
    simp only [hf] at this
    simpa using this
  · intro p hp q nq hq hf
    have hc := (hp3 p hp).2.1
    simp only [checkParent, hq, hf, Bool.and_eq_true] at hc
    exact of_decide_eq_true hc.2

/-! ### Well-formedness of the concrete trees -/

/-- Well-formedness of the chain `a → b → c`. -/
theorem wf_tABC : WF tABC :=
  wf_of_check (by decide) (acyclic_of_checkLvl (fun x => (x : Int)) (by decide))

/-- Well-formedness of the chain `a → b → c → d`. -/
theorem wf_tChain : WF tChain :=
  wf_of_check (by decide) (acyclic_of_checkLvl (fun x => (x : Int)) (by decide))

/-- Well-formedness of the single-node tree. -/
theorem wf_tSingle : WF tSingle :=
  wf_of_check (by decide) (acyclic_of_checkLvl (fun x => (x : Int)) (by decide))

/-- Well-formedness of the serialization example tree. -/
theorem wf_tHarry : WF tHarry :=
  wf_of_check (by decide)
    (acyclic_of_checkLvl (fun x => if x = 1 then 0 else if x ≤ 3 then 1 else 2)
      (by decide))

/-- Well-formedness of the `expanded=false` example chain. -/
theorem wf_tExpFlag : WF tExpFlag :=
  wf_of_check (by decide) (acyclic_of_checkLvl (fun x => (x : Int)) (by decide))

/-- Well-formedness of the two-node graft tree. -/
theorem wf_tGraft : WF tGraft :=
  wf_of_check (by decide) (acyclic_of_checkLvl (fun x => (x : Int)) (by decide))

/-! ### Renderer filter behaviour (claim C10) -/

/-- Membership in the child-node collection comes from a stored child id. -/
theorem childNodes_mem {t : Tree} {n c : Node} (h : c ∈ childNodes t n) :
    ∃ cid ∈ n.children, t.find? cid = some c := by
  simpa [childNodes] using (List.mem_filterMap.mp h)

/-- In a well-formed tree, a looked-up node records its own key as id. -/
theorem find?_id {t : Tree} (hw : WF t) {k : Nat} {n : Node}
    (h : t.find? k = some n) : n.id = k :=
  hw.idCoh (k, n) (findPairs_mem h)

/-- Nodes of a well-formed tree can be re-looked-up by their own id. -/
theorem find?_self {t : Tree} (hw : WF t) {k : Nat} {n : Node}
    (h : t.find? k = some n) : t.find? n.id = some n := by
  rw [find?_id hw h]
  exact h

/-- Every line of the renderer's output other than the start node's own
line belongs to a node that passes the filter. -/
theorem printer_filter_pass (t : Tree) (φ : Node → Bool)
    (keyLt : Option (Node → Node → Bool)) (rev : Bool) (g : ASCIIMode)
    (hw : WF t) :
    ∀ fuel s isLast out,
      tree_printer_gen t (some φ) keyLt rev g fuel s isLast = .ok out →
      ∀ pr n, (pr, n) ∈ out → φ n = true ∨ t.find? s = some n := by
  intro fuel
  induction fuel with
  | zero =>
    intro s isLast out h
    cases h
  | succ f ih =>
    have kids_pass : ∀ kids isL out2,
        (∀ c ∈ kids, φ c = true ∧ t.find? c.id = some c) →
        printerKids (tree_printer_gen t (some φ) keyLt rev g f) isL kids = .ok out2 →
        ∀ pr n, (pr, n) ∈ out2 → φ n = true := by
      intro kids
      induction kids with
      | nil =>
        intro isL out2 _ h2 pr n hm
        cases h2
        simp at hm
      | cons c cs ihk =>
        intro isL out2 hcs h2 pr n hm
        simp only [printerKids] at h2
        cases hv : tree_printer_gen t (some φ) keyLt rev g f c.id (isL ++ [cs.isEmpty]) with
        | error e => simp only [hv] at h2; cases h2
        | ok o1 =>
          cases hrest : printerKids (tree_printer_gen t (some φ) keyLt rev g f) isL cs with
          | error e => simp only [hv, hrest] at h2; cases h2
          | ok o2 =>
            simp only [hv, hrest] at h2
            injection h2 with h2
            subst h2
            rcases List.mem_append.mp hm with hm1 | hm1
            · rcases ih c.id (isL ++ [cs.isEmpty]) o1 hv pr n hm1 with hp | hp
              · exact hp
              · have hc := hcs c (List.mem_cons_self _ _)
                rw [hc.2] at hp
                injection hp with hp
                rw [← hp]
                exact hc.1
            · exact ihk isL o2 (fun c' hc' => hcs c' (List.mem_cons_of_mem _ hc')) hrest pr n hm1
    intro s isLast out h pr n hm
    cases hf : t.find? s with
    | none => simp only [tree_printer_gen, hf] at h; cases h
    | some node =>
      simp only [tree_printer_gen, hf] at h
      have hkids : ∀ c ∈ rendererOrder keyLt rev ((childNodes t node).filter φ),
          φ c = true ∧ t.find? c.id = some c := by
        intro c hc
        have hc2 := (mem_rendererOrder keyLt rev _ c).mp hc
        have hc3 := List.mem_filter.mp hc2
        obtain ⟨cid, _hcid, hfc⟩ := childNodes_mem hc3.1
        exact ⟨hc3.2, find?_self hw hfc⟩
      by_cases hx : node.expanded
      · simp only [hx, if_true] at h
        by_cases hφ : φ node
        · simp only [hφ, if_true] at h
          cases hk : printerKids (tree_printer_gen t (some φ) keyLt rev g f) isLast
              (rendererOrder keyLt rev ((childNodes t node).filter φ)) with
          | error e => simp only [hk] at h; cases h
          | ok rest =>
            simp only [hk] at h
            injection h with h
            subst h
            rcases List.mem_cons.mp hm with hm1 | hm1
            · have h2 : n = node := (Prod.ext_iff.mp hm1).2
              exact Or.inr (by rw [h2])
            · exact Or.inl (kids_pass _ isLast rest hkids hk pr n hm1)
        · simp only [hφ, if_false] at h
          injection h with h
          subst h
          rcases List.mem_cons.mp hm with hm1 | hm1
          · have h2 : n = node := (Prod.ext_iff.mp hm1).2
            exact Or.inr (by rw [h2])
          · simp at hm1
      · simp only [hx, if_false] at h
        injection h with h
        subst h
        rcases List.mem_cons.mp hm with hm1 | hm1
        · have h2 : n = node := (Prod.ext_iff.mp hm1).2
          exact Or.inr (by rw [h2])
        · simp at hm1

/-- Claim C10, amended: the renderer emits each visited node's line before
evaluating the filter on it, so the START node of the rendering still
appears (with its prefix, alone) when it fails the filter, and none of its
children are rendered; but deeper failing nodes are not visited at all —
each parent filters its children before recursing — so every rendered line
other than the start node's own line belongs to a node that passes the
filter.  Unlike `expand_tree`, which suppresses a failing start node, the
renderer still emits the failing start node's line. -/
theorem C10_renderer_filter (t : Tree) (φ : Node → Bool)
    (keyLt : Option (Node → Node → Bool)) (rev : Bool) (g : ASCIIMode)
    (hw : WF t) :
    (∀ s nd fuel, t.find? s = some nd → φ nd = false →
      tree_printer_gen t (some φ) keyLt rev g (fuel + 1) s [] = .ok [("", nd)]) ∧
    (∀ fuel s out pr n,
      tree_printer_gen t (some φ) keyLt rev g fuel s [] = .ok out →
      (pr, n) ∈ out → φ n = true ∨ t.find? s = some n) := by
  constructor
  · intro s nd fuel hf hφ
    by_cases hx : nd.expanded <;>
      simp [tree_printer_gen, hf, hx, hφ, prefixOf]
  · intro fuel s out pr n h hm
    exact printer_filter_pass t φ keyLt rev g hw fuel s [] out h pr n hm

/-- Claim C10, witness: in `a → b → c` with a filter rejecting `b`,
rendering from `b` emits exactly `b`'s own line, and the only line of the
rendering from `a` is `a` itself (which trivially passes or is the start). -/
theorem C10_renderer_filter_witness :
    tree_printer_gen tABC (some (fun n => n.tag != "b")) none false
        ASCIIMode.ex 10 2 [] = .ok [("", ⟨2, "b", true, some 1, [3], none⟩)] ∧
    ((fun (n : Node) => n.tag != "b") ⟨1, "a", true, none, [2], none⟩ = true ∨
      tABC.find? 1 = some ⟨1, "a", true, none, [2], none⟩) :=
  ⟨(C10_renderer_filter tABC (fun n => n.tag != "b") none false
      ASCIIMode.ex wf_tABC).1 2 ⟨2, "b", true, some 1, [3], none⟩ 9 rfl rfl,
   (C10_renderer_filter tABC (fun n => n.tag != "b") none false
      ASCIIMode.ex wf_tABC).2 10 1 [("", ⟨1, "a", true, none, [2], none⟩)] ""
      ⟨1, "a", true, none, [2], none⟩ rfl (by simp)⟩

/-! ### Reachability and the level function -/

/-- Lookup failure excludes the key from the key list. -/
theorem findPairs_none_not_mem {l : List (Nat × Node)} {k : Nat}
    (h : findPairs l k = none) : k ∉ l.map Prod.fst := by
  induction l with
  | nil => simp
  | cons p rest ih =>
    by_cases hk : p.1 = k
    · simp [findPairs, hk] at h
    · simp only [findPairs, hk, if_neg, if_false] at h
      simp only [List.map_cons, List.mem_cons, not_or]
      exact ⟨fun he => hk he.symm, ih h⟩

/-- Present keys can be looked up. -/
theorem find?_of_mem_keys {t : Tree} {k : Nat} (h : k ∈ t.keys) :
    ∃ n, t.find? k = some n := by
  cases hf : t.find? k with
  | some n => exact ⟨n, rfl⟩
  | none => exact absurd h (findPairs_none_not_mem hf)

/-- A child of a present node sits one level below it, for any acyclicity
witness of a well-formed tree. -/
theorem child_lvl {t : Tree} (hw : WF t) {lvl : Nat → Int}
    (hlvl : ∀ p ∈ t.nodes, ∀ q, (p : Nat × Node).2.parent = some q →
      lvl p.1 = lvl q + 1)
    {b c : Nat} {nb : Node} (hb : t.find? b = some nb) (hc : c ∈ nb.children) :
    lvl c = lvl b + 1 := by
  have hmem := findPairs_mem hb
  have hck : c ∈ t.keys := hw.childrenPresent (b, nb) hmem c hc
  obtain ⟨nc, hnc⟩ := find?_of_mem_keys hck
  have hpar : nc.parent = some b := hw.parentChild (b, nb) hmem c hc nc hnc
  exact hlvl (c, nc) (findPairs_mem hnc) b hpar

/-- Levels are monotone along downward reachability. -/
theorem downReach_lvl {t : Tree} (hw : WF t) {lvl : Nat → Int}
    (hlvl : ∀ p ∈ t.nodes, ∀ q, (p : Nat × Node).2.parent = some q →
      lvl p.1 = lvl q + 1)
    {a b : Nat} (h : DownReach t a b) : lvl a ≤ lvl b := by
  induction h with
  | refl => exact le_refl _
  | step b c nb hab hfb hcb ih =>
    have := child_lvl hw hlvl hfb hcb
    omega

/-- Levels are strictly monotone along proper downward reachability. -/
theorem downReach_lvl_strict {t : Tree} (hw : WF t) {lvl : Nat → Int}
    (hlvl : ∀ p ∈ t.nodes, ∀ q, (p : Nat × Node).2.parent = some q →
      lvl p.1 = lvl q + 1)
    {a b : Nat} (h : DownReach t a b) (hne : b ≠ a) : lvl a < lvl b := by
  cases h with
  | refl => exact absurd rfl hne
  | step b' c nb hab hfb hcb =>
    have h1 := downReach_lvl hw hlvl hab
    have h2 := child_lvl hw hlvl hfb hcb
    omega

/-- Downward reachability is antisymmetric in a well-formed tree. -/
theorem downReach_antisymm {t : Tree} (hw : WF t) {a b : Nat}
    (h1 : DownReach t a b) (h2 : DownReach t b a) : a = b := by
  obtain ⟨lvl, hlvl⟩ := hw.acyclic
  by_contra hne
  have hs1 := downReach_lvl_strict hw hlvl h1 (fun he => hne he.symm)
  have hs2 := downReach_lvl hw hlvl h2
  omega

/-- Inverting the last step of a proper downward reach. -/
theorem downReach_inversion {t : Tree} {a c : Nat} (h : DownReach t a c)
    (hne : c ≠ a) :
    ∃ b nb, DownReach t a b ∧ t.find? b = some nb ∧ c ∈ nb.children := by
  cases h with
  | refl => exact absurd rfl hne
  | step b c nb hab hfb hcb => exact ⟨b, nb, hab, hfb, hcb⟩

/-- In a well-formed tree a node has at most one parent through the child
lists. -/
theorem child_parent_unique {t : Tree} (hw : WF t) {b b' c : Nat}
    {nb nb' : Node} (hb : t.find? b = some nb) (hc : c ∈ nb.children)
    (hb' : t.find? b' = some nb') (hc' : c ∈ nb'.children) : b = b' := by
  have hck : c ∈ t.keys := hw.childrenPresent (b, nb) (findPairs_mem hb) c hc
  obtain ⟨nc, hnc⟩ := find?_of_mem_keys hck
  have h1 : nc.parent = some b := hw.parentChild (b, nb) (findPairs_mem hb) c hc nc hnc
  have h2 : nc.parent = some b' := hw.parentChild (b', nb') (findPairs_mem hb') c hc' nc hnc
  rw [h1] at h2
  injection h2

/-- Every passing reach is a downward reach. -/
theorem passReach_downReach {t : Tree} {φ : Node → Bool} {s y : Nat}
    (h : PassReach t φ s y) : DownReach t s y := by
  induction h with
  | refl n hn hφ => exact DownReach.refl
  | step b c nb nc hb hfb hcb hfc hφ ih => exact DownReach.step b c nb ih hfb hcb

/-- The target of a passing reach passes the filter. -/
theorem passReach_pass {t : Tree} {φ : Node → Bool} {s y : Nat}
    (h : PassReach t φ s y) : ∃ n, t.find? y = some n ∧ φ n = true := by
  cases h with
  | refl n hn hφ => exact ⟨n, hn, hφ⟩
  | step b c nb nc hb hfb hcb hfc hφ => exact ⟨nc, hfc, hφ⟩

/-- A node between the start and a passing-reached node is itself
passing-reached: the downward path in a well-formed tree is unique, so
whatever lies between `s` and `y` lies on the passing path. -/
theorem passReach_between {t : Tree} (hw : WF t) {φ : Node → Bool}
    {s y : Nat} (hy : PassReach t φ s y) :
    ∀ x, DownReach t s x → DownReach t x y → PassReach t φ s x := by
  induction hy with
  | refl n hn hφ =>
    intro x hsx hxs
    have hx : s = x := downReach_antisymm hw hsx hxs
    rw [← hx]
    exact PassReach.refl n hn hφ
  | step b c nb nc hb hfb hcb hfc hφ ih =>
    intro x hsx hxc
    by_cases hxe : x = c
    · rw [hxe]
      exact PassReach.step b c nb nc hb hfb hcb hfc hφ
    · obtain ⟨b', nb', hxb', hfb', hcb'⟩ :=
        downReach_inversion hxc (fun he => hxe he.symm)
      have hbb : b' = b := child_parent_unique hw hfb' hcb' hfb hcb
      rw [hbb] at hxb'
      exact ih x hsx hxb'

/-! ### Soundness of the traversal loops with a filter -/

/-- Filtered children of an invariant queue node are passing-reached. -/
theorem expansion_pass {t : Tree} (hw : WF t) {φ : Node → Bool} {s : Nat}
    {q c : Node} (hq : PassReach t φ s q.id) (hfq : t.find? q.id = some q)
    (hc : c ∈ (childNodes t q).filter φ) :
    PassReach t φ s c.id ∧ t.find? c.id = some c := by
  have hc2 := List.mem_filter.mp hc
  obtain ⟨cid, hcid, hfc⟩ := childNodes_mem hc2.1
  have hid : c.id = cid := find?_id hw hfc
  constructor
  · rw [hid]
    exact PassReach.step q.id cid q c hq hfq hcid hfc hc2.2
  · exact find?_self hw hfc

/-- Every id yielded by the DEPTH/WIDTH loop under a filter is
passing-reached when every queued node is. -/
theorem loopDW_pass {t : Tree} (hw : WF t) (φ : Node → Bool)
    (dep : Bool) (lt : Node → Node → Bool) (rev : Bool) (s : Nat) :
    ∀ fuel Q, (∀ q ∈ Q, PassReach t φ s q.id ∧ t.find? q.id = some q) →
      ∀ x ∈ loopDW t dep (some φ) lt rev fuel Q, PassReach t φ s x := by
  intro fuel
  induction fuel with
  | zero => intro Q _ x hx; simp [loopDW] at hx
  | succ f ih =>
    intro Q hQ x hx
    cases Q with
    | nil => simp [loopDW] at hx
    | cons q rest =>
      simp only [loopDW, applyFilter, List.mem_cons] at hx
      rcases hx with hx | hx
      · rw [hx]
        exact (hQ q (List.mem_cons_self _ _)).1
      · refine ih _ ?_ x hx
        intro c hc
        by_cases hd : dep <;> simp only [hd, if_true, if_false] at hc
        · rcases List.mem_append.mp hc with hc1 | hc1
          · exact expansion_pass hw (hQ q (List.mem_cons_self _ _)).1
              (hQ q (List.mem_cons_self _ _)).2 ((mem_pySorted _ _ _ _).mp hc1)
          · exact hQ c (List.mem_cons_of_mem _ hc1)
        · rcases List.mem_append.mp hc with hc1 | hc1
          · exact hQ c (List.mem_cons_of_mem _ hc1)
          · exact expansion_pass hw (hQ q (List.mem_cons_self _ _)).1
              (hQ q (List.mem_cons_self _ _)).2 ((mem_pySorted _ _ _ _).mp hc1)

/-- Every id yielded by the ZIGZAG loop under a filter is passing-reached
when every stacked node is. -/
theorem loopZZ_pass {t : Tree} (hw : WF t) (φ : Node → Bool) (s : Nat) :
    ∀ fuel Q R dir, (∀ q ∈ Q, PassReach t φ s q.id ∧ t.find? q.id = some q) →
      (∀ q ∈ R, PassReach t φ s q.id ∧ t.find? q.id = some q) →
      ∀ x ∈ loopZZ t (some φ) fuel Q R dir, PassReach t φ s x := by
  intro fuel
  induction fuel with
  | zero => intro Q R dir _ _ x hx; simp [loopZZ] at hx
  | succ f ih =>
    intro Q R dir hQ hR x hx
    cases Q with
    | nil => simp [loopZZ] at hx
    | cons q rest =>
      simp only [loopZZ, applyFilter, List.mem_cons] at hx
      have hexp : ∀ c ∈ (if dir then ((childNodes t q).filter φ).reverse
          else (childNodes t q).filter φ) ++ R,
          PassReach t φ s c.id ∧ t.find? c.id = some c := by
        intro c hc
        rcases List.mem_append.mp hc with hc1 | hc1
        · have hc2 : c ∈ (childNodes t q).filter φ := by
            by_cases hd : dir <;> simp only [hd, if_true, if_false] at hc1
            · exact List.mem_reverse.mp hc1
            · exact hc1
          exact expansion_pass hw (hQ q (List.mem_cons_self _ _)).1
            (hQ q (List.mem_cons_self _ _)).2 hc2
        · exact hR c hc1
      rcases hx with hx | hx
      · rw [hx]
        exact (hQ q (List.mem_cons_self _ _)).1
      · by_cases he : rest.isEmpty
        · rw [he] at hx
          simp only [if_true] at hx
          exact ih _ _ _ hexp (by intro c hc; simp at hc) x hx
        · rw [show rest.isEmpty = false from by simpa using he] at hx
          simp only [Bool.false_eq_true, if_false] at hx
          exact ih _ _ _ (fun c hc => hQ c (List.mem_cons_of_mem _ hc)) hexp x hx

/-- Every id yielded by a filtered `expand_tree` is passing-reached from
the start. -/
theorem expand_tree_pass {t : Tree} (hw : WF t) {φ : Node → Bool}
    {s : Nat} {mode : TraversalMode} {lt : Node → Node → Bool} {rev : Bool}
    {fuel : Nat} {L : List Nat}
    (h : t.expand_tree (some s) mode (some φ) lt rev fuel = .ok L) :
    ∀ x ∈ L, PassReach t φ s x := by
  intro x hx
  cases hf : t.find? s with
  | none => simp [Tree.expand_tree, hf] at h
  | some nd =>
    simp only [Tree.expand_tree, hf] at h
    by_cases hφ : φ nd
    · simp only [hφ, if_true] at h
      injection h with h
      rw [← h] at hx
      have hs : PassReach t φ s s := PassReach.refl nd hf hφ
      have hid : nd.id = s := find?_id hw hf
      have hq0 : ∀ q ∈ (childNodes t nd).filter φ,
          PassReach t φ s q.id ∧ t.find? q.id = some q := by
        intro q hq
        exact expansion_pass hw (by rw [hid]; exact hs) (by rw [hid]; exact hf) hq
      rcases List.mem_cons.mp hx with hx1 | hx1
      · rw [hx1]; exact hs
      · cases mode with
        | depth =>
          refine loopDW_pass hw φ true lt rev s fuel _ ?_ x hx1
          intro q hq
          exact hq0 q ((mem_pySorted _ _ _ _).mp hq)
        | width =>
          refine loopDW_pass hw φ false lt rev s fuel _ ?_ x hx1
          intro q hq
          exact hq0 q ((mem_pySorted _ _ _ _).mp hq)
        | zigzag =>
          refine loopZZ_pass hw φ s fuel _ [] false ?_ ?_ x hx1
          · intro q hq
            exact hq0 q (List.mem_reverse.mp hq)
          · intro q hq
            simp at hq
    · simp only [hφ, if_false] at h
      injection h with h
      rw [← h] at hx
      simp at hx

/-- Claim C5: for every well-formed tree, traversal mode and filter
predicate, a node on which the filter evaluates false is excluded from
`expand_tree`'s output, and no node of the failing node's subtree appears
in the output either — the traversal prunes the whole subtree rather than
merely hiding the failing node.  (The failing node is taken within the
traversed region, i.e. reachable from the start; every yielded id belongs
to a node passing the filter, and a descendant of a failing node inside
the traversed subtree can never be yielded.) -/
theorem C5_filter_prunes (t : Tree) (hw : WF t) (s : Nat)
    (mode : TraversalMode) (φ : Node → Bool) (lt : Node → Node → Bool)
    (rev : Bool) (fuel : Nat) (L : List Nat)
    (h : t.expand_tree (some s) mode (some φ) lt rev fuel = .ok L) :
    (∀ x ∈ L, ∃ n, t.find? x = some n ∧ φ n = true) ∧
    (∀ x nx, t.find? x = some nx → φ nx = false → DownReach t s x →
      ∀ y, DownReach t x y → y ∉ L) := by
  constructor
  · intro x hx
    exact passReach_pass (expand_tree_pass hw h x hx)
  · intro x nx hfx hφx hsx y hxy hy
    have hpy : PassReach t φ s y := expand_tree_pass hw h y hy
    have hpx : PassReach t φ s x := passReach_between hw hpy x hsx hxy
    obtain ⟨n, hn, hφn⟩ := passReach_pass hpx
    rw [hfx] at hn
    injection hn with hn
    rw [← hn] at hφn
    rw [hφx] at hφn
    cases hφn

/-- Claim C5, witness: in `a → b → c` with a filter rejecting `b`, depth
traversal from the root yields `[1]`; the failing node `b` (id 2) passes
nothing through, so its child `c` (id 3) is not in the output. -/
theorem C5_filter_prunes_witness : (3 : Nat) ∉ ([1] : List Nat) :=
  (C5_filter_prunes tABC wf_tABC 1 .depth (fun n => n.tag != "b") nodeLt
      false 10 [1] rfl).2 2 ⟨2, "b", true, some 1, [3], none⟩ rfl rfl
    (DownReach.step 1 2 ⟨1, "a", true, none, [2], none⟩ DownReach.refl rfl
      (by simp))
    3
    (DownReach.step 2 3 ⟨2, "b", true, some 1, [3], none⟩ DownReach.refl rfl
      (by simp))

/-! ### The ancestor walk (`is_ancestor`) and `move_node` (claim C6) -/

/-- One upward step, read off the node of the current id. -/
def parentStep (t : Tree) (x : Nat) : Option Nat :=
  match t.find? x with
  | none => none
  | some nx => nx.parent

/-- Iterated parent lookup unfolds on the right. -/
theorem parentIter_succ_right (t : Tree) :
    ∀ (n : Nat) (x : Nat), parentIter t (n + 1) x =
      (parentIter t n x).bind (parentStep t) := by
  intro n
  induction n with
  | zero =>
    intro x
    cases hf : t.find? x with
    | none => simp [parentIter, parentStep, hf]
    | some nx => cases hp : nx.parent <;> simp [parentIter, parentStep, hf, hp]
  | succ m ih =>
    intro x
    cases hf : t.find? x with
    | none => simp [parentIter, hf]
    | some nx =>
      cases hp : nx.parent with
      | none => simp [parentIter, hf, hp]
      | some p =>
        have h1 : parentIter t (m + 1 + 1) x = parentIter t (m + 1) p := by
          simp only [parentIter, hf, hp]
        have h2 : parentIter t (m + 1) x = parentIter t m p := by
          simp only [parentIter, hf, hp]
        rw [h1, h2]
        exact ih p

/-- Success of a longer walk forces success of every shorter walk. -/
theorem parentIter_prefix {t : Tree} :
    ∀ {n i : Nat} {x y : Nat}, parentIter t n x = some y → i ≤ n →
      ∃ z, parentIter t i x = some z := by
  intro n
  induction n with
  | zero =>
    intro i x y h hi
    interval_cases i
    exact ⟨y, h⟩
  | succ m ih =>
    intro i x y h hi
    by_cases hin : i ≤ m
    · have h' := h
      rw [parentIter_succ_right] at h'
      cases hm : parentIter t m x with
      | none => rw [hm] at h'; cases h'
      | some z => exact ih hm hin
    · have hieq : i = m + 1 := by omega
      rw [hieq]
      exact ⟨y, h⟩

/-- Levels along the parent walk decrease by exactly the number of steps. -/
theorem parentIter_lvl {t : Tree} (hw : WF t) {lvl : Nat → Int}
    (hlvl : ∀ p ∈ t.nodes, ∀ q, (p : Nat × Node).2.parent = some q →
      lvl p.1 = lvl q + 1) :
    ∀ {n : Nat} {x y : Nat}, parentIter t n x = some y →
      lvl y = lvl x - n := by
  intro n
  induction n with
  | zero =>
    intro x y h
    injection h with h
    rw [h]
    simp
  | succ m ih =>
    intro x y h
    rw [parentIter_succ_right] at h
    cases hm : parentIter t m x with
    | none => rw [hm] at h; cases h
    | some z =>
      rw [hm] at h
      simp only [Option.bind, parentStep] at h
      cases hf : t.find? z with
      | none => rw [hf] at h; cases h
      | some nz =>
        rw [hf] at h
        have hz := ih hm
        have hstep : lvl z = lvl y + 1 :=
          hlvl (z, nz) (findPairs_mem hf) y h
        omega

/-- Intermediate stations of the walk are present keys. -/
theorem parentIter_mem_keys {t : Tree} (hw : WF t) :
    ∀ {n : Nat} {x y : Nat}, parentIter t n x = some y → 1 ≤ n → y ∈ t.keys := by
  intro n
  induction n with
  | zero => intro x y _ h1; omega
  | succ m ih =>
    intro x y h _
    rw [parentIter_succ_right] at h
    cases hm : parentIter t m x with
    | none => rw [hm] at h; cases h
    | some z =>
      rw [hm] at h
      simp only [Option.bind, parentStep] at h
      cases hf : t.find? z with
      | none => rw [hf] at h; cases h
      | some nz =>
        rw [hf] at h
        exact hw.parentPresent (z, nz) (findPairs_mem hf) y h

/-- The number of steps of a successful parent walk is bounded by the
number of nodes, because the stations are pairwise distinct present keys. -/
theorem parentIter_length_bound {t : Tree} (hw : WF t) {n : Nat} {b a : Nat}
    (h : parentIter t n b = some a) : n ≤ t.nodes.length := by
  obtain ⟨lvl, hlvl⟩ := hw.acyclic
  by_contra hgt
  push_neg at hgt
  -- map each step count `1 ≤ i ≤ n` to its station, an injection into the keys
  have hsome : ∀ i, 1 ≤ i → i ≤ n → ∃ z, parentIter t i b = some z := by
    intro i _ hi
    exact parentIter_prefix h hi
  classical
  let f : Nat → Nat := fun i => (parentIter t i b).getD 0
  have hfk : ∀ i ∈ Finset.Icc 1 n, f i ∈ t.keys.toFinset := by
    intro i hi
    rw [Finset.mem_Icc] at hi
    obtain ⟨z, hz⟩ := hsome i hi.1 hi.2
    have : f i = z := by simp [f, hz]
    rw [this]
    rw [List.mem_toFinset]
    exact parentIter_mem_keys hw hz hi.1
  have hinj : Set.InjOn f (Finset.Icc 1 n) := by
    intro i hi j hj hij
    rw [Finset.coe_Icc, Set.mem_Icc] at hi hj
    obtain ⟨zi, hzi⟩ := hsome i hi.1 hi.2
    obtain ⟨zj, hzj⟩ := hsome j hj.1 hj.2
    have hfi : f i = zi := by simp [f, hzi]
    have hfj : f j = zj := by simp [f, hzj]
    have hli := parentIter_lvl hw hlvl hzi
    have hlj := parentIter_lvl hw hlvl hzj
    rw [hfi, hfj] at hij
    rw [hij] at hli
    rw [hli] at hlj
    omega
  have hcard := Finset.card_le_card_of_injOn f hfk hinj
  rw [Nat.card_Icc] at hcard
  have hkeys : t.keys.toFinset.card ≤ t.keys.length := t.keys.toFinset_card_le
  have hkl : t.keys.length = t.nodes.length := List.length_map _ _
  omega

/-- A proper descendant is connected to its ancestor by a positive number
of parent steps. -/
theorem downReach_parentIter {t : Tree} (hw : WF t) {a b : Nat}
    (h : DownReach t a b) (hne : b ≠ a) :
    ∃ n, 1 ≤ n ∧ parentIter t n b = some a := by
  induction h with
  | refl => exact absurd rfl hne
  | step b c nb hab hfb hcb ih =>
    have hck : c ∈ t.keys := hw.childrenPresent (b, nb) (findPairs_mem hfb) c hcb
    obtain ⟨nc, hnc⟩ := find?_of_mem_keys hck
    have hpar : nc.parent = some b := hw.parentChild (b, nb) (findPairs_mem hfb) c hcb nc hnc
    by_cases hba : b = a
    · refine ⟨1, le_refl _, ?_⟩
      simp only [parentIter, hnc, hpar, hba]
    · obtain ⟨m, hm1, hmw⟩ := ih hba
      refine ⟨m + 1, by omega, ?_⟩
      simp only [parentIter, hnc, hpar]
      exact hmw

/-- The ancestor walk returns true whenever the sought ancestor lies on
the parent chain within the walk's fuel. -/
theorem isAncestorAux_finds {t : Tree} (hw : WF t) (anc : Nat) :
    ∀ (n : Nat) (fuel : Nat) (child : Nat) (ncd : Node), 1 ≤ n → n ≤ fuel →
      parentIter t n child = some anc → t.find? child = some ncd →
      isAncestorAux t anc fuel child ncd.parent = .ok true := by
  intro n
  induction n with
  | zero => intro fuel child ncd h1; omega
  | succ m ih =>
    intro fuel child ncd _ hnf hpi hfc
    simp only [parentIter, hfc] at hpi
    cases hp : ncd.parent with
    | none => rw [hp] at hpi; cases hpi
    | some p =>
      rw [hp] at hpi
      obtain ⟨f, rfl⟩ : ∃ f, fuel = f + 1 := ⟨fuel - 1, by omega⟩
      by_cases hpa : p = anc
      · simp [isAncestorAux, hpa]
      · by_cases hm1 : 1 ≤ m
        · obtain ⟨m'', rfl⟩ : ∃ m'', m = m'' + 1 := ⟨m - 1, by omega⟩
          obtain ⟨np, hnp⟩ : ∃ np, t.find? p = some np := by
            cases hfp : t.find? p with
            | none =>
              simp only [parentIter, hfp] at hpi
              exact Option.noConfusion hpi
            | some np => exact ⟨np, rfl⟩
          have hrec := ih f p np hm1 (by omega) hpi hnp
          simp only [isAncestorAux, hpa, hfc, hp, hnp, if_neg]
          simpa using hrec
        · have hm0 : m = 0 := by omega
          rw [hm0] at hpi
          injection hpi with hpi
          exact absurd hpi hpa

/-- Claim C6: `move_node(source, destination)` fails with `LoopError`
(the spec's `LoopDetected`) whenever `destination` is a proper descendant
of `source` in a well-formed tree — the error is raised before any
mutation, so the tree value is unchanged (the operation returns no new
tree) — and it fails with `NodeNotFound` when neither id is present,
before any mutation. -/
theorem C6_move_node_guards (t : Tree) (src dst : Nat) :
    (∀ (_hw : WF t), (t.find? src).isSome → (t.find? dst).isSome →
      DownReach t src dst → dst ≠ src →
      t.move_node src dst = .error .loopError) ∧
    (t.find? src = none → t.find? dst = none →
      t.move_node src dst = .error .nodeNotFound) := by
  constructor
  · intro hw hs hd hreach hne
    obtain ⟨nd, hnd⟩ := Option.isSome_iff_exists.mp hd
    obtain ⟨n, hn1, hpi⟩ := downReach_parentIter hw hreach hne
    have hbound := parentIter_length_bound hw hpi
    have hwalk := isAncestorAux_finds hw src n t.nodes.length dst nd hn1 hbound hpi hnd
    simp only [Tree.move_node, Tree.mem, hs, hd, Tree.is_ancestor, hnd, hwalk]
    simp
  · intro hs hd
    simp [Tree.move_node, Tree.mem, hs, hd]

/-- Claim C6, witness: in the chain `a → b → c → d`, `move_node('b','d')`
fails with `LoopError`, and moving between two absent ids fails with
`NodeNotFound`. -/
theorem C6_move_node_guards_witness :
    tChain.move_node 2 4 = .error .loopError ∧
      tChain.move_node 7 8 = .error .nodeNotFound :=
  ⟨(C6_move_node_guards tChain 2 4).1 wf_tChain (by decide) (by decide)
      (DownReach.step 3 4 ⟨3, "c", true, some 2, [4], none⟩
        (DownReach.step 2 3 ⟨2, "b", true, some 1, [3], none⟩
          DownReach.refl rfl (by simp)) rfl (by simp)) (by decide),
   (C6_move_node_guards tChain 7 8).2 rfl rfl⟩

/-! ### Completeness infrastructure for the default depth traversal -/

/-- Downward reachability composes. -/
theorem downReach_trans {t : Tree} {a b c : Nat} (h1 : DownReach t a b)
    (h2 : DownReach t b c) : DownReach t a c := by
  induction h2 with
  | refl => exact h1
  | step b' c' nb hab hfb hcb ih => exact DownReach.step b' c' nb ih hfb hcb

/-- A proper downward reach starts with a child of the source. -/
theorem downReach_first_step {t : Tree} {a b : Nat} (h : DownReach t a b)
    (hne : b ≠ a) {na : Node} (hfa : t.find? a = some na) :
    ∃ c ∈ na.children, DownReach t c b := by
  induction h with
  | refl => exact absurd rfl hne
  | step b' c nb hab hfb hcb ih =>
    by_cases hba : b' = a
    · rw [hba] at hfb
      rw [hfa] at hfb
      injection hfb with hfb
      rw [← hfb] at hcb
      exact ⟨c, hcb, DownReach.refl⟩
    · obtain ⟨c0, hc0, hr⟩ := ih hba
      exact ⟨c0, hc0, DownReach.step b' c nb hr hfb hcb⟩

/-- Collecting present children of a list recovers the list of ids. -/
theorem filterMap_find?_ids {t : Tree} (hw : WF t) :
    ∀ l : List Nat, (∀ c ∈ l, c ∈ t.keys) →
      (l.filterMap t.find?).map Node.id = l := by
  intro l
  induction l with
  | nil => intro _; rfl
  | cons c cs ih =>
    intro hall
    obtain ⟨nc, hnc⟩ := find?_of_mem_keys (hall c (List.mem_cons_self _ _))
    have hrest := ih (fun x hx => hall x (List.mem_cons_of_mem _ hx))
    simp only [List.filterMap_cons, hnc, List.map_cons, hrest]
    rw [find?_id hw hnc]

/-- Child-node ids of a present node are exactly its children list. -/
theorem childNodes_ids {t : Tree} (hw : WF t) {b : Nat} {nb : Node}
    (hfb : t.find? b = some nb) : (childNodes t nb).map Node.id = nb.children :=
  filterMap_find?_ids hw nb.children
    (fun c hc => hw.childrenPresent (b, nb) (findPairs_mem hfb) c hc)

/-- A present child appears among the collected child nodes. -/
theorem mem_childNodes {t : Tree} {nb nc : Node} {c : Nat}
    (hc : c ∈ nb.children) (hnc : t.find? c = some nc) :
    nc ∈ childNodes t nb :=
  List.mem_filterMap.mpr ⟨c, hc, hnc⟩

/-- A duplicate-free list drawn from another list is no longer than it. -/
theorem nodup_subset_length {l l' : List Nat} (hnd : l.Nodup)
    (hsub : ∀ x ∈ l, x ∈ l') : l.length ≤ l'.length := by
  calc l.length = l.toFinset.card := (List.toFinset_card_of_nodup hnd).symm
  _ ≤ l'.toFinset.card := Finset.card_le_card (by
      intro x hx
      rw [List.mem_toFinset] at hx
      rw [List.mem_toFinset]
      exact hsub x hx)
  _ ≤ l'.length := l'.toFinset_card_le

/-- Characterization of the unfiltered DEPTH loop on a well-formed tree:
when the queue holds freshly discovered children of already-yielded nodes
(`Y`), the loop yields exactly the unvisited members of the queued
subtrees, each once, provided the fuel covers the number of unvisited
keys.  The invariants mirror the loop's discovery discipline: yielded and
queued ids are distinct, each queued node was discovered as a child of a
yielded node, children of yielded nodes are yielded or queued, and yields
stay inside the subtree of the start `s`. -/
theorem loopDW_complete {t : Tree} (hw : WF t) (lt : Node → Node → Bool)
    (rev : Bool) (s : Nat) :
    ∀ (fuel : Nat) (Y : List Nat) (Q : List Node),
      s ∈ Y →
      (Y ++ Q.map Node.id).Nodup →
      (∀ y ∈ Y, y ∈ t.keys) →
      (∀ q ∈ Q, t.find? q.id = some q) →
      (∀ q ∈ Q, ∃ p ∈ Y, ∃ np, t.find? p = some np ∧ q.id ∈ np.children) →
      (∀ y ∈ Y, ∀ ny, t.find? y = some ny → ∀ c ∈ ny.children,
        c ∈ Y ∨ c ∈ Q.map Node.id) →
      (∀ y ∈ Y, y = s ∨ ∃ ny p, t.find? y = some ny ∧ ny.parent = some p ∧ p ∈ Y) →
      (∀ y ∈ Y, DownReach t s y) →
      t.keys.length ≤ fuel + Y.length →
      ((Y ++ loopDW t true none lt rev fuel Q).Nodup ∧
        ∀ x, x ∈ loopDW t true none lt rev fuel Q ↔
          (x ∈ t.keys ∧ x ∉ Y ∧ ∃ q ∈ Q, DownReach t q.id x)) := by
  intro fuel
  induction fuel with
  | zero =>
    intro Y Q hs h1 h5 h2 h3 h4 h6 h7 hfuel
    cases Q with
    | nil =>
      refine ⟨by simpa [loopDW] using h1, ?_⟩
      intro x
      simp [loopDW]
    | cons q rest =>
      exfalso
      have hfq : t.find? q.id = some q := h2 q (List.mem_cons_self _ _)
      have hqk : q.id ∈ t.keys := mem_keys_of_find? hfq
      have hsub : List.Sublist (Y ++ [q.id]) (Y ++ (q :: rest).map Node.id) :=
        List.Sublist.append_left
          (by simpa using (List.nil_sublist (rest.map Node.id)).cons₂ q.id) Y
      have hnd : (Y ++ [q.id]).Nodup := hsub.nodup h1
      have hlen : (Y ++ [q.id]).length ≤ t.keys.length :=
        nodup_subset_length hnd (by
          intro x hx
          rcases List.mem_append.mp hx with hx | hx
          · exact h5 x hx
          · simp at hx
            rw [hx]
            exact hqk)
      simp only [List.length_append, List.length_cons, List.length_nil] at hlen
      omega
  | succ f ih =>
    intro Y Q hs h1 h5 h2 h3 h4 h6 h7 hfuel
    cases Q with
    | nil =>
      refine ⟨by simpa [loopDW] using h1, ?_⟩
      intro x
      simp [loopDW]
    | cons q rest =>
      have hqQ : q ∈ q :: rest := List.mem_cons_self _ _
      have hfq : t.find? q.id = some q := h2 q hqQ
      have hqk : q.id ∈ t.keys := mem_keys_of_find? hfq
      obtain ⟨lvl, hlvl⟩ := hw.acyclic
      obtain ⟨p0, hp0Y, np0, hfp0, hqc0⟩ := h3 q hqQ
      have hqpar : q.parent = some p0 :=
        hw.parentChild (p0, np0) (findPairs_mem hfp0) q.id hqc0 q hfq
      have hsq : DownReach t s q.id :=
        DownReach.step p0 q.id np0 (h7 p0 hp0Y) hfp0 hqc0
      have hdisj : Y.Disjoint ((q :: rest).map Node.id) :=
        (List.nodup_append.mp h1).2.2
      have hqY : q.id ∉ Y := fun hin => hdisj hin (by simp)
      have hQnd : ((q :: rest).map Node.id).Nodup := (List.nodup_append.mp h1).2.1
      have hqrest : q.id ∉ rest.map Node.id := by
        have := hQnd
        simp only [List.map_cons, List.nodup_cons] at this
        exact this.1
      -- fresh children of q
      have hcfresh : ∀ c ∈ q.children,
          c ∉ Y ∧ c ∉ rest.map Node.id ∧ c ≠ q.id := by
        intro c hc
        have hck : c ∈ t.keys :=
          hw.childrenPresent (q.id, q) (findPairs_mem hfq) c hc
        obtain ⟨nc, hnc⟩ := find?_of_mem_keys hck
        have hpc : nc.parent = some q.id :=
          hw.parentChild (q.id, q) (findPairs_mem hfq) c hc nc hnc
        have hclvl : lvl c = lvl q.id + 1 :=
          hlvl (c, nc) (findPairs_mem hnc) q.id hpc
        refine ⟨?_, ?_, ?_⟩
        · intro hcY
          rcases h6 c hcY with hcs | ⟨ny, p, hfy, hyp, hpY⟩
          · -- c = s: then s hangs below q, which already lies below s
            rw [hcs] at hclvl
            have := downReach_lvl hw hlvl hsq
            omega
          · rw [hnc] at hfy
            injection hfy with hfy
            rw [← hfy] at hyp
            rw [hpc] at hyp
            injection hyp with hyp
            rw [← hyp] at hpY
            exact hqY hpY
        · intro hcR
          obtain ⟨r, hr, hrid⟩ := List.mem_map.mp hcR
          obtain ⟨p, hpY, np, hfp, hrc⟩ := h3 r (List.mem_cons_of_mem _ hr)
          rw [hrid] at hrc
          have : q.id = p := child_parent_unique hw hfq hc hfp hrc
          rw [← this] at hpY
          exact hqY hpY
        · intro hcq
          rw [hcq] at hclvl
          omega
      have hchnd : q.children.Nodup :=
        hw.childrenNodup (q.id, q) (findPairs_mem hfq)
      have hcsI : (childNodes t q).map Node.id = q.children := childNodes_ids hw hfq
      have hsortPerm : ((pySorted lt rev (childNodes t q)).map Node.id).Perm q.children := by
        rw [← hcsI]
        exact (pySorted_perm lt rev (childNodes t q)).map Node.id
      -- the new state
      have h1' : ((Y ++ [q.id]) ++
          ((pySorted lt rev (childNodes t q)) ++ rest).map Node.id).Nodup := by
        have hcore : (q.children ++ (Y ++ q.id :: rest.map Node.id)).Nodup := by
          rw [List.nodup_append]
          refine ⟨hchnd, ?_, ?_⟩
          · have : Y ++ q.id :: rest.map Node.id = Y ++ (q :: rest).map Node.id := by
              simp
            rw [this]
            exact h1
          · intro c hcq hcmem
            obtain ⟨hc1, hc2, hc3⟩ := hcfresh c hcq
            rcases List.mem_append.mp hcmem with hcm | hcm
            · exact hc1 hcm
            · rcases List.mem_cons.mp hcm with hcm | hcm
              · exact hc3 hcm
              · exact hc2 hcm
        have hXR : (Y ++ [q.id]) ++ rest.map Node.id = Y ++ q.id :: rest.map Node.id := by
          rw [List.append_assoc]
          rfl
        have hperm : ((Y ++ [q.id]) ++
            ((pySorted lt rev (childNodes t q)) ++ rest).map Node.id).Perm
              (q.children ++ (Y ++ q.id :: rest.map Node.id)) := by
          rw [List.map_append]
          refine List.Perm.trans
            (List.Perm.append_left _ (hsortPerm.append_right _)) ?_
          rw [← hXR]
          have e1 : (Y ++ [q.id]) ++ (q.children ++ rest.map Node.id) =
              ((Y ++ [q.id]) ++ q.children) ++ rest.map Node.id :=
            (List.append_assoc _ _ _).symm
          have e2 : q.children ++ ((Y ++ [q.id]) ++ rest.map Node.id) =
              (q.children ++ (Y ++ [q.id])) ++ rest.map Node.id :=
            (List.append_assoc _ _ _).symm
          rw [e1, e2]
          exact List.Perm.append_right _ List.perm_append_comm
        exact hperm.symm.nodup hcore
      have hsortMem : ∀ q' ∈ pySorted lt rev (childNodes t q),
          q'.id ∈ q.children ∧ t.find? q'.id = some q' := by
        intro q' hq'
        have hq'c := (mem_pySorted lt rev _ _).mp hq'
        obtain ⟨cid, hcid, hfc⟩ := childNodes_mem hq'c
        have hid : q'.id = cid := find?_id hw hfc
        rw [hid]
        exact ⟨hcid, hfc⟩
      have hih := ih (Y ++ [q.id]) (pySorted lt rev (childNodes t q) ++ rest)
        (List.mem_append_left _ hs) h1'
        (by
          intro y hy
          rcases List.mem_append.mp hy with hy | hy
          · exact h5 y hy
          · simp at hy
            rw [hy]
            exact hqk)
        (by
          intro q' hq'
          rcases List.mem_append.mp hq' with hq' | hq'
          · exact (hsortMem q' hq').2
          · exact h2 q' (List.mem_cons_of_mem _ hq'))
        (by
          intro q' hq'
          rcases List.mem_append.mp hq' with hq' | hq'
          · exact ⟨q.id, List.mem_append_right _ (by simp), q, hfq, (hsortMem q' hq').1⟩
          · obtain ⟨p, hpY, np, hfp, hrc⟩ := h3 q' (List.mem_cons_of_mem _ hq')
            exact ⟨p, List.mem_append_left _ hpY, np, hfp, hrc⟩)
        (by
          intro y hy ny hfy c hc
          rcases List.mem_append.mp hy with hy | hy
          · rcases h4 y hy ny hfy c hc with hin | hin
            · exact Or.inl (List.mem_append_left _ hin)
            · simp only [List.map_cons, List.mem_cons] at hin
              rcases hin with hin | hin
              · exact Or.inl (List.mem_append_right _ (by simp [hin]))
              · exact Or.inr (by
                  rw [List.map_append]
                  exact List.mem_append_right _ hin)
          · simp at hy
            rw [hy] at hfy
            rw [hfq] at hfy
            injection hfy with hfy
            refine Or.inr ?_
            rw [List.map_append]
            refine List.mem_append_left _ ?_
            rw [← hfy] at hc
            exact hsortPerm.mem_iff.mpr hc)
        (by
          intro y hy
          rcases List.mem_append.mp hy with hy | hy
          · rcases h6 y hy with hy1 | ⟨ny, p, hfy, hpp, hpY⟩
            · exact Or.inl hy1
            · exact Or.inr ⟨ny, p, hfy, hpp, List.mem_append_left _ hpY⟩
          · simp at hy
            rw [hy]
            exact Or.inr ⟨q, p0, hfq, hqpar, List.mem_append_left _ hp0Y⟩)
        (by
          intro y hy
          rcases List.mem_append.mp hy with hy | hy
          · exact h7 y hy
          · simp at hy
            rw [hy]
            exact hsq)
        (by
          simp only [List.length_append, List.length_cons, List.length_nil]
          omega)
      obtain ⟨hndIH, hiffIH⟩ := hih
      have hout : loopDW t true none lt rev (f + 1) (q :: rest) =
          q.id :: loopDW t true none lt rev f
            (pySorted lt rev (childNodes t q) ++ rest) := rfl
      constructor
      · rw [hout]
        have : Y ++ q.id :: loopDW t true none lt rev f
            (pySorted lt rev (childNodes t q) ++ rest) =
            (Y ++ [q.id]) ++ loopDW t true none lt rev f
              (pySorted lt rev (childNodes t q) ++ rest) := by
          rw [List.append_assoc]
          rfl
        rw [this]
        exact hndIH
      · intro x
        rw [hout]
        by_cases hxq : x = q.id
        · rw [hxq]
          simp only [List.mem_cons, true_or, true_iff]
          exact ⟨hqk, hqY, q, Or.inl rfl, DownReach.refl⟩
        · constructor
          · intro hx
            rcases List.mem_cons.mp hx with hx | hx
            · exact absurd hx hxq
            · obtain ⟨hxk, hxY', q', hq', hreach⟩ := (hiffIH x).mp hx
              have hxY : x ∉ Y := fun hin => hxY' (List.mem_append_left _ hin)
              rcases List.mem_append.mp hq' with hq' | hq'
              · refine ⟨hxk, hxY, q, hqQ, ?_⟩
                have hstep : DownReach t q.id q'.id :=
                  DownReach.step q.id q'.id q DownReach.refl hfq (hsortMem q' hq').1
                exact downReach_trans hstep hreach
              · exact ⟨hxk, hxY, q', List.mem_cons_of_mem _ hq', hreach⟩
          · rintro ⟨hxk, hxY, q0, hq0, hreach⟩
            refine List.mem_cons_of_mem _ ?_
            refine (hiffIH x).mpr ⟨hxk, ?_, ?_⟩
            · intro hin
              rcases List.mem_append.mp hin with hin | hin
              · exact hxY hin
              · simp at hin
                exact hxq hin
            · rcases List.mem_cons.mp hq0 with hq0 | hq0
              · rw [hq0] at hreach
                obtain ⟨c, hc, hcr⟩ := downReach_first_step hreach hxq hfq
                have hck : c ∈ t.keys :=
                  hw.childrenPresent (q.id, q) (findPairs_mem hfq) c hc
                obtain ⟨nc, hnc⟩ := find?_of_mem_keys hck
                refine ⟨nc, List.mem_append_left _
                  ((mem_pySorted lt rev _ _).mpr (mem_childNodes hc hnc)), ?_⟩
                rw [find?_id hw hnc]
                exact hcr
              · exact ⟨q0, List.mem_append_right _ hq0, hreach⟩

/-- Characterization of the default (unfiltered, DEPTH) `expand_tree` on
a well-formed tree: it succeeds and yields exactly the subtree of the
start, every node once, whenever the fuel reaches the node count. -/
theorem expand_tree_complete {t : Tree} (hw : WF t) {s : Nat} {nd : Node}
    (hf : t.find? s = some nd) (lt : Node → Node → Bool) (rev : Bool)
    {fuel : Nat} (hfuel : t.keys.length ≤ fuel + 1) :
    ∃ L, t.expand_tree (some s) .depth none lt rev fuel = .ok L ∧
      L.Nodup ∧ ∀ x, x ∈ L ↔ (x ∈ t.keys ∧ DownReach t s x) := by
  obtain ⟨lvl, hlvl⟩ := hw.acyclic
  have hsk : s ∈ t.keys := mem_keys_of_find? hf
  have hsnc : s ∉ nd.children := by
    intro hin
    have := child_lvl hw hlvl hf hin
    omega
  have hcsI : (childNodes t nd).map Node.id = nd.children := childNodes_ids hw hf
  have hsortPerm : ((pySorted lt rev (childNodes t nd)).map Node.id).Perm nd.children := by
    rw [← hcsI]
    exact (pySorted_perm lt rev (childNodes t nd)).map Node.id
  have hsortMem : ∀ q' ∈ pySorted lt rev (childNodes t nd),
      q'.id ∈ nd.children ∧ t.find? q'.id = some q' := by
    intro q' hq'
    obtain ⟨cid, hcid, hfc⟩ := childNodes_mem ((mem_pySorted lt rev _ _).mp hq')
    have hid : q'.id = cid := find?_id hw hfc
    rw [hid]
    exact ⟨hcid, hfc⟩
  have hmain := loopDW_complete hw lt rev s fuel [s]
    (pySorted lt rev (childNodes t nd))
    (by simp)
    (by
      have : ([s] ++ (pySorted lt rev (childNodes t nd)).map Node.id).Perm
          (s :: nd.children) := by
        simpa using hsortPerm.cons s
      refine this.symm.nodup ?_
      exact List.nodup_cons.mpr ⟨hsnc, hw.childrenNodup (s, nd) (findPairs_mem hf)⟩)
    (by
      intro y hy
      simp at hy
      rw [hy]
      exact hsk)
    (fun q hq => (hsortMem q hq).2)
    (fun q hq => ⟨s, by simp, nd, hf, (hsortMem q hq).1⟩)
    (by
      intro y hy ny hfy c hc
      simp at hy
      rw [hy] at hfy
      rw [hf] at hfy
      injection hfy with hfy
      refine Or.inr ?_
      rw [← hfy] at hc
      exact hsortPerm.mem_iff.mpr hc)
    (by
      intro y hy
      simp at hy
      exact Or.inl hy)
    (by
      intro y hy
      simp at hy
      rw [hy]
      exact DownReach.refl)
    (by simpa using hfuel)
  obtain ⟨hnd2, hiff⟩ := hmain
  refine ⟨s :: loopDW t true none lt rev fuel (pySorted lt rev (childNodes t nd)),
    ?_, ?_, ?_⟩
  · simp [Tree.expand_tree, hf]
  · simpa using hnd2
  · intro x
    constructor
    · intro hx
      rcases List.mem_cons.mp hx with hx | hx
      · rw [hx]
        exact ⟨hsk, DownReach.refl⟩
      · obtain ⟨hxk, _hxs, q', hq', hreach⟩ := (hiff x).mp hx
        refine ⟨hxk, ?_⟩
        have hstep : DownReach t s q'.id :=
          DownReach.step s q'.id nd DownReach.refl hf (hsortMem q' hq').1
        exact downReach_trans hstep hreach
    · rintro ⟨hxk, hreach⟩
      by_cases hxs : x = s
      · rw [hxs]
        exact List.mem_cons_self _ _
      · refine List.mem_cons_of_mem _ ?_
        refine (hiff x).mpr ⟨hxk, by simpa using hxs, ?_⟩
        obtain ⟨c, hc, hcr⟩ := downReach_first_step hreach hxs hf
        have hck : c ∈ t.keys :=
          hw.childrenPresent (s, nd) (findPairs_mem hf) c hc
        obtain ⟨nc, hnc⟩ := find?_of_mem_keys hck
        refine ⟨nc, (mem_pySorted lt rev _ _).mpr (mem_childNodes hc hnc), ?_⟩
        rw [find?_id hw hnc]
        exact hcr

/-- Every present node of a well-formed tree lies in the recorded root's
subtree: the parent chain ends at a parentless node, which must be the
root. -/
theorem root_reaches {t : Tree} (hw : WF t) {r : Nat} (hr : t.root = some r) :
    ∀ x ∈ t.keys, DownReach t r x := by
  obtain ⟨lvl, hlvl⟩ := hw.acyclic
  suffices h : ∀ n x, x ∈ t.keys →
      (t.keys.toFinset.filter (fun y => lvl y < lvl x)).card ≤ n →
      DownReach t r x from fun x hx => h _ x hx (le_refl _)
  intro n
  induction n with
  | zero =>
    intro x hx hc
    obtain ⟨nx, hnx⟩ := find?_of_mem_keys hx
    cases hpx : nx.parent with
    | none =>
      have := hw.parentNoneRoot (x, nx) (findPairs_mem hnx) hpx
      rw [hr] at this
      injection this with this
      rw [this]
      exact DownReach.refl
    | some p =>
      exfalso
      have hpk : p ∈ t.keys := hw.parentPresent (x, nx) (findPairs_mem hnx) p hpx
      have hlx : lvl x = lvl p + 1 := hlvl (x, nx) (findPairs_mem hnx) p hpx
      have hpmem : p ∈ t.keys.toFinset.filter (fun y => lvl y < lvl x) := by
        rw [Finset.mem_filter, List.mem_toFinset]
        exact ⟨hpk, by omega⟩
      have := Finset.card_pos.mpr ⟨p, hpmem⟩
      omega
  | succ m ih =>
    intro x hx hc
    obtain ⟨nx, hnx⟩ := find?_of_mem_keys hx
    cases hpx : nx.parent with
    | none =>
      have := hw.parentNoneRoot (x, nx) (findPairs_mem hnx) hpx
      rw [hr] at this
      injection this with this
      rw [this]
      exact DownReach.refl
    | some p =>
      have hpk : p ∈ t.keys := hw.parentPresent (x, nx) (findPairs_mem hnx) p hpx
      have hlx : lvl x = lvl p + 1 := hlvl (x, nx) (findPairs_mem hnx) p hpx
      have hss : t.keys.toFinset.filter (fun y => lvl y < lvl p) ⊂
          t.keys.toFinset.filter (fun y => lvl y < lvl x) := by
        constructor
        · intro y hy
          rw [Finset.mem_filter] at hy ⊢
          exact ⟨hy.1, by omega⟩
        · intro hcon
          have hpmem : p ∈ t.keys.toFinset.filter (fun y => lvl y < lvl x) := by
            rw [Finset.mem_filter, List.mem_toFinset]
            exact ⟨hpk, by omega⟩
          have := hcon hpmem
          rw [Finset.mem_filter] at this
          omega
      have hreach : DownReach t r p := by
        refine ih p hpk ?_
        have := Finset.card_lt_card hss
        omega
      obtain ⟨np, hnp⟩ := find?_of_mem_keys hpk
      have hxc : x ∈ np.children :=
        hw.childParent (x, nx) (findPairs_mem hnx) p np hpx hnp
      exact DownReach.step p x np hreach hnp hxc

/-! ### Deletion bookkeeping -/

/-- Deletion only ever shrinks the key list. -/
theorem mem_keys_delPairs {m : List (Nat × Node)} {k x : Nat}
    (h : x ∈ (delPairs m k).map Prod.fst) : x ∈ m.map Prod.fst := by
  induction m with
  | nil => simpa [delPairs] using h
  | cons p rest ih =>
    by_cases hk : p.1 = k
    · simp only [delPairs, hk, if_pos] at h
      rw [List.map_cons]
      exact List.mem_cons_of_mem _ h
    · simp only [delPairs, hk, if_neg, if_false, List.map_cons, List.mem_cons] at h
      rcases h with h | h
      · simp [h]
      · simp [ih h]

/-- Deleting a key removes it when keys are duplicate-free. -/
theorem not_mem_keys_delPairs {m : List (Nat × Node)} {k : Nat}
    (hnd : (m.map Prod.fst).Nodup) : k ∉ (delPairs m k).map Prod.fst := by
  induction m with
  | nil => simp [delPairs]
  | cons p rest ih =>
    rw [List.map_cons, List.nodup_cons] at hnd
    by_cases hk : p.1 = k
    · simp only [delPairs, hk, if_pos]
      rw [← hk]
      exact hnd.1
    · simp only [delPairs, hk, if_neg, if_false, List.map_cons, List.mem_cons]
      rintro (h | h)
      · exact hk h.symm
      · exact ih hnd.2 h

/-- Deleting one key keeps the others. -/
theorem mem_keys_delPairs_of_ne {m : List (Nat × Node)} {k x : Nat}
    (hne : x ≠ k) (hx : x ∈ m.map Prod.fst) : x ∈ (delPairs m k).map Prod.fst := by
  induction m with
  | nil => simpa using hx
  | cons p rest ih =>
    rw [List.map_cons, List.mem_cons] at hx
    by_cases hk : p.1 = k
    · simp only [delPairs, hk, if_pos]
      rcases hx with hx | hx
      · exact absurd (hx ▸ hk) hne
      · exact hx
    · simp only [delPairs, hk, if_neg, if_false, List.map_cons, List.mem_cons]
      rcases hx with hx | hx
      · exact Or.inl hx
      · exact Or.inr (ih hx)

/-- Deletion preserves duplicate-freedom of the keys. -/
theorem nodup_keys_delPairs {m : List (Nat × Node)} {k : Nat}
    (hnd : (m.map Prod.fst).Nodup) : ((delPairs m k).map Prod.fst).Nodup := by
  induction m with
  | nil => simpa [delPairs] using hnd
  | cons p rest ih =>
    rw [List.map_cons, List.nodup_cons] at hnd
    by_cases hk : p.1 = k
    · simp only [delPairs, hk, if_pos]
      exact hnd.2
    · simp only [delPairs, hk, if_neg, if_false, List.map_cons, List.nodup_cons]
      exact ⟨fun hin => hnd.1 (mem_keys_delPairs hin), ih hnd.2⟩

/-- Folded deletion only shrinks the key list. -/
theorem mem_keys_foldl_del {L : List Nat} :
    ∀ {m : List (Nat × Node)} {x : Nat},
      x ∈ ((L.foldl (fun m i => delPairs m i) m).map Prod.fst) →
      x ∈ m.map Prod.fst := by
  induction L with
  | nil => intro m x h; exact h
  | cons i L ih => intro m x h; exact mem_keys_delPairs (ih h)

/-- Folded deletion preserves duplicate-freedom of the keys. -/
theorem nodup_keys_foldl_del {L : List Nat} :
    ∀ {m : List (Nat × Node)}, (m.map Prod.fst).Nodup →
      ((L.foldl (fun m i => delPairs m i) m).map Prod.fst).Nodup := by
  induction L with
  | nil => intro m h; exact h
  | cons i L ih => intro m h; exact ih (nodup_keys_delPairs h)

/-- Every deleted key is gone after the folded deletion. -/
theorem not_mem_keys_foldl_del {L : List Nat} :
    ∀ {m : List (Nat × Node)} {x : Nat}, (m.map Prod.fst).Nodup → x ∈ L →
      x ∉ ((L.foldl (fun m i => delPairs m i) m).map Prod.fst) := by
  induction L with
  | nil => intro m x _ h; simp at h
  | cons i L ih =>
    intro m x hnd hx
    rcases List.mem_cons.mp hx with hx | hx
    · rw [hx]
      intro hin
      exact not_mem_keys_delPairs hnd (mem_keys_foldl_del hin)
    · exact ih (nodup_keys_delPairs hnd) hx

/-- Keys that are not deleted survive the folded deletion. -/
theorem mem_keys_foldl_del_of_not_mem {L : List Nat} :
    ∀ {m : List (Nat × Node)} {x : Nat}, x ∉ L → x ∈ m.map Prod.fst →
      x ∈ ((L.foldl (fun m i => delPairs m i) m).map Prod.fst) := by
  induction L with
  | nil => intro m x _ h; exact h
  | cons i L ih =>
    intro m x hx hm
    have hxi : x ≠ i := fun he => hx (he ▸ List.mem_cons_self _ _)
    have hxL : x ∉ L := fun he => hx (List.mem_cons_of_mem _ he)
    exact ih hxL (mem_keys_delPairs_of_ne hxi hm)

/-- In-place modification does not change the key list. -/
theorem keys_modPairs (m : List (Nat × Node)) (k : Nat) (f : Node → Node) :
    (modPairs m k f).map Prod.fst = m.map Prod.fst := by
  induction m with
  | nil => rfl
  | cons p rest ih =>
    by_cases hk : p.1 = k
    · simp [modPairs, hk]
    · simp [modPairs, hk, ih]

/-- Claim C2, amended: on a well-formed tree, `remove_node` applied to the
root id succeeds, removes every node (the returned count is the whole node
count and the node map becomes empty), but the tree's `root` field is NOT
cleared: it still records the removed root's id. -/
theorem C2_remove_root_keeps_stale_root (t : Tree) (hw : WF t) (r : Nat)
    (hr : t.root = some r) :
    ∃ t', t.remove_node (some r) = .ok (t', t.nodes.length) ∧
      t'.nodes = [] ∧ t'.root = some r := by
  have hrk : r ∈ t.keys := hw.rootMem r hr
  obtain ⟨nd, hnd⟩ := find?_of_mem_keys hrk
  have hpar : nd.parent = none := hw.rootNoParent r nd hr hnd
  have hkl : t.keys.length = t.nodes.length := List.length_map _ _
  obtain ⟨L, hL, hLnd, hLiff⟩ := expand_tree_complete hw hnd nodeLt false
    (show t.keys.length ≤ t.nodes.length + 1 by omega)
  have hLall : ∀ x, x ∈ L ↔ x ∈ t.keys := by
    intro x
    rw [hLiff x]
    exact ⟨fun h => h.1, fun h => ⟨h, root_reaches hw hr x h⟩⟩
  have hLlen : L.length = t.nodes.length := by
    have h1 : L.length ≤ t.keys.length :=
      nodup_subset_length hLnd (fun x hx => (hLall x).mp hx)
    have h2 : t.keys.length ≤ L.length :=
      nodup_subset_length hw.keysNodup (fun x hx => (hLall x).mpr hx)
    omega
  have hempty : (L.foldl (fun m i => delPairs m i) t.nodes) = [] := by
    cases he : L.foldl (fun m i => delPairs m i) t.nodes with
    | nil => rfl
    | cons p rest =>
      exfalso
      have hp : p.1 ∈ ((L.foldl (fun m i => delPairs m i) t.nodes).map Prod.fst) := by
        rw [he]
        simp
      have hpk : p.1 ∈ t.keys := mem_keys_foldl_del hp
      exact not_mem_keys_foldl_del hw.keysNodup ((hLall p.1).mpr hpk) hp
  refine ⟨{ t with nodes := L.foldl (fun m i => delPairs m i) t.nodes }, ?_, hempty, hr⟩
  rw [← hLlen]
  simp only [Tree.remove_node, hnd, hL, hpar]

/-- Claim C2, witness: removing the root of the example tree empties the
map while the root field keeps the stale id `1`. -/
theorem C2_remove_root_keeps_stale_root_witness :
    ∃ t', tHarry.remove_node (some 1) = .ok (t', tHarry.nodes.length) ∧
      t'.nodes = [] ∧ t'.root = some 1 :=
  C2_remove_root_keeps_stale_root tHarry wf_tHarry 1 rfl

/-- Claim C9: on a well-formed tree, removing a present id deletes exactly
the nodes of its subtree: `remove_node` returns the length of a
duplicate-free list that enumerates precisely the subtree of the id
(itself included), and afterwards none of those ids can be looked up. -/
theorem C9_remove_count (t : Tree) (hw : WF t) (nid : Nat)
    (hk : nid ∈ t.keys) :
    ∃ (t' : Tree) (L : List Nat),
      t.remove_node (some nid) = .ok (t', L.length) ∧ L.Nodup ∧
      (∀ x, x ∈ L ↔ (x ∈ t.keys ∧ DownReach t nid x)) ∧
      (∀ x ∈ L, t'.find? x = none) := by
  obtain ⟨nd, hnd⟩ := find?_of_mem_keys hk
  have hkl : t.keys.length = t.nodes.length := List.length_map _ _
  obtain ⟨L, hL, hLnd, hLiff⟩ := expand_tree_complete hw hnd nodeLt false
    (show t.keys.length ≤ t.nodes.length + 1 by omega)
  have hgone : ∀ x ∈ L,
      findPairs (L.foldl (fun m i => delPairs m i) t.nodes) x = none := by
    intro x hx
    cases hfe : findPairs (L.foldl (fun m i => delPairs m i) t.nodes) x with
    | none => rfl
    | some n =>
      exfalso
      exact not_mem_keys_foldl_del hw.keysNodup hx (mem_keys_of_findPairs hfe)
  cases hpar : nd.parent with
  | none =>
    refine ⟨{ t with nodes := L.foldl (fun m i => delPairs m i) t.nodes }, L,
      ?_, hLnd, hLiff, fun x hx => hgone x hx⟩
    simp only [Tree.remove_node, hnd, hL, hpar]
  | some par =>
    obtain ⟨lvl, hlvl⟩ := hw.acyclic
    have hparL : par ∉ L := by
      intro hin
      have hreach := ((hLiff par).mp hin).2
      have hge : lvl nid ≤ lvl par := downReach_lvl hw hlvl hreach
      have hstep : lvl nid = lvl par + 1 :=
        hlvl (nid, nd) (findPairs_mem hnd) par hpar
      omega
    have hpark : par ∈ t.keys := hw.parentPresent (nid, nd) (findPairs_mem hnd) par hpar
    have hparsurv : par ∈ ((L.foldl (fun m i => delPairs m i) t.nodes).map Prod.fst) :=
      mem_keys_foldl_del_of_not_mem hparL hpark
    obtain ⟨np, hnp⟩ := @find?_of_mem_keys
      { t with nodes := L.foldl (fun m i => delPairs m i) t.nodes } par hparsurv
    refine ⟨({ t with nodes := L.foldl (fun m i => delPairs m i) t.nodes } : Tree).mod
      par (fun n => n.remove_child nid), L, ?_, hLnd, hLiff, ?_⟩
    · simp only [Tree.remove_node, hnd, hL, hpar, hnp]
    · intro x hx
      have hxg := hgone x hx
      show findPairs (modPairs _ _ _) x = none
      cases hfe : findPairs (modPairs
          (L.foldl (fun m i => delPairs m i) t.nodes) par
          (fun n => n.remove_child nid)) x with
      | none => rfl
      | some n =>
        exfalso
        have := mem_keys_of_findPairs hfe
        rw [keys_modPairs] at this
        exact not_mem_keys_foldl_del hw.keysNodup hx this

/-- Claim C9, witness: removing `jane` (id 2, subtree `{2, 4}`) from the
example tree. -/
theorem C9_remove_count_witness :
    ∃ (t' : Tree) (L : List Nat),
      tHarry.remove_node (some 2) = .ok (t', L.length) ∧ L.Nodup ∧
      (∀ x, x ∈ L ↔ (x ∈ tHarry.keys ∧ DownReach tHarry 2 x)) ∧
      (∀ x ∈ L, t'.find? x = none) :=
  C9_remove_count tHarry wf_tHarry 2 (by decide)

/-! ### Mapping-update lemmas used for the invariant-preservation claim -/

/-- Lookup after a binding update, at the list level. -/
theorem findPairs_setPairs (m : List (Nat × Node)) (k : Nat) (v : Node) (x : Nat) :
    findPairs (setPairs m k v) x = if x = k then some v else findPairs m x := by
  induction m with
  | nil =>
    by_cases hx : x = k
    · simp [setPairs, findPairs, hx]
    · have hkx : ¬(k = x) := fun h => hx h.symm
      simp [setPairs, findPairs, hx, hkx]
  | cons p rest ih =>
    by_cases hk : p.1 = k
    · by_cases hx : x = k
      · simp [setPairs, findPairs, hk, hx]
      · have hkx : ¬(k = x) := fun h => hx h.symm
        have hpx : ¬(p.1 = x) := fun h => hx (hk ▸ h.symm ▸ rfl)
        simp [setPairs, findPairs, hk, hx, hkx, hpx]
    · by_cases hpx : p.1 = x
      · have hxk : ¬(x = k) := fun h => hk (by rw [hpx, h])
        simp [setPairs, findPairs, hk, hpx, hxk]
      · simp only [setPairs, hk, if_neg, if_false, findPairs, hpx]
        exact ih

/-- Lookup after `self[key] = value`. -/
theorem find?_set (t : Tree) (k : Nat) (v : Node) (x : Nat) :
    (t.set k v).find? x = if x = k then some v else t.find? x :=
  findPairs_setPairs t.nodes k v x

/-- Lookup after an in-place mutation, at the list level. -/
theorem findPairs_modPairs (m : List (Nat × Node)) (k : Nat) (f : Node → Node)
    (x : Nat) :
    findPairs (modPairs m k f) x =
      if x = k then (findPairs m k).map f else findPairs m x := by
  induction m with
  | nil => by_cases hx : x = k <;> simp [modPairs, findPairs, hx]
  | cons p rest ih =>
    by_cases hk : p.1 = k
    · by_cases hx : x = k
      · simp [modPairs, findPairs, hk, hx]
      · have hkx : ¬(k = x) := fun h => hx h.symm
        simp [modPairs, findPairs, hk, hx, hkx]
    · by_cases hpx : p.1 = x
      · have hxk : ¬(x = k) := fun h => hk (by rw [hpx, h])
        have hpk : ¬(p.1 = k) := hk
        simp [modPairs, findPairs, hk, hpx, hxk, hpk]
      · simp only [modPairs, hk, if_neg, if_false, findPairs, hpx]
        exact ih

/-- Lookup after an in-place node mutation. -/
theorem find?_mod (t : Tree) (k : Nat) (f : Node → Node) (x : Nat) :
    (t.mod k f).find? x = if x = k then (t.find? k).map f else t.find? x :=
  findPairs_modPairs t.nodes k f x

/-- Lookup of another key after a deletion, at the list level. -/
theorem findPairs_delPairs_ne (m : List (Nat × Node)) (k x : Nat) (hne : x ≠ k) :
    findPairs (delPairs m k) x = findPairs m x := by
  induction m with
  | nil => rfl
  | cons p rest ih =>
    by_cases hk : p.1 = k
    · have hkx : ¬(k = x) := fun h => hne h.symm
      simp [delPairs, findPairs, hk, hkx]
    · by_cases hpx : p.1 = x
      · simp [delPairs, findPairs, hk, hpx, hne]
      · simp only [delPairs, hk, if_neg, if_false, findPairs, hpx]
        exact ih

/-- Lookup of another key after a deletion. -/
theorem find?_del_ne (t : Tree) (k x : Nat) (hne : x ≠ k) :
    (t.del k).find? x = t.find? x :=
  findPairs_delPairs_ne t.nodes k x hne

/-- Lookup of the deleted key fails when keys are duplicate-free. -/
theorem find?_del_self (t : Tree) (k : Nat) (hnd : t.keys.Nodup) :
    (t.del k).find? k = none :=
  findPairs_eq_none (not_mem_keys_delPairs hnd)

/-- Storing an absent key appends the binding. -/
theorem setPairs_append {m : List (Nat × Node)} {k : Nat} (v : Node)
    (h : k ∉ m.map Prod.fst) : setPairs m k v = m ++ [(k, v)] := by
  induction m with
  | nil => rfl
  | cons p rest ih =>
    simp only [List.map_cons, List.mem_cons, not_or] at h
    have : p.1 ≠ k := fun he => h.1 he.symm
    simp only [setPairs, this, if_neg, if_false, List.cons_append]
    rw [ih h.2]

/-- Lookup in a concatenation tries the left bindings first. -/
theorem findPairs_append (A B : List (Nat × Node)) (x : Nat) :
    findPairs (A ++ B) x =
      match findPairs A x with
      | some v => some v
      | none => findPairs B x := by
  induction A with
  | nil => simp [findPairs]
  | cons p rest ih =>
    by_cases hp : p.1 = x
    · simp [findPairs, hp]
    · simp only [List.cons_append, findPairs, hp, if_neg, if_false]
      exact ih

/-- Merging disjoint bindings appends them in order. -/
theorem foldl_set_append :
    ∀ (pairs m : List (Nat × Node)),
      (∀ p ∈ pairs, (p : Nat × Node).1 ∉ m.map Prod.fst) →
      (pairs.map Prod.fst).Nodup →
      pairs.foldl (fun acc p => setPairs acc p.1 p.2) m = m ++ pairs := by
  intro pairs
  induction pairs with
  | nil => intro m _ _; simp
  | cons p rest ih =>
    intro m hdisj hnd
    rw [List.map_cons, List.nodup_cons] at hnd
    have h1 : setPairs m p.1 p.2 = m ++ [(p.1, p.2)] :=
      setPairs_append p.2 (hdisj p (List.mem_cons_self _ _))
    show rest.foldl (fun acc q => setPairs acc q.1 q.2) (setPairs m p.1 p.2) = _
    rw [h1]
    rw [ih (m ++ [(p.1, p.2)]) ?_ hnd.2]
    · simp
    · intro q hq
      rw [List.map_append, List.mem_append]
      rintro (hin | hin)
      · exact hdisj q (List.mem_cons_of_mem _ hq) hin
      · simp at hin
        exact hnd.1 (hin ▸ List.mem_map_of_mem Prod.fst hq)

/-- Lookup after re-parenting a duplicate-free batch of nodes with an
idempotent field update. -/
theorem find?_foldl_mod (f : Node → Node) (hidem : ∀ n, f (f n) = f n) :
    ∀ (l : List Nat) (t : Tree) (x : Nat),
      (l.foldl (fun tr c => tr.mod c f) t).find? x =
        if x ∈ l then (t.find? x).map f else t.find? x := by
  intro l
  induction l with
  | nil => intro t x; simp
  | cons c cs ih =>
    intro t x
    show (cs.foldl (fun tr c => tr.mod c f) (t.mod c f)).find? x = _
    rw [ih (t.mod c f) x]
    by_cases hx : x ∈ cs
    · rw [if_pos hx, if_pos (List.mem_cons_of_mem _ hx)]
      rw [find?_mod]
      by_cases hxc : x = c
      · rw [if_pos hxc, hxc]
        cases t.find? c <;> simp [hidem]
      · rw [if_neg hxc]
    · rw [if_neg hx]
      rw [find?_mod]
      by_cases hxc : x = c
      · rw [if_pos hxc, if_pos (by rw [hxc]; exact List.mem_cons_self _ _), hxc]
      · rw [if_neg hxc, if_neg (by
          intro hin
          rcases List.mem_cons.mp hin with h | h
          · exact hxc h
          · exact hx h)]

/-- Keys after re-parenting a batch of nodes. -/
theorem keys_foldl_mod (f : Node → Node) :
    ∀ (l : List Nat) (t : Tree),
      (l.foldl (fun tr c => tr.mod c f) t).keys = t.keys := by
  intro l
  induction l with
  | nil => intro t; rfl
  | cons c cs ih =>
    intro t
    show (cs.foldl (fun tr c => tr.mod c f) (t.mod c f)).keys = _
    rw [ih]
    exact keys_modPairs t.nodes c f

/-- A non-empty well-formed tree has a parentless node, namely its root. -/
theorem wf_rootExists {t : Tree} (hw : WF t) : RootExists t := by
  intro hne
  obtain ⟨lvl, hlvl⟩ := hw.acyclic
  have hx0 : ∃ x, x ∈ t.keys := by
    cases he : t.nodes with
    | nil => exact absurd he hne
    | cons p rest => exact ⟨p.1, by rw [Tree.keys, he]; simp⟩
  obtain ⟨x0, hx0⟩ := hx0
  suffices h : ∀ n x, x ∈ t.keys →
      (t.keys.toFinset.filter (fun y => lvl y < lvl x)).card ≤ n →
      ∃ p ∈ t.nodes, (p : Nat × Node).2.parent = none ∧ t.root = some p.1 by
    exact h _ x0 hx0 (le_refl _)
  intro n
  induction n with
  | zero =>
    intro x hx hc
    obtain ⟨nx, hnx⟩ := find?_of_mem_keys hx
    cases hpx : nx.parent with
    | none =>
      exact ⟨(x, nx), findPairs_mem hnx, hpx,
        hw.parentNoneRoot (x, nx) (findPairs_mem hnx) hpx⟩
    | some p =>
      exfalso
      have hpk : p ∈ t.keys := hw.parentPresent (x, nx) (findPairs_mem hnx) p hpx
      have hlx : lvl x = lvl p + 1 := hlvl (x, nx) (findPairs_mem hnx) p hpx
      have hpmem : p ∈ t.keys.toFinset.filter (fun y => lvl y < lvl x) := by
        rw [Finset.mem_filter, List.mem_toFinset]
        exact ⟨hpk, by omega⟩
      have := Finset.card_pos.mpr ⟨p, hpmem⟩
      omega
  | succ m ih =>
    intro x hx hc
    obtain ⟨nx, hnx⟩ := find?_of_mem_keys hx
    cases hpx : nx.parent with
    | none =>
      exact ⟨(x, nx), findPairs_mem hnx, hpx,
        hw.parentNoneRoot (x, nx) (findPairs_mem hnx) hpx⟩
    | some p =>
      have hpk : p ∈ t.keys := hw.parentPresent (x, nx) (findPairs_mem hnx) p hpx
      have hlx : lvl x = lvl p + 1 := hlvl (x, nx) (findPairs_mem hnx) p hpx
      refine ih p hpk ?_
      have hss : t.keys.toFinset.filter (fun y => lvl y < lvl p) ⊂
          t.keys.toFinset.filter (fun y => lvl y < lvl x) := by
        constructor
        · intro y hy
          rw [Finset.mem_filter] at hy ⊢
          exact ⟨hy.1, by omega⟩
        · intro hcon
          have hpmem : p ∈ t.keys.toFinset.filter (fun y => lvl y < lvl x) := by
            rw [Finset.mem_filter, List.mem_toFinset]
            exact ⟨hpk, by omega⟩
          have := hcon hpmem
          rw [Finset.mem_filter] at this
          omega
      have := Finset.card_lt_card hss
      omega

/-- Well-formedness subsumes the three core invariant properties. -/
theorem wf_coreInvariants {t : Tree} (hw : WF t) : CoreInvariants t :=
  ⟨hw.parentNoneRoot, wf_rootExists hw, hw.acyclic⟩

/-- Assembly of the core invariants from lookup-level facts, for a result
tree with duplicate-free keys. -/
theorem coreInvariants_build (t : Tree) (hnd : t.keys.Nodup)
    (hru : ∀ x n, t.find? x = some n → n.parent = none → t.root = some x)
    (hre : t.nodes ≠ [] → ∃ x n, t.find? x = some n ∧ n.parent = none ∧
      t.root = some x)
    (hac : ∃ lvl : Nat → Int, ∀ x n q, t.find? x = some n →
      n.parent = some q → lvl x = lvl q + 1) :
    CoreInvariants t := by
  refine ⟨?_, ?_, ?_⟩
  · intro p hp hpar
    exact hru p.1 p.2 (find?_of_mem hnd hp) hpar
  · intro hne
    obtain ⟨x, n, hf, hpar, hr⟩ := hre hne
    exact ⟨(x, n), findPairs_mem hf, hpar, hr⟩
  · obtain ⟨lvl, hlvl⟩ := hac
    exact ⟨lvl, fun p hp q hq => hlvl p.1 p.2 q (find?_of_mem hnd hp) hq⟩

/-! ### Preservation of the core invariants by each mutation (claim C4) -/

/-- Keys of the tree after storing a fresh binding. -/
theorem keys_set_fresh {t : Tree} {k : Nat} (v : Node) (h : t.find? k = none) :
    (t.set k v).keys = t.keys ++ [k] := by
  show (setPairs t.nodes k v).map Prod.fst = _
  rw [setPairs_append v (findPairs_none_not_mem h)]
  simp [Tree.keys]

/-- Keys are unchanged by an in-place mutation. -/
theorem keys_mod (t : Tree) (k : Nat) (f : Node → Node) :
    (t.mod k f).keys = t.keys := keys_modPairs t.nodes k f

/-- Successful `add_node` preserves the core invariants. -/
theorem add_node_core {t : Tree} (hw : WF t) {node : Node} {pid : Option Nat}
    {t' : Tree} (h : t.add_node node pid = .ok t') : CoreInvariants t' := by
  obtain ⟨lvl, hlvl⟩ := hw.acyclic
  cases hdup : t.find? node.id with
  | some nd => simp [Tree.add_node, hdup] at h
  | none =>
    have hnotmem : node.id ∉ t.keys := findPairs_none_not_mem hdup
    cases pid with
    | none =>
      cases hroot : t.root with
      | some r => simp [Tree.add_node, hdup, hroot] at h
      | none =>
        simp only [Tree.add_node, hdup, hroot, Option.isSome_none,
          Bool.false_eq_true, if_false, Option.isSome_some] at h
        injection h with h
        have hfind : ∀ x, t'.find? x =
            if x = node.id then some { node with parent := none }
            else t.find? x := by
          intro x
          rw [← h]
          rw [find?_mod]
          by_cases hx : x = node.id
          · simp [hx, Tree.find?, findPairs_setPairs]
          · simp [hx, Tree.find?, findPairs_setPairs]
        have hkeys : t'.keys = t.keys ++ [node.id] := by
          rw [← h]
          show (modPairs (setPairs t.nodes node.id node) node.id _).map Prod.fst = _
          rw [keys_modPairs]
          rw [setPairs_append node (findPairs_none_not_mem hdup)]
          simp [Tree.keys]
        have hroot' : t'.root = some node.id := by rw [← h]; rfl
        refine coreInvariants_build t' ?_ ?_ ?_ ?_
        · rw [hkeys]
          simp only [List.nodup_append, List.nodup_cons, List.nodup_nil]
          exact ⟨hw.keysNodup, by simp, by
            intro a ha hin
            simp at hin
            rw [hin] at ha
            exact hnotmem ha⟩
        · intro x n hf hpar
          rw [hfind x] at hf
          by_cases hx : x = node.id
          · rw [hroot', hx]
          · rw [if_neg hx] at hf
            have := hw.parentNoneRoot (x, n) (findPairs_mem hf) hpar
            rw [hroot] at this
            cases this
        · intro _
          exact ⟨node.id, { node with parent := none }, by rw [hfind]; simp,
            rfl, hroot'⟩
        · refine ⟨lvl, ?_⟩
          intro x n q hf hq
          rw [hfind x] at hf
          by_cases hx : x = node.id
          · rw [if_pos hx] at hf
            injection hf with hf
            rw [← hf] at hq
            cases hq
          · rw [if_neg hx] at hf
            exact hlvl (x, n) (findPairs_mem hf) q hq
    | some pid =>
      cases hp : t.find? pid with
      | none => simp [Tree.add_node, hdup, hp] at h
      | some np =>
        simp only [Tree.add_node, hdup, hp, Option.isSome_none,
          Bool.false_eq_true, if_false, Option.isNone_some] at h
        injection h with h
        have hpidk : pid ∈ t.keys := mem_keys_of_find? hp
        have hpidne : pid ≠ node.id := fun he => hnotmem (he ▸ hpidk)
        have hfind : ∀ x, t'.find? x =
            if x = node.id then some { node with parent := some pid }
            else if x = pid then some (np.add_child node.id)
            else t.find? x := by
          intro x
          rw [← h]
          have hne1 : ¬(node.id = pid) := fun he => hpidne he.symm
          simp only [find?_mod, find?_set]
          by_cases hx : x = node.id
          · simp [hx, hne1]
          · by_cases hxp : x = pid
            · simp [hx, hxp, hpidne, hp]
            · simp [hx, hxp]
        have hkeys : t'.keys = t.keys ++ [node.id] := by
          rw [← h]
          show (modPairs (modPairs (setPairs t.nodes node.id node) pid _)
            node.id _).map Prod.fst = _
          rw [keys_modPairs, keys_modPairs]
          rw [setPairs_append node (findPairs_none_not_mem hdup)]
          simp [Tree.keys]
        have hroot' : t'.root = t.root := by rw [← h]; rfl
        have hndk : t'.keys.Nodup := by
          rw [hkeys]
          simp only [List.nodup_append, List.nodup_cons, List.nodup_nil]
          exact ⟨hw.keysNodup, by simp, by
            intro a ha hin
            simp at hin
            rw [hin] at ha
            exact hnotmem ha⟩
        refine coreInvariants_build t' hndk ?_ ?_ ?_
        · intro x n hf hpar
          rw [hfind x] at hf
          by_cases hx : x = node.id
          · rw [if_pos hx] at hf
            injection hf with hf
            rw [← hf] at hpar
            cases hpar
          · rw [if_neg hx] at hf
            by_cases hxp : x = pid
            · rw [if_pos hxp] at hf
              injection hf with hf
              rw [← hf] at hpar
              have : np.parent = none := hpar
              rw [hroot', hxp]
              exact hw.parentNoneRoot (pid, np) (findPairs_mem hp) this
            · rw [if_neg hxp] at hf
              rw [hroot']
              exact hw.parentNoneRoot (x, n) (findPairs_mem hf) hpar
        · intro _
          have hne : t.nodes ≠ [] := by
            intro he
            rw [Tree.keys, he] at hpidk
            simp at hpidk
          obtain ⟨p, hpmem, hppar, hproot⟩ := wf_rootExists hw hne
          have hfp : t.find? p.1 = some p.2 := find?_of_mem hw.keysNodup hpmem
          have hp1k : p.1 ∈ t.keys := mem_keys_of_find? hfp
          have hp1ne : p.1 ≠ node.id := fun he => hnotmem (he ▸ hp1k)
          by_cases hp1p : p.1 = pid
          · refine ⟨p.1, np.add_child node.id, ?_, ?_, ?_⟩
            · rw [hfind]
              rw [if_neg hp1ne, if_pos hp1p]
            · show np.parent = none
              rw [hp1p] at hfp
              rw [hp] at hfp
              injection hfp with hfp
              rw [hfp]
              exact hppar
            · rw [hroot']
              exact hproot
          · refine ⟨p.1, p.2, ?_, hppar, by rw [hroot']; exact hproot⟩
            rw [hfind]
            rw [if_neg hp1ne, if_neg hp1p]
            exact hfp
        · refine ⟨fun x => if x = node.id then lvl pid + 1 else lvl x, ?_⟩
          intro x n q hf hq
          rw [hfind x] at hf
          change (if x = node.id then lvl pid + 1 else lvl x) =
            (if q = node.id then lvl pid + 1 else lvl q) + 1
          by_cases hx : x = node.id
          · rw [if_pos hx] at hf
            injection hf with hf
            rw [← hf] at hq
            have hqp : q = pid := by
              injection hq with hq
              exact hq.symm
            rw [if_pos hx, hqp, if_neg hpidne]
          · rw [if_neg hx] at hf
            rw [if_neg hx]
            by_cases hxp : x = pid
            · rw [if_pos hxp] at hf
              injection hf with hf
              rw [← hf] at hq
              have hq' : np.parent = some q := hq
              have hqk : q ∈ t.keys :=
                hw.parentPresent (pid, np) (findPairs_mem hp) q hq'
              have hqne : q ≠ node.id := fun he => hnotmem (he ▸ hqk)
              rw [if_neg hqne, hxp]
              exact hlvl (pid, np) (findPairs_mem hp) q hq'
            · rw [if_neg hxp] at hf
              have hqk : q ∈ t.keys :=
                hw.parentPresent (x, n) (findPairs_mem hf) q hq
              have hqne : q ≠ node.id := fun he => hnotmem (he ▸ hqk)
              rw [if_neg hqne]
              exact hlvl (x, n) (findPairs_mem hf) q hq

/-- Lookup survives a fold of deletions that misses the key. -/
theorem findPairs_foldl_del_not_mem :
    ∀ (L : List Nat) (m : List (Nat × Node)) (x : Nat), x ∉ L →
      findPairs (L.foldl (fun m i => delPairs m i) m) x = findPairs m x := by
  intro L
  induction L with
  | nil => intro m x _; rfl
  | cons i L ih =>
    intro m x hx
    have hx' : ¬(x = i ∨ x ∈ L) := by simpa [List.mem_cons] using hx
    push_neg at hx'
    show findPairs (L.foldl _ (delPairs m i)) x = _
    rw [ih (delPairs m i) x hx'.2]
    exact findPairs_delPairs_ne m i x hx'.1

/-- A parentless node of a well-formed tree is only reachable downward
from itself. -/
theorem downReach_parentless {t : Tree} (hw : WF t) {a r : Nat} {nr : Node}
    (hr : t.find? r = some nr) (hpar : nr.parent = none)
    (h : DownReach t a r) : r = a := by
  by_contra hne
  obtain ⟨b, nb, _, hfb, hcb⟩ := downReach_inversion h hne
  have hpc := hw.parentChild (b, nb) (findPairs_mem hfb) r hcb nr hr
  rw [hpar] at hpc
  cases hpc

/-- Successful `remove_node` preserves the core invariants. -/
theorem remove_node_core {t : Tree} (hw : WF t) {node_id : Option Nat}
    {t' : Tree} {cnt : Nat} (h : t.remove_node node_id = .ok (t', cnt)) :
    CoreInvariants t' := by
  cases node_id with
  | none =>
    simp only [Tree.remove_node, Except.ok.injEq, Prod.mk.injEq] at h
    rw [← h.1]
    exact wf_coreInvariants hw
  | some nid =>
    obtain ⟨lvl, hlvl⟩ := hw.acyclic
    cases hnd : t.find? nid with
    | none => simp [Tree.remove_node, hnd] at h
    | some nd =>
      have hnk : nid ∈ t.keys := mem_keys_of_find? hnd
      have hkl : t.keys.length = t.nodes.length := List.length_map _ _
      obtain ⟨L, hL, hLnd, hLiff⟩ := expand_tree_complete hw hnd nodeLt false
        (show t.keys.length ≤ t.nodes.length + 1 by omega)
      have hgone : ∀ x ∈ L,
          findPairs (L.foldl (fun m i => delPairs m i) t.nodes) x = none := by
        intro x hx
        cases hfe : findPairs (L.foldl (fun m i => delPairs m i) t.nodes) x with
        | none => rfl
        | some n =>
          exact absurd (mem_keys_of_findPairs hfe)
            (not_mem_keys_foldl_del hw.keysNodup hx)
      have hkeep : ∀ x, x ∉ L →
          findPairs (L.foldl (fun m i => delPairs m i) t.nodes) x = t.find? x :=
        fun x hx => findPairs_foldl_del_not_mem L t.nodes x hx
      cases hpar : nd.parent with
      | none =>
        have hroot : t.root = some nid :=
          hw.parentNoneRoot (nid, nd) (findPairs_mem hnd) hpar
        have hLall : ∀ x, x ∈ L ↔ x ∈ t.keys := by
          intro x
          rw [hLiff x]
          exact ⟨fun h => h.1, fun h => ⟨h, root_reaches hw hroot x h⟩⟩
        have hempty : (L.foldl (fun m i => delPairs m i) t.nodes) = [] := by
          cases he : L.foldl (fun m i => delPairs m i) t.nodes with
          | nil => rfl
          | cons p rest =>
            exfalso
            have hp : p.1 ∈ ((L.foldl (fun m i => delPairs m i) t.nodes).map
                Prod.fst) := by
              rw [he]
              simp
            have hpk : p.1 ∈ t.keys := mem_keys_foldl_del hp
            exact not_mem_keys_foldl_del hw.keysNodup ((hLall p.1).mpr hpk) hp
        simp only [Tree.remove_node, hnd, hL, hpar, Except.ok.injEq,
          Prod.mk.injEq] at h
        obtain ⟨ht', _⟩ := h
        subst ht'
        refine coreInvariants_build _ ?_ ?_ ?_ ?_
        · show ((L.foldl (fun m i => delPairs m i) t.nodes).map Prod.fst).Nodup
          rw [hempty]
          exact List.nodup_nil
        · intro x n hf _
          exfalso
          have hf' : findPairs (L.foldl (fun m i => delPairs m i) t.nodes) x =
              some n := hf
          rw [hempty] at hf'
          cases hf'
        · intro hne
          exact absurd hempty hne
        · refine ⟨fun _ => 0, ?_⟩
          intro x n q hf _
          exfalso
          have hf' : findPairs (L.foldl (fun m i => delPairs m i) t.nodes) x =
              some n := hf
          rw [hempty] at hf'
          cases hf'
      | some par =>
        have hparL : par ∉ L := by
          intro hin
          have hreach := ((hLiff par).mp hin).2
          have hge : lvl nid ≤ lvl par := downReach_lvl hw hlvl hreach
          have hstep : lvl nid = lvl par + 1 :=
            hlvl (nid, nd) (findPairs_mem hnd) par hpar
          omega
        have hpark : par ∈ t.keys :=
          hw.parentPresent (nid, nd) (findPairs_mem hnd) par hpar
        obtain ⟨pn, hpn⟩ := find?_of_mem_keys hpark
        have ht1par : Tree.find?
            { t with nodes := L.foldl (fun m i => delPairs m i) t.nodes } par =
            some pn := by
          show findPairs (L.foldl (fun m i => delPairs m i) t.nodes) par = some pn
          rw [hkeep par hparL]
          exact hpn
        simp only [Tree.remove_node, hnd, hL, hpar, ht1par, Except.ok.injEq,
          Prod.mk.injEq] at h
        obtain ⟨ht', _⟩ := h
        subst ht'
        have hfind : ∀ x,
            (({ t with nodes := L.foldl (fun m i => delPairs m i) t.nodes } :
              Tree).mod par (fun n => n.remove_child nid)).find? x =
            if x = par then some (pn.remove_child nid)
            else if x ∈ L then none else t.find? x := by
          intro x
          rw [find?_mod]
          by_cases hxp : x = par
          · rw [if_pos hxp, if_pos hxp, ht1par]
            rfl
          · rw [if_neg hxp, if_neg hxp]
            by_cases hxL : x ∈ L
            · rw [if_pos hxL]
              exact hgone x hxL
            · rw [if_neg hxL]
              exact hkeep x hxL
        refine coreInvariants_build _ ?_ ?_ ?_ ?_
        · show ((modPairs (L.foldl (fun m i => delPairs m i) t.nodes) par
            _).map Prod.fst).Nodup
          rw [keys_modPairs]
          exact nodup_keys_foldl_del hw.keysNodup
        · intro x n hf hparn
          rw [hfind x] at hf
          show t.root = some x
          by_cases hxp : x = par
          · rw [if_pos hxp] at hf
            injection hf with hf
            rw [← hf] at hparn
            have hpp : pn.parent = none := hparn
            rw [hxp]
            exact hw.parentNoneRoot (par, pn) (findPairs_mem hpn) hpp
          · rw [if_neg hxp] at hf
            by_cases hxL : x ∈ L
            · rw [if_pos hxL] at hf
              cases hf
            · rw [if_neg hxL] at hf
              exact hw.parentNoneRoot (x, n) (findPairs_mem hf) hparn
        · intro _
          have hne : t.nodes ≠ [] := by
            intro he
            rw [Tree.keys, he] at hnk
            simp at hnk
          obtain ⟨p, hpmem, hppar, hproot⟩ := wf_rootExists hw hne
          have hfp : t.find? p.1 = some p.2 := find?_of_mem hw.keysNodup hpmem
          have hp1L : p.1 ∉ L := by
            intro hin
            have hreach := ((hLiff p.1).mp hin).2
            have heq : p.1 = nid := downReach_parentless hw hfp hppar hreach
            rw [heq] at hfp
            rw [hnd] at hfp
            injection hfp with hfp
            rw [hfp] at hpar
            rw [hppar] at hpar
            cases hpar
          by_cases hp1p : p.1 = par
          · refine ⟨p.1, pn.remove_child nid, ?_, ?_, ?_⟩
            · rw [hfind, if_pos hp1p]
            · show pn.parent = none
              rw [hp1p] at hfp
              rw [hpn] at hfp
              injection hfp with hfp
              rw [hfp]
              exact hppar
            · exact hproot
          · refine ⟨p.1, p.2, ?_, hppar, hproot⟩
            rw [hfind, if_neg hp1p, if_neg hp1L]
            exact hfp
        · refine ⟨lvl, ?_⟩
          intro x n q hf hq
          rw [hfind x] at hf
          by_cases hxp : x = par
          · rw [if_pos hxp] at hf
            injection hf with hf
            rw [← hf] at hq
            have hq' : pn.parent = some q := hq
            rw [hxp]
            exact hlvl (par, pn) (findPairs_mem hpn) q hq'
          · rw [if_neg hxp] at hf
            by_cases hxL : x ∈ L
            · rw [if_pos hxL] at hf
              cases hf
            · rw [if_neg hxL] at hf
              exact hlvl (x, n) (findPairs_mem hf) q hq

/-- Every id yielded by the unfiltered DEPTH/WIDTH loop is reached
downward from `s` when every queued node is; only key/id coherence of the
tree is assumed, not full well-formedness. -/
theorem loopDW_reach {T : Tree} (hid : ∀ x n, T.find? x = some n → n.id = x)
    (dep : Bool) (lt : Node → Node → Bool) (rev : Bool) (s : Nat) :
    ∀ fuel Q, (∀ q ∈ Q, DownReach T s q.id ∧ T.find? q.id = some q) →
      ∀ x ∈ loopDW T dep none lt rev fuel Q, DownReach T s x := by
  intro fuel
  induction fuel with
  | zero => intro Q _ x hx; simp [loopDW] at hx
  | succ f ih =>
    intro Q hQ x hx
    cases Q with
    | nil => simp [loopDW] at hx
    | cons q rest =>
      simp only [loopDW, applyFilter, List.mem_cons] at hx
      have hexp : ∀ c ∈ pySorted lt rev (childNodes T q),
          DownReach T s c.id ∧ T.find? c.id = some c := by
        intro c hc
        obtain ⟨cid, hcid, hfc⟩ :=
          childNodes_mem ((mem_pySorted _ _ _ _).mp hc)
        have hcidc : c.id = cid := hid cid c hfc
        constructor
        · rw [hcidc]
          exact DownReach.step q.id cid q (hQ q (List.mem_cons_self _ _)).1
            (hQ q (List.mem_cons_self _ _)).2 hcid
        · rw [hcidc]
          exact hfc
      rcases hx with hx | hx
      · rw [hx]
        exact (hQ q (List.mem_cons_self _ _)).1
      · refine ih _ ?_ x hx
        intro c hc
        by_cases hd : dep <;> simp only [hd, if_true, Bool.false_eq_true,
          if_false] at hc
        · rcases List.mem_append.mp hc with hc1 | hc1
          · exact hexp c hc1
          · exact hQ c (List.mem_cons_of_mem _ hc1)
        · rcases List.mem_append.mp hc with hc1 | hc1
          · exact hQ c (List.mem_cons_of_mem _ hc1)
          · exact hexp c hc1

/-- Every id yielded by an unfiltered depth `expand_tree` lies in the
start's subtree; only key/id coherence is assumed. -/
theorem expand_tree_reach {T : Tree}
    (hid : ∀ x n, T.find? x = some n → n.id = x) {s : Nat}
    {lt : Node → Node → Bool} {rev : Bool} {fuel : Nat} {L : List Nat}
    (h : T.expand_tree (some s) .depth none lt rev fuel = .ok L) :
    ∀ x ∈ L, DownReach T s x := by
  intro x hx
  cases hf : T.find? s with
  | none => simp [Tree.expand_tree, hf] at h
  | some nd =>
    simp only [Tree.expand_tree, hf] at h
    injection h with h
    rw [← h] at hx
    rcases List.mem_cons.mp hx with hx1 | hx1
    · rw [hx1]
      exact DownReach.refl
    · refine loopDW_reach hid true lt rev s fuel _ ?_ x hx1
      intro q hq
      obtain ⟨cid, hcid, hfc⟩ :=
        childNodes_mem ((mem_pySorted _ _ _ _).mp hq)
      have hq1 : q.id = cid := hid cid q hfc
      constructor
      · rw [hq1]
        exact DownReach.step s cid nd DownReach.refl hf hcid
      · rw [hq1]
        exact hfc

/-- Clearing one node's parent link does not change downward
reachability. -/
theorem downReach_of_mod_parent {t : Tree} {nid : Nat} {nd : Node}
    (hnd : t.find? nid = some nd) {a x : Nat}
    (h : DownReach (t.mod nid (fun n => { n with parent := none })) a x) :
    DownReach t a x := by
  induction h with
  | refl => exact DownReach.refl
  | step b c nb hab hfb hcb ih =>
    rw [find?_mod] at hfb
    by_cases hb : b = nid
    · rw [if_pos hb, hnd, Option.map_some'] at hfb
      injection hfb with hfb
      have hcb' : c ∈ nd.children := by
        rw [← hfb] at hcb
        exact hcb
      exact DownReach.step b c nd ih (by rw [hb]; exact hnd) hcb'
    · rw [if_neg hb] at hfb
      exact DownReach.step b c nb ih hfb hcb

/-- Successful `remove_subtree` leaves the remaining tree with the core
invariants intact. -/
theorem remove_subtree_core {t : Tree} (hw : WF t) {node_id : Option Nat}
    {t' sub : Tree} (h : t.remove_subtree node_id = .ok (t', sub)) :
    CoreInvariants t' := by
  cases node_id with
  | none =>
    simp only [Tree.remove_subtree, Except.ok.injEq, Prod.mk.injEq] at h
    rw [← h.1]
    exact wf_coreInvariants hw
  | some nid =>
    obtain ⟨lvl, hlvl⟩ := hw.acyclic
    cases hnd : t.find? nid with
    | none => simp [Tree.remove_subtree, hnd] at h
    | some nd =>
      simp only [Tree.remove_subtree, hnd] at h
      cases hE : (t.mod nid (fun n => { n with parent := none })).expand_tree
          (some nid) .depth none nodeLt false
          (t.mod nid (fun n => { n with parent := none })).nodes.length with
      | error e => rw [hE] at h; cases h
      | ok removed =>
        simp only [hE] at h
        cases hpar : nd.parent with
        | none => simp [hpar] at h
        | some par =>
          simp only [hpar] at h
          have hnk : nid ∈ t.keys := mem_keys_of_find? hnd
          have hparnid : par ≠ nid := by
            intro he
            have hstep : lvl nid = lvl par + 1 :=
              hlvl (nid, nd) (findPairs_mem hnd) par hpar
            rw [he] at hstep
            omega
          have hfind1 : ∀ x,
              (t.mod nid (fun n => { n with parent := none })).find? x =
              if x = nid then some { nd with parent := none }
              else t.find? x := by
            intro x
            rw [find?_mod]
            by_cases hx : x = nid
            · rw [if_pos hx, if_pos hx, hnd]
              rfl
            · rw [if_neg hx, if_neg hx]
          have hid1 : ∀ x n,
              (t.mod nid (fun n => { n with parent := none })).find? x =
                some n → n.id = x := by
            intro x n hf
            rw [hfind1 x] at hf
            by_cases hx : x = nid
            · rw [if_pos hx] at hf
              injection hf with hf
              rw [← hf]
              rw [hx]
              exact hw.idCoh (nid, nd) (findPairs_mem hnd)
            · rw [if_neg hx] at hf
              exact hw.idCoh (x, n) (findPairs_mem hf)
          have hreachT : ∀ x ∈ removed, DownReach t nid x := fun x hx =>
            downReach_of_mod_parent hnd (expand_tree_reach hid1 hE x hx)
          have hnidrem : nid ∈ removed := by
            have ht1nid : (t.mod nid
                (fun n => { n with parent := none })).find? nid =
                some { nd with parent := none } := by
              rw [hfind1, if_pos rfl]
            simp only [Tree.expand_tree, ht1nid] at hE
            injection hE with hE
            rw [← hE]
            exact List.mem_cons_self _ _
          have ht1nd : ((t.mod nid (fun n => { n with parent := none })).nodes.map
              Prod.fst).Nodup := by
            show ((modPairs t.nodes nid _).map Prod.fst).Nodup
            rw [keys_modPairs]
            exact hw.keysNodup
          have hgone : ∀ x ∈ removed, findPairs
              (removed.foldl (fun m i => delPairs m i)
                (t.mod nid (fun n => { n with parent := none })).nodes) x =
              none := by
            intro x hx
            cases hfe : findPairs (removed.foldl (fun m i => delPairs m i)
                (t.mod nid (fun n => { n with parent := none })).nodes) x with
            | none => rfl
            | some n =>
              exact absurd (mem_keys_of_findPairs hfe)
                (not_mem_keys_foldl_del ht1nd hx)
          have hkeep : ∀ x, x ∉ removed → findPairs
              (removed.foldl (fun m i => delPairs m i)
                (t.mod nid (fun n => { n with parent := none })).nodes) x =
              (t.mod nid (fun n => { n with parent := none })).find? x :=
            fun x hx => findPairs_foldl_del_not_mem removed _ x hx
          have hparrem : par ∉ removed := by
            intro hin
            have hge : lvl nid ≤ lvl par :=
              downReach_lvl hw hlvl (hreachT par hin)
            have hstep : lvl nid = lvl par + 1 :=
              hlvl (nid, nd) (findPairs_mem hnd) par hpar
            omega
          have hpark : par ∈ t.keys :=
            hw.parentPresent (nid, nd) (findPairs_mem hnd) par hpar
          obtain ⟨mp, hmpT⟩ := find?_of_mem_keys hpark
          have hFB : (prunedTree t nid removed).find? par = some mp := by
            show findPairs (removed.foldl (fun m i => delPairs m i)
              (t.mod nid (fun n => { n with parent := none })).nodes) par = _
            rw [hkeep par hparrem, hfind1 par, if_neg hparnid]
            exact hmpT
          split at h
          · next heq =>
            have heq' : (prunedTree t nid removed).find? par = none := heq
            rw [hFB] at heq'
            cases heq'
          · next mpv heq =>
            simp only [Except.ok.injEq, Prod.mk.injEq] at h
            obtain ⟨ht', _⟩ := h
            subst ht'
            show CoreInvariants ((prunedTree t nid removed).mod
              par (fun n => n.remove_child nid))
            have hfind : ∀ x,
                ((prunedTree t nid removed).mod
                  par (fun n => n.remove_child nid)).find? x =
                if x = par then some (mp.remove_child nid)
                else if x ∈ removed then none else t.find? x := by
              intro x
              rw [find?_mod]
              by_cases hxp : x = par
              · rw [if_pos hxp, if_pos hxp, hFB]
                rfl
              · rw [if_neg hxp, if_neg hxp]
                by_cases hxr : x ∈ removed
                · rw [if_pos hxr]
                  exact hgone x hxr
                · rw [if_neg hxr]
                  have hxnid : x ≠ nid := fun he => hxr (he ▸ hnidrem)
                  show findPairs (removed.foldl (fun m i => delPairs m i)
                    (t.mod nid (fun n => { n with parent := none })).nodes) x = _
                  rw [hkeep x hxr, hfind1 x, if_neg hxnid]
            refine coreInvariants_build _ ?_ ?_ ?_ ?_
            · show ((modPairs (removed.foldl (fun m i => delPairs m i)
                (t.mod nid (fun n => { n with parent := none })).nodes) par
                _).map Prod.fst).Nodup
              rw [keys_modPairs]
              exact nodup_keys_foldl_del ht1nd
            · intro x n hf hparn
              rw [hfind x] at hf
              show t.root = some x
              by_cases hxp : x = par
              · rw [if_pos hxp] at hf
                injection hf with hf
                rw [← hf] at hparn
                have hpp : mp.parent = none := hparn
                rw [hxp]
                exact hw.parentNoneRoot (par, mp) (findPairs_mem hmpT) hpp
              · rw [if_neg hxp] at hf
                by_cases hxr : x ∈ removed
                · rw [if_pos hxr] at hf
                  cases hf
                · rw [if_neg hxr] at hf
                  exact hw.parentNoneRoot (x, n) (findPairs_mem hf) hparn
            · intro _
              have hne : t.nodes ≠ [] := by
                intro he
                rw [Tree.keys, he] at hnk
                simp at hnk
              obtain ⟨p, hpmem, hppar, hproot⟩ := wf_rootExists hw hne
              have hfp : t.find? p.1 = some p.2 := find?_of_mem hw.keysNodup hpmem
              have hp1r : p.1 ∉ removed := by
                intro hin
                have heq : p.1 = nid :=
                  downReach_parentless hw hfp hppar (hreachT p.1 hin)
                rw [heq] at hfp
                rw [hnd] at hfp
                injection hfp with hfp
                rw [hfp] at hpar
                rw [hppar] at hpar
                cases hpar
              by_cases hp1p : p.1 = par
              · refine ⟨p.1, mp.remove_child nid, ?_, ?_, ?_⟩
                · rw [hfind, if_pos hp1p]
                · show mp.parent = none
                  rw [hp1p] at hfp
                  rw [hmpT] at hfp
                  injection hfp with hfp
                  rw [hfp]
                  exact hppar
                · exact hproot
              · refine ⟨p.1, p.2, ?_, hppar, hproot⟩
                rw [hfind, if_neg hp1p, if_neg hp1r]
                exact hfp
            · refine ⟨lvl, ?_⟩
              intro x n q hf hq
              rw [hfind x] at hf
              by_cases hxp : x = par
              · rw [if_pos hxp] at hf
                injection hf with hf
                rw [← hf] at hq
                have hq' : mp.parent = some q := hq
                rw [hxp]
                exact hlvl (par, mp) (findPairs_mem hmpT) q hq'
              · rw [if_neg hxp] at hf
                by_cases hxr : x ∈ removed
                · rw [if_pos hxr] at hf
                  cases hf
                · rw [if_neg hxr] at hf
                  exact hlvl (x, n) (findPairs_mem hf) q hq

/-- The root is unchanged by a fold of in-place mutations. -/
theorem root_foldl_mod (f : Node → Node) :
    ∀ (l : List Nat) (t : Tree),
      (l.foldl (fun tr c => tr.mod c f) t).root = t.root := by
  intro l
  induction l with
  | nil => intro t; rfl
  | cons i l ih => intro t; exact ih (t.mod i f)

/-- Successful `link_past_node` preserves the core invariants. -/
theorem link_past_node_core {t : Tree} (hw : WF t) {node_id : Nat}
    {t' : Tree} (h : t.link_past_node node_id = .ok t') :
    CoreInvariants t' := by
  classical
  obtain ⟨lvl, hlvl⟩ := hw.acyclic
  by_cases hr : t.root = some node_id
  · simp [Tree.link_past_node, hr] at h
  · simp only [Tree.link_past_node] at h
    rw [if_neg hr] at h
    cases hnd : t.find? node_id with
    | none => rw [hnd] at h; cases h
    | some nd =>
      rw [hnd] at h
      cases hpar : nd.parent with
      | none => simp [hpar] at h
      | some pid =>
        simp only [hpar] at h
        cases hpn : t.find? pid with
        | none => simp [hpn] at h
        | some pn =>
          simp only [hpn] at h
          injection h with h
          subst h
          have hstep : lvl node_id = lvl pid + 1 :=
            hlvl (node_id, nd) (findPairs_mem hnd) pid hpar
          have hpidnid : pid ≠ node_id := by
            intro he
            rw [he] at hstep
            omega
          have hpidch : pid ∉ nd.children := by
            intro hin
            have := child_lvl hw hlvl hnd hin
            omega
          have hnidch : node_id ∉ nd.children := by
            intro hin
            have := child_lvl hw hlvl hnd hin
            omega
          have hfidem : ∀ n : Node,
              (fun n => { n with parent := some pid })
                ((fun n => { n with parent := some pid }) n) =
              (fun n => { n with parent := some pid }) n := fun n => rfl
          have hT1 : ∀ x, (nd.children.foldl
              (fun tr c => tr.mod c (fun n => { n with parent := some pid }))
              t).find? x =
              if x ∈ nd.children
              then (t.find? x).map (fun n => { n with parent := some pid })
              else t.find? x :=
            find?_foldl_mod _ hfidem nd.children t
          have hT1k : (nd.children.foldl
              (fun tr c => tr.mod c (fun n => { n with parent := some pid }))
              t).keys = t.keys :=
            keys_foldl_mod _ nd.children t
          have hT3k : ((((nd.children.foldl
              (fun tr c => tr.mod c (fun n => { n with parent := some pid }))
              t).mod pid (fun n => { n with children := n.children ++ nd.children })).mod
              pid (fun n => n.remove_child node_id)).keys) = t.keys := by
            rw [keys_mod, keys_mod]
            exact hT1k
          have hT3nd : ((((nd.children.foldl
              (fun tr c => tr.mod c (fun n => { n with parent := some pid }))
              t).mod pid (fun n => { n with children := n.children ++ nd.children })).mod
              pid (fun n => n.remove_child node_id)).keys).Nodup := by
            rw [hT3k]
            exact hw.keysNodup
          have hT1pid : (nd.children.foldl
              (fun tr c => tr.mod c (fun n => { n with parent := some pid }))
              t).find? pid = some pn := by
            rw [hT1, if_neg hpidch]
            exact hpn
          have hfind : ∀ x, ((((nd.children.foldl
              (fun tr c => tr.mod c (fun n => { n with parent := some pid }))
              t).mod pid (fun n => { n with children := n.children ++ nd.children })).mod
              pid (fun n => n.remove_child node_id)).del node_id).find? x =
              if x = node_id then none
              else if x = pid then some
                ({ pn with children := pn.children ++ nd.children }.remove_child
                  node_id)
              else if x ∈ nd.children
              then (t.find? x).map (fun n => { n with parent := some pid })
              else t.find? x := by
            intro x
            by_cases hxn : x = node_id
            · rw [if_pos hxn, hxn]
              exact find?_del_self _ node_id hT3nd
            · rw [if_neg hxn]
              rw [find?_del_ne _ node_id x hxn]
              by_cases hxp : x = pid
              · rw [if_pos hxp, hxp]
                rw [find?_mod, if_pos rfl, find?_mod, if_pos rfl, hT1pid]
                rfl
              · rw [if_neg hxp]
                rw [find?_mod, if_neg hxp, find?_mod, if_neg hxp]
                exact hT1 x
          have hroot' : ((((nd.children.foldl
              (fun tr c => tr.mod c (fun n => { n with parent := some pid }))
              t).mod pid (fun n => { n with children := n.children ++ nd.children })).mod
              pid (fun n => n.remove_child node_id)).del node_id).root = t.root :=
            root_foldl_mod _ nd.children t
          refine coreInvariants_build _ ?_ ?_ ?_ ?_
          · show ((delPairs _ node_id).map Prod.fst).Nodup
            exact nodup_keys_delPairs hT3nd
          · intro x n hf hparn
            rw [hfind x] at hf
            rw [hroot']
            by_cases hxn : x = node_id
            · rw [if_pos hxn] at hf
              cases hf
            · rw [if_neg hxn] at hf
              by_cases hxp : x = pid
              · rw [if_pos hxp] at hf
                injection hf with hf
                rw [← hf] at hparn
                have hpp : pn.parent = none := hparn
                rw [hxp]
                exact hw.parentNoneRoot (pid, pn) (findPairs_mem hpn) hpp
              · rw [if_neg hxp] at hf
                by_cases hxc : x ∈ nd.children
                · rw [if_pos hxc] at hf
                  cases hfx : t.find? x with
                  | none => rw [hfx] at hf; cases hf
                  | some nc =>
                    rw [hfx, Option.map_some'] at hf
                    injection hf with hf
                    rw [← hf] at hparn
                    cases hparn
                · rw [if_neg hxc] at hf
                  exact hw.parentNoneRoot (x, n) (findPairs_mem hf) hparn
          · intro _
            have hne : t.nodes ≠ [] := by
              intro he
              have : t.find? node_id = none := by
                show findPairs t.nodes node_id = none
                rw [he]
                rfl
              rw [hnd] at this
              cases this
            obtain ⟨p, hpmem, hppar, hproot⟩ := wf_rootExists hw hne
            have hfp : t.find? p.1 = some p.2 := find?_of_mem hw.keysNodup hpmem
            have hp1n : p.1 ≠ node_id := by
              intro he
              rw [he] at hproot
              exact hr hproot
            have hp1c : p.1 ∉ nd.children := by
              intro hin
              have := hw.parentChild (node_id, nd) (findPairs_mem hnd) p.1 hin
                p.2 hfp
              rw [hppar] at this
              cases this
            by_cases hp1p : p.1 = pid
            · refine ⟨p.1,
                { pn with children := pn.children ++ nd.children }.remove_child
                  node_id, ?_, ?_, ?_⟩
              · rw [hfind, if_neg hp1n, if_pos hp1p]
              · show pn.parent = none
                rw [hp1p] at hfp
                rw [hpn] at hfp
                injection hfp with hfp
                rw [hfp]
                exact hppar
              · rw [hroot']
                exact hproot
            · refine ⟨p.1, p.2, ?_, hppar, by rw [hroot']; exact hproot⟩
              rw [hfind, if_neg hp1n, if_neg hp1p, if_neg hp1c]
              exact hfp
          · refine ⟨fun x => if DownReach t node_id x ∧ x ≠ node_id
              then lvl x - 1 else lvl x, ?_⟩
            intro x n q hf hq
            change (if DownReach t node_id x ∧ x ≠ node_id
              then lvl x - 1 else lvl x) =
              (if DownReach t node_id q ∧ q ≠ node_id
              then lvl q - 1 else lvl q) + 1
            rw [hfind x] at hf
            have hpidD : ¬(DownReach t node_id pid ∧ pid ≠ node_id) := by
              intro hD
              have := downReach_lvl hw hlvl hD.1
              omega
            by_cases hxn : x = node_id
            · rw [if_pos hxn] at hf
              cases hf
            · rw [if_neg hxn] at hf
              by_cases hxp : x = pid
              · rw [if_pos hxp] at hf
                injection hf with hf
                rw [← hf] at hq
                have hq' : pn.parent = some q := hq
                have hql : lvl pid = lvl q + 1 :=
                  hlvl (pid, pn) (findPairs_mem hpn) q hq'
                have hqD : ¬(DownReach t node_id q ∧ q ≠ node_id) := by
                  intro hD
                  have := downReach_lvl hw hlvl hD.1
                  omega
                rw [hxp, if_neg hpidD, if_neg hqD]
                exact hql
              · rw [if_neg hxp] at hf
                by_cases hxc : x ∈ nd.children
                · rw [if_pos hxc] at hf
                  cases hfx : t.find? x with
                  | none => rw [hfx] at hf; cases hf
                  | some nc =>
                    rw [hfx, Option.map_some'] at hf
                    injection hf with hf
                    rw [← hf] at hq
                    have hq' : q = pid := by
                      injection hq with hq
                      exact hq.symm
                    have hxD : DownReach t node_id x ∧ x ≠ node_id :=
                      ⟨DownReach.step node_id x nd DownReach.refl hnd hxc, hxn⟩
                    have hxl : lvl x = lvl node_id + 1 :=
                      child_lvl hw hlvl hnd hxc
                    rw [hq', if_pos hxD, if_neg hpidD]
                    omega
                · rw [if_neg hxc] at hf
                  have hql : lvl x = lvl q + 1 :=
                    hlvl (x, n) (findPairs_mem hf) q hq
                  have hqn : q ≠ node_id := by
                    intro he
                    rw [he] at hq
                    exact hxc (hw.childParent (x, n) (findPairs_mem hf)
                      node_id nd hq hnd)
                  by_cases hxD : DownReach t node_id x ∧ x ≠ node_id
                  · have hqD : DownReach t node_id q ∧ q ≠ node_id := by
                      refine ⟨?_, hqn⟩
                      obtain ⟨b, nb, hab, hfb, hcb⟩ :=
                        downReach_inversion hxD.1 hxD.2
                      have hbq : b = q := by
                        have := hw.parentChild (b, nb) (findPairs_mem hfb) x
                          hcb n hf
                        rw [hq] at this
                        injection this with this
                        exact this.symm
                      rw [← hbq]
                      exact hab
                    rw [if_pos hxD, if_pos hqD]
                    omega
                  · have hqD : ¬(DownReach t node_id q ∧ q ≠ node_id) := by
                      intro hD
                      obtain ⟨nq, hnq⟩ := find?_of_mem_keys
                        (hw.parentPresent (x, n) (findPairs_mem hf) q hq)
                      have hxch : x ∈ nq.children :=
                        hw.childParent (x, n) (findPairs_mem hf) q nq hq hnq
                      exact hxD ⟨DownReach.step q x nq hD.1 hnq hxch, hxn⟩
                    rw [if_neg hxD, if_neg hqD]
                    omega

/-- Successful `move_node` between two distinct ids preserves the core
invariants.  (Distinctness matters: the guard does not reject
`source = destination`, and that degenerate call creates a self-loop.) -/
theorem move_node_core {t : Tree} (hw : WF t) {src dst : Nat}
    (hne : src ≠ dst) {t' : Tree} (h : t.move_node src dst = .ok t') :
    CoreInvariants t' := by
  classical
  obtain ⟨lvl, hlvl⟩ := hw.acyclic
  simp only [Tree.move_node] at h
  by_cases hmem : t.mem src ∧ t.mem dst
  · rw [if_neg (not_not_intro hmem)] at h
    cases hanc : t.is_ancestor src dst t.nodes.length with
    | error e => rw [hanc] at h; cases h
    | ok b =>
      cases b with
      | true => simp [hanc] at h
      | false =>
        simp only [hanc] at h
        cases hsn : t.find? src with
        | none => rw [hsn] at h; cases h
        | some sn =>
          simp only [hsn] at h
          cases hspar : sn.parent with
          | none => simp [hspar] at h
          | some par =>
            simp only [hspar] at h
            cases hpn : t.find? par with
            | none => rw [hpn] at h; cases h
            | some pnode =>
              simp only [hpn] at h
              injection h with h
              subst h
              have hstep : lvl src = lvl par + 1 :=
                hlvl (src, sn) (findPairs_mem hsn) par hspar
              have hsrcpar : src ≠ par := by
                intro he
                rw [he] at hstep
                omega
              obtain ⟨dn, hdn⟩ := Option.isSome_iff_exists.mp hmem.2
              have hnd2 : ¬ DownReach t src dst := by
                intro hreach
                obtain ⟨n, hn1, hpi⟩ := downReach_parentIter hw hreach
                  (fun he => hne he.symm)
                have hbound := parentIter_length_bound hw hpi
                have hwalk := isAncestorAux_finds hw src n t.nodes.length
                  dst dn hn1 hbound hpi hdn
                have hanc2 : t.is_ancestor src dst t.nodes.length = .ok true := by
                  simp only [Tree.is_ancestor, hdn]
                  exact hwalk
                rw [hanc] at hanc2
                injection hanc2 with hanc2
                cases hanc2
              have hfind : ∀ x, (((t.mod par (fun n => n.remove_child src)).mod
                  dst (fun n => n.add_child src)).mod src
                  (fun n => { n with parent := some dst })).find? x =
                  if x = src then some { sn with parent := some dst }
                  else if x = dst then
                    (if dst = par then some (pnode.remove_child src)
                      else t.find? dst).map (fun n => n.add_child src)
                  else if x = par then some (pnode.remove_child src)
                  else t.find? x := by
                intro x
                rw [find?_mod]
                by_cases hxs : x = src
                · rw [if_pos hxs, if_pos hxs]
                  rw [find?_mod, if_neg hne, find?_mod, if_neg hsrcpar, hsn]
                  rfl
                · rw [if_neg hxs, if_neg hxs]
                  rw [find?_mod]
                  by_cases hxd : x = dst
                  · rw [if_pos hxd, if_pos hxd]
                    rw [find?_mod]
                    by_cases hdp : dst = par
                    · rw [if_pos hdp, if_pos hdp, hpn]
                      rfl
                    · rw [if_neg hdp, if_neg hdp]
                  · rw [if_neg hxd, if_neg hxd]
                    rw [find?_mod]
                    by_cases hxp : x = par
                    · rw [if_pos hxp, if_pos hxp, hpn]
                      rfl
                    · rw [if_neg hxp, if_neg hxp]
              refine coreInvariants_build _ ?_ ?_ ?_ ?_
              · show ((modPairs (modPairs (modPairs t.nodes par _) dst _)
                  src _).map Prod.fst).Nodup
                rw [keys_modPairs, keys_modPairs, keys_modPairs]
                exact hw.keysNodup
              · intro x n hf hparn
                rw [hfind x] at hf
                show t.root = some x
                by_cases hxs : x = src
                · rw [if_pos hxs] at hf
                  injection hf with hf
                  rw [← hf] at hparn
                  cases hparn
                · rw [if_neg hxs] at hf
                  by_cases hxd : x = dst
                  · rw [if_pos hxd] at hf
                    by_cases hdp : dst = par
                    · rw [if_pos hdp, Option.map_some'] at hf
                      injection hf with hf
                      rw [← hf] at hparn
                      have hpp : pnode.parent = none := hparn
                      rw [hxd, hdp]
                      exact hw.parentNoneRoot (par, pnode) (findPairs_mem hpn) hpp
                    · rw [if_neg hdp, hdn, Option.map_some'] at hf
                      injection hf with hf
                      rw [← hf] at hparn
                      have hpp : dn.parent = none := hparn
                      rw [hxd]
                      exact hw.parentNoneRoot (dst, dn) (findPairs_mem hdn) hpp
                  · rw [if_neg hxd] at hf
                    by_cases hxp : x = par
                    · rw [if_pos hxp] at hf
                      injection hf with hf
                      rw [← hf] at hparn
                      have hpp : pnode.parent = none := hparn
                      rw [hxp]
                      exact hw.parentNoneRoot (par, pnode) (findPairs_mem hpn) hpp
                    · rw [if_neg hxp] at hf
                      exact hw.parentNoneRoot (x, n) (findPairs_mem hf) hparn
              · intro _
                have hne2 : t.nodes ≠ [] := by
                  intro he
                  have : t.find? src = none := by
                    show findPairs t.nodes src = none
                    rw [he]
                    rfl
                  rw [hsn] at this
                  cases this
                obtain ⟨p, hpmem, hppar, hproot⟩ := wf_rootExists hw hne2
                have hfp : t.find? p.1 = some p.2 :=
                  find?_of_mem hw.keysNodup hpmem
                have hp1s : p.1 ≠ src := by
                  intro he
                  rw [he] at hfp
                  rw [hsn] at hfp
                  injection hfp with hfp
                  rw [← hfp] at hppar
                  rw [hspar] at hppar
                  cases hppar
                by_cases hp1d : p.1 = dst
                · by_cases hdp : dst = par
                  · refine ⟨p.1, (pnode.remove_child src).add_child src,
                      ?_, ?_, hproot⟩
                    · rw [hfind, if_neg hp1s, if_pos hp1d, if_pos hdp,
                        Option.map_some']
                    · show pnode.parent = none
                      rw [hp1d, hdp] at hfp
                      rw [hpn] at hfp
                      injection hfp with hfp
                      rw [hfp]
                      exact hppar
                  · refine ⟨p.1, p.2.add_child src, ?_, ?_, hproot⟩
                    · rw [hfind, if_neg hp1s, if_pos hp1d, if_neg hdp]
                      rw [hp1d] at hfp
                      rw [hfp, Option.map_some']
                    · show p.2.parent = none
                      exact hppar
                · by_cases hp1p : p.1 = par
                  · refine ⟨p.1, pnode.remove_child src, ?_, ?_, hproot⟩
                    · rw [hfind, if_neg hp1s, if_neg hp1d, if_pos hp1p]
                    · show pnode.parent = none
                      rw [hp1p] at hfp
                      rw [hpn] at hfp
                      injection hfp with hfp
                      rw [hfp]
                      exact hppar
                  · refine ⟨p.1, p.2, ?_, hppar, hproot⟩
                    rw [hfind, if_neg hp1s, if_neg hp1d, if_neg hp1p]
                    exact hfp
              · refine ⟨fun x => if DownReach t src x
                  then lvl x + (lvl dst + 1 - lvl src) else lvl x, ?_⟩
                have hDpar : ¬ DownReach t src par := by
                  intro hD
                  have := downReach_lvl hw hlvl hD
                  omega
                have hup : ∀ x nx q, t.find? x = some nx →
                    nx.parent = some q → DownReach t src x → x ≠ src →
                    DownReach t src q := by
                  intro x nx q hfx hqx hD hxs
                  obtain ⟨b, nb, hab, hfb, hcb⟩ := downReach_inversion hD hxs
                  have hbq : b = q := by
                    have := hw.parentChild (b, nb) (findPairs_mem hfb) x
                      hcb nx hfx
                    rw [hqx] at this
                    injection this with this
                    exact this.symm
                  rw [← hbq]
                  exact hab
                have hdown : ∀ x nx q, t.find? x = some nx →
                    nx.parent = some q → DownReach t src q →
                    DownReach t src x := by
                  intro x nx q hfx hqx hD
                  obtain ⟨nq, hnq⟩ := find?_of_mem_keys
                    (hw.parentPresent (x, nx) (findPairs_mem hfx) q hqx)
                  exact DownReach.step q x nq hD hnq
                    (hw.childParent (x, nx) (findPairs_mem hfx) q nq hqx hnq)
                intro x n q hf hq
                change (if DownReach t src x
                    then lvl x + (lvl dst + 1 - lvl src) else lvl x) =
                  (if DownReach t src q
                    then lvl q + (lvl dst + 1 - lvl src) else lvl q) + 1
                rw [hfind x] at hf
                by_cases hxs : x = src
                · rw [if_pos hxs] at hf
                  injection hf with hf
                  rw [← hf] at hq
                  have hqd : q = dst := by
                    injection hq with hq
                    exact hq.symm
                  rw [hxs, hqd, if_pos DownReach.refl, if_neg hnd2]
                  omega
                · rw [if_neg hxs] at hf
                  by_cases hxd : x = dst
                  · have hxD : ¬ DownReach t src x := by
                      rw [hxd]
                      exact hnd2
                    rw [if_pos hxd] at hf
                    have hqold : ∃ nx, t.find? x = some nx ∧
                        nx.parent = some q ∧ lvl x = lvl q + 1 := by
                      by_cases hdp : dst = par
                      · rw [if_pos hdp, Option.map_some'] at hf
                        injection hf with hf
                        rw [← hf] at hq
                        have hq' : pnode.parent = some q := hq
                        refine ⟨pnode, by rw [hxd, hdp]; exact hpn, hq', ?_⟩
                        rw [hxd, hdp]
                        exact hlvl (par, pnode) (findPairs_mem hpn) q hq'
                      · rw [if_neg hdp, hdn, Option.map_some'] at hf
                        injection hf with hf
                        rw [← hf] at hq
                        have hq' : dn.parent = some q := hq
                        refine ⟨dn, by rw [hxd]; exact hdn, hq', ?_⟩
                        rw [hxd]
                        exact hlvl (dst, dn) (findPairs_mem hdn) q hq'
                    obtain ⟨nx, hfx, hqx, hlx⟩ := hqold
                    have hqD : ¬ DownReach t src q := by
                      intro hD
                      exact hxD (hdown x nx q hfx hqx hD)
                    rw [if_neg hxD, if_neg hqD]
                    omega
                  · rw [if_neg hxd] at hf
                    by_cases hxp : x = par
                    · rw [if_pos hxp] at hf
                      injection hf with hf
                      rw [← hf] at hq
                      have hq' : pnode.parent = some q := hq
                      have hxD : ¬ DownReach t src x := by
                        rw [hxp]
                        exact hDpar
                      have hqD : ¬ DownReach t src q := by
                        intro hD
                        exact hxD (hdown x pnode q (by rw [hxp]; exact hpn)
                          hq' hD)
                      have hlx : lvl x = lvl q + 1 := by
                        rw [hxp]
                        exact hlvl (par, pnode) (findPairs_mem hpn) q hq'
                      rw [if_neg hxD, if_neg hqD]
                      omega
                    · rw [if_neg hxp] at hf
                      have hlx : lvl x = lvl q + 1 :=
                        hlvl (x, n) (findPairs_mem hf) q hq
                      by_cases hxD : DownReach t src x
                      · have hqD : DownReach t src q :=
                          hup x n q hf hq hxD hxs
                        rw [if_pos hxD, if_pos hqD]
                        omega
                      · have hqD : ¬ DownReach t src q := by
                          intro hD
                          exact hxD (hdown x n q hf hq hD)
                        rw [if_neg hxD, if_neg hqD]
                        omega
  · rw [if_pos hmem] at h
    cases h

/-- Successful `paste` of a well-formed incoming tree preserves the core
invariants. -/
theorem paste_core {t other : Tree} (hw : WF t) (hwo : WF other)
    {node_id : Option Nat} {t' : Tree}
    (h : t.paste node_id other = .ok t') : CoreInvariants t' := by
  obtain ⟨lvlT, hlvlT⟩ := hw.acyclic
  obtain ⟨lvlO, hlvlO⟩ := hwo.acyclic
  cases node_id with
  | none => simp [Tree.paste] at h
  | some nid =>
    cases htn : t.find? nid with
    | none => simp [Tree.paste, htn] at h
    | some tn =>
      cases hcol : other.keys.any (fun k => t.mem k) with
      | true => simp [Tree.paste, htn, hcol] at h
      | false =>
        simp only [Tree.paste, htn, hcol, Bool.false_eq_true, if_false] at h
        cases hro : other.root with
        | none => rw [hro] at h; cases h
        | some r =>
          simp only [hro] at h
          have hdisj : ∀ k ∈ other.keys, t.find? k = none := by
            intro k hk
            have hkf := List.any_eq_false.mp hcol k hk
            cases hfk : t.find? k with
            | none => rfl
            | some v =>
              rw [Tree.mem, hfk] at hkf
              simp at hkf
          have happ : (other.nodes.foldl (fun m p => setPairs m p.1 p.2)
              t.nodes) = t.nodes ++ other.nodes := by
            refine foldl_set_append other.nodes t.nodes ?_ hwo.keysNodup
            intro p hp
            exact findPairs_none_not_mem
              (hdisj p.1 (List.mem_map_of_mem Prod.fst hp))
          have hM0find : ∀ x, Tree.find? { t with
              nodes := other.nodes.foldl (fun m p => setPairs m p.1 p.2)
                t.nodes } x =
              (match t.find? x with
                | some v => some v
                | none => other.find? x) := by
            intro x
            show findPairs (other.nodes.foldl
              (fun m p => setPairs m p.1 p.2) t.nodes) x = _
            rw [happ]
            exact findPairs_append t.nodes other.nodes x
          have hnk : nid ∈ t.keys := mem_keys_of_find? htn
          have hrk : r ∈ other.keys := hwo.rootMem r hro
          obtain ⟨ro, hroF⟩ := find?_of_mem_keys hrk
          have hropar : ro.parent = none := hwo.rootNoParent r ro hro hroF
          have hrnott : t.find? r = none := hdisj r hrk
          have hrnid : r ≠ nid := by
            intro he
            rw [he, htn] at hrnott
            cases hrnott
          have hMR : (Tree.mod { t with
              nodes := other.nodes.foldl (fun m p => setPairs m p.1 p.2)
                t.nodes } nid (fun n => n.add_child r)).find? r = some ro := by
            rw [find?_mod, if_neg hrnid, hM0find r, hrnott]
            exact hroF
          rw [hMR] at h
          injection h with h
          subst h
          have hfind : ∀ x, ((Tree.mod { t with
              nodes := other.nodes.foldl (fun m p => setPairs m p.1 p.2)
                t.nodes } nid (fun n => n.add_child r)).mod r
              (fun n => { n with parent := some nid })).find? x =
              if x = r then some { ro with parent := some nid }
              else if x = nid then some (tn.add_child r)
              else (match t.find? x with
                | some v => some v
                | none => other.find? x) := by
            intro x
            rw [find?_mod]
            by_cases hxr : x = r
            · rw [if_pos hxr, if_pos hxr, hMR]
              rfl
            · rw [if_neg hxr, if_neg hxr]
              rw [find?_mod]
              by_cases hxn : x = nid
              · rw [if_pos hxn, if_pos hxn, hM0find nid, htn]
                rfl
              · rw [if_neg hxn, if_neg hxn]
                exact hM0find x
          have hkeys : ((Tree.mod { t with
              nodes := other.nodes.foldl (fun m p => setPairs m p.1 p.2)
                t.nodes } nid (fun n => n.add_child r)).mod r
              (fun n => { n with parent := some nid })).keys =
              t.keys ++ other.keys := by
            rw [keys_mod, keys_mod]
            show (other.nodes.foldl (fun m p => setPairs m p.1 p.2)
              t.nodes).map Prod.fst = _
            rw [happ]
            simp [Tree.keys]
          refine coreInvariants_build _ ?_ ?_ ?_ ?_
          · rw [hkeys]
            rw [List.nodup_append]
            refine ⟨hw.keysNodup, hwo.keysNodup, ?_⟩
            intro a ha hb
            have := hdisj a hb
            exact findPairs_none_not_mem this ha
          · intro x n hf hparn
            rw [hfind x] at hf
            show t.root = some x
            by_cases hxr : x = r
            · rw [if_pos hxr] at hf
              injection hf with hf
              rw [← hf] at hparn
              cases hparn
            · rw [if_neg hxr] at hf
              by_cases hxn : x = nid
              · rw [if_pos hxn] at hf
                injection hf with hf
                rw [← hf] at hparn
                have hpp : tn.parent = none := hparn
                rw [hxn]
                exact hw.parentNoneRoot (nid, tn) (findPairs_mem htn) hpp
              · rw [if_neg hxn] at hf
                cases hfx : t.find? x with
                | some v =>
                  rw [hfx] at hf
                  injection hf with hf
                  rw [← hf] at hparn
                  exact hw.parentNoneRoot (x, v) (findPairs_mem hfx) hparn
                | none =>
                  rw [hfx] at hf
                  have := hwo.parentNoneRoot (x, n) (findPairs_mem hf) hparn
                  rw [hro] at this
                  injection this with this
                  exact absurd this.symm hxr
          · intro _
            have hne2 : t.nodes ≠ [] := by
              intro he
              have : t.find? nid = none := by
                show findPairs t.nodes nid = none
                rw [he]
                rfl
              rw [htn] at this
              cases this
            obtain ⟨p, hpmem, hppar, hproot⟩ := wf_rootExists hw hne2
            have hfp : t.find? p.1 = some p.2 :=
              find?_of_mem hw.keysNodup hpmem
            have hp1k : p.1 ∈ t.keys := mem_keys_of_find? hfp
            have hp1r : p.1 ≠ r := by
              intro he
              rw [he, hrnott] at hfp
              cases hfp
            by_cases hp1n : p.1 = nid
            · refine ⟨p.1, tn.add_child r, ?_, ?_, hproot⟩
              · rw [hfind, if_neg hp1r, if_pos hp1n]
              · show tn.parent = none
                rw [hp1n] at hfp
                rw [htn] at hfp
                injection hfp with hfp
                rw [hfp]
                exact hppar
            · refine ⟨p.1, p.2, ?_, hppar, hproot⟩
              rw [hfind, if_neg hp1r, if_neg hp1n, hfp]
          · refine ⟨fun x => if x ∈ t.keys then lvlT x
              else lvlO x + (lvlT nid + 1 - lvlO r), ?_⟩
            intro x n q hf hq
            change (if x ∈ t.keys then lvlT x
                else lvlO x + (lvlT nid + 1 - lvlO r)) =
              (if q ∈ t.keys then lvlT q
                else lvlO q + (lvlT nid + 1 - lvlO r)) + 1
            rw [hfind x] at hf
            by_cases hxr : x = r
            · rw [if_pos hxr] at hf
              injection hf with hf
              rw [← hf] at hq
              have hqn : q = nid := by
                injection hq with hq
                exact hq.symm
              have hxnot : x ∉ t.keys := by
                rw [hxr]
                exact findPairs_none_not_mem hrnott
              rw [if_neg hxnot, hqn, if_pos hnk, hxr]
              omega
            · rw [if_neg hxr] at hf
              by_cases hxn : x = nid
              · rw [if_pos hxn] at hf
                injection hf with hf
                rw [← hf] at hq
                have hq' : tn.parent = some q := hq
                have hqk : q ∈ t.keys :=
                  hw.parentPresent (nid, tn) (findPairs_mem htn) q hq'
                have hql : lvlT nid = lvlT q + 1 :=
                  hlvlT (nid, tn) (findPairs_mem htn) q hq'
                rw [if_pos (hxn ▸ hnk), if_pos hqk, hxn]
                exact hql
              · rw [if_neg hxn] at hf
                cases hfx : t.find? x with
                | some v =>
                  rw [hfx] at hf
                  injection hf with hf
                  rw [← hf] at hq
                  have hxk : x ∈ t.keys := mem_keys_of_find? hfx
                  have hqk : q ∈ t.keys :=
                    hw.parentPresent (x, v) (findPairs_mem hfx) q hq
                  rw [if_pos hxk, if_pos hqk]
                  exact hlvlT (x, v) (findPairs_mem hfx) q hq
                | none =>
                  rw [hfx] at hf
                  have hxo : x ∈ other.keys := mem_keys_of_find? hf
                  have hxk : x ∉ t.keys := findPairs_none_not_mem hfx
                  have hqo : q ∈ other.keys :=
                    hwo.parentPresent (x, n) (findPairs_mem hf) q hq
                  have hqk : q ∉ t.keys :=
                    findPairs_none_not_mem (hdisj q hqo)
                  have hql : lvlO x = lvlO q + 1 :=
                    hlvlO (x, n) (findPairs_mem hf) q hq
                  rw [if_neg hxk, if_neg hqk]
                  omega

/-- Successful `create_node` preserves the core invariants. -/
theorem create_node_core {t : Tree} (hw : WF t) {tag : String} {id : Nat}
    {parent : Option Nat} {expanded : Bool} {data : Option String} {t' : Tree}
    (h : t.create_node tag id parent expanded data = .ok t') :
    CoreInvariants t' :=
  add_node_core hw h

/-- Claim C4: every public mutation (`add_node`, `create_node`,
`remove_node`, `remove_subtree`, `link_past_node`, `move_node`, `paste`)
that succeeds on a tree satisfying the invariants leaves a tree in which
at most one node is parentless, the parentless node of a non-empty tree
is the recorded root, and the parent relation is acyclic.  The `move_node`
conjunct carries the restriction `source ≠ destination`: the guard does
not rule out moving a node under itself, and that degenerate call breaks
acyclicity (see the companion counterexample). -/
theorem C4_mutations_preserve_core_invariants :
    (∀ (t : Tree) (node : Node) (pid : Option Nat) (t' : Tree),
      WF t → t.add_node node pid = .ok t' → CoreInvariants t') ∧
    (∀ (t : Tree) (tag : String) (i : Nat) (parent : Option Nat)
      (e : Bool) (d : Option String) (t' : Tree),
      WF t → t.create_node tag i parent e d = .ok t' → CoreInvariants t') ∧
    (∀ (t : Tree) (node_id : Option Nat) (t' : Tree) (cnt : Nat),
      WF t → t.remove_node node_id = .ok (t', cnt) → CoreInvariants t') ∧
    (∀ (t : Tree) (node_id : Option Nat) (t' sub : Tree),
      WF t → t.remove_subtree node_id = .ok (t', sub) → CoreInvariants t') ∧
    (∀ (t : Tree) (node_id : Nat) (t' : Tree),
      WF t → t.link_past_node node_id = .ok t' → CoreInvariants t') ∧
    (∀ (t : Tree) (src dst : Nat) (t' : Tree),
      WF t → src ≠ dst → t.move_node src dst = .ok t' → CoreInvariants t') ∧
    (∀ (t other : Tree) (node_id : Option Nat) (t' : Tree),
      WF t → WF other → t.paste node_id other = .ok t' → CoreInvariants t') :=
  ⟨fun _ _ _ _ hw h => add_node_core hw h,
   fun _ _ _ _ _ _ _ hw h => create_node_core hw h,
   fun _ _ _ _ hw h => remove_node_core hw h,
   fun _ _ _ _ hw h => remove_subtree_core hw h,
   fun _ _ _ hw h => link_past_node_core hw h,
   fun _ _ _ _ hw hne h => move_node_core hw hne h,
   fun _ _ _ _ hw hwo h => paste_core hw hwo h⟩

/-- Claim C4, witness: one successful concrete call of each mutation on
the example trees, with the invariants established on every result. -/
theorem C4_mutations_preserve_core_invariants_witness :
    (∃ t', tHarry.add_node ⟨6, "Mary", true, none, [], none⟩ (some 3) =
      .ok t' ∧ CoreInvariants t') ∧
    (∃ t', tHarry.create_node "Mark" 7 (some 3) true none = .ok t' ∧
      CoreInvariants t') ∧
    (∃ t' cnt, tHarry.remove_node (some 2) = .ok (t', cnt) ∧
      CoreInvariants t') ∧
    (∃ t' sub, tHarry.remove_subtree (some 2) = .ok (t', sub) ∧
      CoreInvariants t') ∧
    (∃ t', tHarry.link_past_node 2 = .ok t' ∧ CoreInvariants t') ∧
    (∃ t', tHarry.move_node 4 3 = .ok t' ∧ CoreInvariants t') ∧
    (∃ t', tHarry.paste (some 5) tGraft = .ok t' ∧ CoreInvariants t') :=
  ⟨⟨_, rfl, C4_mutations_preserve_core_invariants.1 tHarry
      ⟨6, "Mary", true, none, [], none⟩ (some 3) _ wf_tHarry rfl⟩,
   ⟨_, rfl, C4_mutations_preserve_core_invariants.2.1 tHarry
      "Mark" 7 (some 3) true none _ wf_tHarry rfl⟩,
   ⟨_, _, rfl, C4_mutations_preserve_core_invariants.2.2.1 tHarry
      (some 2) _ _ wf_tHarry rfl⟩,
   ⟨_, _, rfl, C4_mutations_preserve_core_invariants.2.2.2.1 tHarry
      (some 2) _ _ wf_tHarry rfl⟩,
   ⟨_, rfl, C4_mutations_preserve_core_invariants.2.2.2.2.1 tHarry
      2 _ wf_tHarry rfl⟩,
   ⟨_, rfl, C4_mutations_preserve_core_invariants.2.2.2.2.2.1 tHarry
      4 3 _ wf_tHarry (by decide) rfl⟩,
   ⟨_, rfl, C4_mutations_preserve_core_invariants.2.2.2.2.2.2 tHarry
      tGraft (some 5) _ wf_tHarry wf_tGraft rfl⟩⟩

end TTree
